import Mathlib

/-! # stack_pool (src/exam/stack_exam.cpp)

A shallow embedding of the class template `stack_pool<T, N>` and of its
forward iterator `_iterator`, followed by theorems about them.

Modelling conventions.

* Handles (`N = std::size_t`) are natural numbers.  The arithmetic the class
  performs on them (`capacity()+1`, `capacity()*2`, `i+1`) cannot wrap before
  the backing `std::vector` has run out of address space, so no modulus is
  applied; allocation failure of the vector is not modelled.
* The value type `T` is a parameter; `value{}` is `default`.  Values are only
  stored and copied, so the concrete runs use `Int` for `int`.
* The backing `std::vector<node_t>` is the record `StdVector`: the stored
  elements and the capacity, which `std::vector` keeps apart.  The class
  reports `pool.capacity()` as its `capacity()` and checks handles against it.
* A call either returns, or stops in one of three ways, see `Fault`.
* `while` loops (`free_stack`, a traversal with the iterator) take a bound on
  the number of iterations as their first argument.
* `std::cout` output of `free_stack` and of `main` is not modelled.

Layout: the embedding; the predicates and runs used to state the theorems
(`IsChain`, `Client`, `Step`, `Reach`, `Inv`, `Built`, `PushOnly`, `push_all`,
the standard algorithms `max_element` and `min_element` over the iterator);
lemmas on single calls; the proof that every reachable state satisfies `Inv`;
the theorems for the numbered claims C1 to C20 of the specification.
-/

deriving instance DecidableEq for Except

namespace StackPool

/-- Ways in which a call does not return a result. -/
inductive Fault where
  /-- `AP_ERROR(x > 0 && x <= capacity()) << "Invalid index"` fired.  The
  macro comes from `ap_error.hpp`, which is not in the repository; the spec
  describes it as a facility that aborts or raises a reportable failure when
  its condition is false. -/
  | invalid_index
  /-- `pool[x-1]` was evaluated for a position that holds no element of the
  vector (undefined behaviour in C++). -/
  | out_of_storage
  /-- The loop bound given to a model of a `while` loop was too small. -/
  | out_of_fuel
  deriving DecidableEq, Repr

/-- The struct `stack_pool::node_t`. -/
structure node_t (T : Type) where
  value : T
  next : Nat
  deriving DecidableEq, Repr

/-- Modelled from the spec: the backing `std::vector<node_t>` is not part of
the repository; the spec describes it as a growable array "offering
reserve/append/index-access with amortized-doubling growth".  `elems` are the
stored elements (`size()` of them) and `cap` is `capacity()`. -/
structure StdVector (α : Type) where
  elems : List α
  cap : Nat
  deriving DecidableEq, Repr

/-- Model of `std::vector::size`. -/
def StdVector.size {α : Type} (v : StdVector α) : Nat := v.elems.length

/-- Model of `std::vector::capacity`. -/
def StdVector.capacity {α : Type} (v : StdVector α) : Nat := v.cap

/-- Modelled from the spec: `std::vector::reserve(n)` raises the capacity to
`n` when it is smaller and does nothing otherwise; elements are untouched. -/
def StdVector.reserve {α : Type} (n : Nat) (v : StdVector α) : StdVector α :=
  if v.cap < n then { v with cap := n } else v

/-- Modelled from the spec: `std::vector::emplace_back` appends one element;
when the vector is full the capacity doubles (it becomes 1 when it was 0). -/
def StdVector.emplace_back {α : Type} (x : α) (v : StdVector α) : StdVector α :=
  { elems := v.elems ++ [x],
    cap := if v.elems.length < v.cap then v.cap else v.elems.length + max v.elems.length 1 }

/-- The class `stack_pool<T, N>`: its two data members. -/
structure stack_pool (T : Type) where
  pool : StdVector (node_t T)
  free_nodes : Nat
  deriving DecidableEq, Repr

variable {T : Type}

/-- The default constructor `stack_pool()`: no storage, `free_nodes` is 0. -/
def stack_pool.empty_pool : stack_pool T := { pool := { elems := [], cap := 0 }, free_nodes := 0 }

/-- The member `end()`. -/
def stack_end : Nat := 0

/-- The member `new_stack()`. -/
def new_stack (_p : stack_pool T) : Nat := stack_end

/-- The member `empty(x)`. -/
def empty (x : Nat) : Bool := x == stack_end

/-- The member `capacity()`. -/
def capacity (p : stack_pool T) : Nat := p.pool.capacity

/-- The member `node(x)`, that is `pool[x-1]`.  For `x = 0` the unsigned
`x-1` is the largest `size_t`, outside every vector. -/
def node (p : stack_pool T) (x : Nat) : Except Fault (node_t T) :=
  if x = 0 then .error .out_of_storage
  else match p.pool.elems[x - 1]? with
    | some nd => .ok nd
    | none => .error .out_of_storage

/-- Assignment through the reference returned by `node(x)`. -/
def set_node (p : stack_pool T) (x : Nat) (nd : node_t T) : Except Fault (stack_pool T) :=
  if x = 0 then .error .out_of_storage
  else if x - 1 < p.pool.elems.length then
    .ok { p with pool := { p.pool with elems := p.pool.elems.set (x - 1) nd } }
  else .error .out_of_storage

/-- The member `value(x)` read as an rvalue. -/
def value (p : stack_pool T) (x : Nat) : Except Fault T :=
  (node p x).map (fun nd => nd.value)

/-- The statement `value(x) = v`. -/
def set_value (p : stack_pool T) (x : Nat) (v : T) : Except Fault (stack_pool T) := do
  let nd ← node p x
  set_node p x { nd with value := v }

/-- The member `next(x)` read as an rvalue. -/
def next (p : stack_pool T) (x : Nat) : Except Fault Nat :=
  if 0 < x ∧ x ≤ capacity p then (node p x).map (fun nd => nd.next)
  else .error .invalid_index

/-- The statement `next(x) = y`. -/
def set_next (p : stack_pool T) (x : Nat) (y : Nat) : Except Fault (stack_pool T) :=
  if 0 < x ∧ x ≤ capacity p then do
    let nd ← node p x
    set_node p x { nd with next := y }
  else .error .invalid_index

/-- The `for` loop of `_emplace_back`: `k` is the number of iterations left,
`i` the loop variable. -/
def _emplace_back_loop [Inhabited T] : Nat → Nat → StdVector (node_t T) → StdVector (node_t T)
  | 0, _, v => v
  | k + 1, i, v => _emplace_back_loop k (i + 1) (v.emplace_back { value := default, next := i + 1 })

/-- The member `_emplace_back(start, end)`. -/
def _emplace_back [Inhabited T] (start stop : Nat) (p : stack_pool T) : stack_pool T :=
  let v := _emplace_back_loop (stop - start) start p.pool
  { pool := v.emplace_back { value := default, next := p.free_nodes }, free_nodes := start }

/-- The member `_reserve(n)`. -/
def _reserve [Inhabited T] (n : Nat) (p : stack_pool T) : stack_pool T :=
  let tmp := capacity p + 1
  _emplace_back tmp n { p with pool := p.pool.reserve n }

/-- The member `reserve(n)`. -/
def reserve [Inhabited T] (n : Nat) (p : stack_pool T) : stack_pool T := _reserve n p

/-- The constructor `stack_pool(n)`. -/
def stack_pool.with_nodes [Inhabited T] (n : Nat) : stack_pool T := reserve n stack_pool.empty_pool

/-- The member `check_capacity()`. -/
def check_capacity [Inhabited T] (p : stack_pool T) : stack_pool T :=
  let p1 := if capacity p = 0 then reserve 1 p else p
  if !empty p1.free_nodes then p1 else reserve (capacity p1 * 2) p1

/-- The member `_push(val, head)`. -/
def _push [Inhabited T] (val : T) (head : Nat) (p : stack_pool T) : Except Fault (stack_pool T × Nat) := do
  let p1 := check_capacity p
  let tmp := p1.free_nodes
  let nx ← next p1 p1.free_nodes
  let p2 := { p1 with free_nodes := nx }
  let p3 ← set_value p2 tmp val
  let p4 ← set_next p3 tmp head
  pure (p4, tmp)

/-- The member `push(val, head)`. -/
def push [Inhabited T] (val : T) (head : Nat) (p : stack_pool T) : Except Fault (stack_pool T × Nat) :=
  _push val head p

/-- The member `_pop(x)`. -/
def _pop (x : Nat) (p : stack_pool T) : Except Fault (stack_pool T × Nat) := do
  let tmp ← next p x
  let p1 ← set_next p x p.free_nodes
  pure ({ p1 with free_nodes := x }, tmp)

/-- The member `pop(x)`. -/
def pop (x : Nat) (p : stack_pool T) : Except Fault (stack_pool T × Nat) := _pop x p

/-- The member `free_stack(x)`; the first argument bounds the number of
iterations of its `while` loop. -/
def free_stack : Nat → Nat → stack_pool T → Except Fault (stack_pool T × Nat)
  | fuel, x, p =>
    if empty x then .ok (p, x)
    else match fuel with
      | 0 => .error .out_of_fuel
      | f + 1 =>
        match pop x p with
        | .ok (p1, x1) => free_stack f x1 p1
        | .error e => .error e

/-- The values seen by `for (auto it = p.begin(x); it != p.end(x); ++it)`
reading `*it`; the first argument bounds the number of iterations. -/
def iterate : Nat → stack_pool T → Nat → Except Fault (List T)
  | fuel, p, x =>
    if x = stack_end then .ok []
    else match fuel with
      | 0 => .error .out_of_fuel
      | f + 1 =>
        match value p x, next p x with
        | .ok v, .ok x1 => (iterate f p x1).map (fun vs => v :: vs)
        | .error e, _ => .error e
        | _, .error e => .error e

/-- Handle `x` is the head of the `next`-chain that visits exactly the handles
`l`, in this order, and then reaches the sentinel 0.  Every handle on it passes
the bounds check of `next` and denotes a stored slot. -/
def IsChain (p : stack_pool T) : Nat → List Nat → Prop
  | h, [] => h = 0
  | h, x :: l => h = x ∧ 0 < x ∧ x ≤ capacity p ∧
      ∃ nd, p.pool.elems[x - 1]? = some nd ∧ IsChain p nd.next l

/-- The values stored in the slots `l`, in this order. -/
def vals (p : stack_pool T) (l : List Nat) : List T :=
  l.filterMap (fun x => (p.pool.elems[x - 1]?).map (fun nd => nd.value))

/-- A client of the pool: the pool and the heads of the stacks the client
holds, in the order in which the stacks were created. -/
structure Client (T : Type) where
  pool : stack_pool T
  heads : List Nat

/-- One operation of a client on the pool.  The label is the position, in
`heads`, of the stack the operation works on (`none` for `new_stack` and
`reserve`).  A `push`, `pop` or `free_stack` is applied to the head of a held
stack and replaces that head by the returned one; a `pop` needs a non-empty
stack; a value is written through a handle of a held stack.  `reserve(n)` is
called to grow the pool, with `n` above the current capacity: this is the case
`_reserve` is written for and the way `check_capacity` calls it.  What a call
with `n <= capacity()` does, and what it does to the stacks pushed afterwards,
is examined apart, with claims C1, C3, C5, C6, C13, C16 and C19. -/
inductive Step [Inhabited T] : Client T → Option Nat → Client T → Prop
  | new_stack (p : stack_pool T) (hs : List Nat) :
      Step ⟨p, hs⟩ none ⟨p, hs ++ [new_stack p]⟩
  | push (p : stack_pool T) (hs1 : List Nat) (h : Nat) (hs2 : List Nat) (v : T)
      (q : stack_pool T) (h2 : Nat) :
      push v h p = .ok (q, h2) →
      Step ⟨p, hs1 ++ h :: hs2⟩ (some hs1.length) ⟨q, hs1 ++ h2 :: hs2⟩
  | pop (p : stack_pool T) (hs1 : List Nat) (h : Nat) (hs2 : List Nat)
      (q : stack_pool T) (h2 : Nat) :
      empty h = false → pop h p = .ok (q, h2) →
      Step ⟨p, hs1 ++ h :: hs2⟩ (some hs1.length) ⟨q, hs1 ++ h2 :: hs2⟩
  | free_stack (p : stack_pool T) (hs1 : List Nat) (h : Nat) (hs2 : List Nat) (fuel : Nat)
      (q : stack_pool T) (h2 : Nat) :
      free_stack fuel h p = .ok (q, h2) →
      Step ⟨p, hs1 ++ h :: hs2⟩ (some hs1.length) ⟨q, hs1 ++ h2 :: hs2⟩
  | write (p : stack_pool T) (hs1 : List Nat) (h : Nat) (hs2 : List Nat) (l : List Nat)
      (x : Nat) (v : T) (q : stack_pool T) :
      IsChain p h l → x ∈ l → set_value p x v = .ok q →
      Step ⟨p, hs1 ++ h :: hs2⟩ (some hs1.length) ⟨q, hs1 ++ h :: hs2⟩
  | reserve (p : stack_pool T) (hs : List Nat) (n : Nat) :
      capacity p < n → Step ⟨p, hs⟩ none ⟨reserve n p, hs⟩

/-- The states a client reaches from the default-constructed pool, holding no
stack, by the operations of `Step`. -/
inductive Reach [Inhabited T] : Client T → Prop
  | init : Reach ⟨stack_pool.empty_pool, []⟩
  | step {c d : Client T} {lab : Option Nat} : Reach c → Step c lab d → Reach d

/-- The representation invariant: the storage is full (`size() == capacity()`),
the free list is the chain `fl`, the held stacks are the chains `ls`, and every
slot `1..capacity()` lies on exactly one of these chains. -/
def Inv (c : Client T) (fl : List Nat) (ls : List (List Nat)) : Prop :=
  c.pool.pool.elems.length = c.pool.pool.cap ∧
  IsChain c.pool c.pool.free_nodes fl ∧
  List.Forall₂ (IsChain c.pool) c.heads ls ∧
  List.Perm (fl ++ ls.flatten) (List.range' 1 c.pool.pool.cap)

/-- The stack at position `i` of `heads` was created by `new_stack()` in a
reachable state and since then exactly the values `vs` were pushed onto it, the
last one first in `vs`; the client may have worked on other stacks, created
stacks and grown the pool in between, but did nothing else to this stack. -/
inductive Built [Inhabited T] (i : Nat) : List T → Client T → Prop
  | new (c : Client T) :
      Reach c → c.heads.length = i → Built i [] ⟨c.pool, c.heads ++ [new_stack c.pool]⟩
  | push (p : stack_pool T) (hs1 : List Nat) (h : Nat) (hs2 : List Nat) (v : T)
      (q : stack_pool T) (h2 : Nat) (vs : List T) :
      Built i vs ⟨p, hs1 ++ h :: hs2⟩ → hs1.length = i → push v h p = .ok (q, h2) →
      Built i (v :: vs) ⟨q, hs1 ++ h2 :: hs2⟩
  | other (c d : Client T) (lab : Option Nat) (vs : List T) :
      Built i vs c → Step c lab d → lab ≠ some i → Built i vs d

/-- The handles visited by following `next` from `x` until the sentinel; the
first argument bounds the number of steps. -/
def handles : Nat → stack_pool T → Nat → Except Fault (List Nat)
  | fuel, p, x =>
    if x = stack_end then .ok []
    else match fuel with
      | 0 => .error .out_of_fuel
      | f + 1 =>
        match next p x with
        | .ok x1 => (handles f p x1).map (fun l => x :: l)
        | .error e => .error e

/-- The number of slots on the free list. -/
def free_count (fuel : Nat) (p : stack_pool T) : Except Fault Nat :=
  (handles fuel p p.free_nodes).map List.length

/-- The number of slots on the stacks with the given heads. -/
def occupied_count (fuel : Nat) (p : stack_pool T) : List Nat → Except Fault Nat
  | [] => .ok 0
  | h :: hs =>
    match handles fuel p h, occupied_count fuel p hs with
    | .ok l, .ok m => .ok (l.length + m)
    | .error e, _ => .error e
    | _, .error e => .error e

/-- The statements `l = pool.push(v1, l); ... l = pool.push(vk, l);` of
`main`: the values are pushed one after the other onto the stack with head
`l`. -/
def push_all [Inhabited T] : List T → Nat → stack_pool T → Except Fault (stack_pool T × Nat)
  | [], l, p => .ok (p, l)
  | v :: vs, l, p =>
    match push v l p with
    | .ok (q, l2) => push_all vs l2 q
    | .error e => .error e

/-- The pool states after a number of pushes, and nothing else, made on a
default-constructed pool; each push may go onto any head. -/
inductive PushOnly [Inhabited T] : Nat → stack_pool T → Prop
  | init : PushOnly 0 stack_pool.empty_pool
  | push {k : Nat} {p q : stack_pool T} {v : T} {head h : Nat} :
      PushOnly k p → push v head p = .ok (q, h) → PushOnly (k + 1) q

/-- Modelled from the spec: `std::max_element` and `std::min_element` belong
to the standard library, not to the repository; the spec calls them generic
algorithms expecting forward-iterator semantics.  This is the loop they share,
`for (; first != last; ++first) if (better(*best, *first)) best = first;`, run
with the iterator of the pool: an iterator is the index it holds, `*it` is
`value(index)`, `++it` is `index = next(index)`, two iterators are equal when
their indices are, and `last` is `end(x)`, the iterator holding `end()`.  The
first argument bounds the number of iterations. -/
def select_element_loop (better : Int → Int → Bool) :
    Nat → stack_pool Int → Nat → Nat → Except Fault Nat
  | fuel, p, best, first =>
    if first = stack_end then .ok best
    else match fuel with
      | 0 => .error .out_of_fuel
      | f + 1 =>
        match value p best, value p first, next p first with
        | .ok a, .ok b, .ok nx =>
          select_element_loop better f p (if better a b then first else best) nx
        | .error e, _, _ => .error e
        | _, .error e, _ => .error e
        | _, _, .error e => .error e

/-- Modelled from the spec: the head of the standard algorithms,
`if (first == last) return last; best = first; ++first;`, followed by the
loop. -/
def select_element (better : Int → Int → Bool) (fuel : Nat) (p : stack_pool Int) (first : Nat) :
    Except Fault Nat :=
  if first = stack_end then .ok stack_end
  else match next p first with
    | .ok nx => select_element_loop better fuel p first nx
    | .error e => .error e

/-- Modelled from the spec: `std::max_element(pool.begin(x), pool.end(x))`,
which replaces the candidate when `*largest < *first`; the result is the index
held by the returned iterator. -/
def max_element (fuel : Nat) (p : stack_pool Int) (x : Nat) : Except Fault Nat :=
  select_element (fun largest first => decide (largest < first)) fuel p x

/-- Modelled from the spec: `std::min_element(pool.begin(x), pool.end(x))`,
which replaces the candidate when `*first < *smallest`; the result is the index
held by the returned iterator. -/
def min_element (fuel : Nat) (p : stack_pool Int) (x : Nat) : Except Fault Nat :=
  select_element (fun smallest first => decide (first < smallest)) fuel p x

/-- The member `_pop(x)` once more, this time together with the pool it leaves
behind when it stops: the statements are those of `_pop`, and a statement that
stops leaves the pool as the statements before it made it. -/
def pop_leaving (x : Nat) (p : stack_pool T) : stack_pool T × Except Fault Nat :=
  match next p x with
  | .error e => (p, .error e)
  | .ok tmp =>
    match set_next p x p.free_nodes with
    | .error e => (p, .error e)
    | .ok p1 => ({ p1 with free_nodes := x }, .ok tmp)

/-! ## Accessors -/

theorem node_eq_ok {p : stack_pool T} {x : Nat} {nd : node_t T} (hx : 0 < x)
    (h : p.pool.elems[x - 1]? = some nd) : node p x = .ok nd := by
  simp [node, h, Nat.pos_iff_ne_zero.mp hx]

theorem node_ok_inv {p : stack_pool T} {x : Nat} {nd : node_t T} (h : node p x = .ok nd) :
    0 < x ∧ p.pool.elems[x - 1]? = some nd := by
  unfold node at h
  split at h
  · cases h
  · rename_i hx
    split at h
    · rename_i nd1 hnd
      cases h
      exact ⟨Nat.pos_of_ne_zero hx, hnd⟩
    · cases h

theorem value_eq_ok {p : stack_pool T} {x : Nat} {nd : node_t T} (hx : 0 < x)
    (h : p.pool.elems[x - 1]? = some nd) : value p x = .ok nd.value := by
  simp [value, node_eq_ok hx h, Except.map]

theorem next_eq_ok {p : stack_pool T} {x : Nat} {nd : node_t T} (hx : 0 < x)
    (hc : x ≤ capacity p) (h : p.pool.elems[x - 1]? = some nd) : next p x = .ok nd.next := by
  simp [next, node_eq_ok hx h, Except.map, hx, hc]

theorem value_ok_inv {p : stack_pool T} {x : Nat} {v : T} (h : value p x = .ok v) :
    0 < x ∧ ∃ nd, p.pool.elems[x - 1]? = some nd ∧ nd.value = v := by
  unfold value at h
  cases hn : node p x with
  | error e => rw [hn] at h; cases h
  | ok nd =>
    rw [hn] at h
    obtain ⟨hx, hnd⟩ := node_ok_inv hn
    refine ⟨hx, nd, hnd, ?_⟩
    simpa [Except.map] using h

theorem next_ok_inv {p : stack_pool T} {x n : Nat} (h : next p x = .ok n) :
    0 < x ∧ x ≤ capacity p ∧ ∃ nd, p.pool.elems[x - 1]? = some nd ∧ nd.next = n := by
  unfold next at h
  split at h
  · rename_i hb
    cases hn : node p x with
    | error e => rw [hn] at h; cases h
    | ok nd =>
      rw [hn] at h
      obtain ⟨hx, hnd⟩ := node_ok_inv hn
      refine ⟨hb.1, hb.2, nd, hnd, ?_⟩
      simpa [Except.map] using h
  · cases h

theorem set_node_eq_ok {p : stack_pool T} {x : Nat} {d : node_t T} (nd : node_t T) (hx : 0 < x)
    (h : p.pool.elems[x - 1]? = some d) :
    set_node p x nd = .ok { p with pool := { p.pool with elems := p.pool.elems.set (x - 1) nd } } := by
  have hlt : x - 1 < p.pool.elems.length := (List.getElem?_eq_some.mp h).1
  simp [set_node, Nat.pos_iff_ne_zero.mp hx, hlt]

theorem set_value_eq_ok {p : stack_pool T} {x : Nat} {d : node_t T} (v : T) (hx : 0 < x)
    (h : p.pool.elems[x - 1]? = some d) :
    set_value p x v = .ok { p with pool := { p.pool with
      elems := p.pool.elems.set (x - 1) { d with value := v } } } := by
  simp only [set_value, node_eq_ok hx h]
  exact set_node_eq_ok _ hx h

theorem set_next_eq_ok {p : stack_pool T} {x : Nat} {d : node_t T} (y : Nat) (hx : 0 < x)
    (hc : x ≤ capacity p) (h : p.pool.elems[x - 1]? = some d) :
    set_next p x y = .ok { p with pool := { p.pool with
      elems := p.pool.elems.set (x - 1) { d with next := y } } } := by
  simp only [set_next, node_eq_ok hx h, hx, hc, and_self, if_true]
  exact set_node_eq_ok _ hx h

/-! ## Chains -/

theorem isChain_nil {p : stack_pool T} {h : Nat} : IsChain p h [] ↔ h = 0 := by
  simp [IsChain]

theorem isChain_cons {p : stack_pool T} {h x : Nat} {l : List Nat} :
    IsChain p h (x :: l) ↔ h = x ∧ 0 < x ∧ x ≤ capacity p ∧
      ∃ nd, p.pool.elems[x - 1]? = some nd ∧ IsChain p nd.next l := by
  simp [IsChain]

theorem IsChain.frame {p q : stack_pool T} (hcap : capacity p ≤ capacity q) :
    ∀ {l : List Nat} {h : Nat}, (∀ x ∈ l, q.pool.elems[x - 1]? = p.pool.elems[x - 1]?) →
      IsChain p h l → IsChain q h l
  | [], h, _, hc => by simpa [IsChain] using hc
  | x :: l, h, hq, hc => by
    rw [isChain_cons] at hc ⊢
    obtain ⟨h1, h2, h3, nd, h4, h5⟩ := hc
    refine ⟨h1, h2, le_trans h3 hcap, nd, ?_, ?_⟩
    · rw [hq x (List.mem_cons_self _ _)]; exact h4
    · exact IsChain.frame hcap (fun y hy => hq y (List.mem_cons_of_mem _ hy)) h5

theorem vals_frame {p q : stack_pool T} {l : List Nat}
    (hq : ∀ x ∈ l, q.pool.elems[x - 1]? = p.pool.elems[x - 1]?) : vals q l = vals p l := by
  induction l with
  | nil => rfl
  | cons x l ih =>
    have hx := hq x (List.mem_cons_self _ _)
    have hl := ih (fun y hy => hq y (List.mem_cons_of_mem _ hy))
    simp only [vals, List.filterMap_cons, hx] at hl ⊢
    rw [hl]

theorem vals_nil (p : stack_pool T) : vals p [] = [] := rfl

theorem vals_cons {p : stack_pool T} {x : Nat} {l : List Nat} {nd : node_t T}
    (h : p.pool.elems[x - 1]? = some nd) : vals p (x :: l) = nd.value :: vals p l := by
  simp [vals, List.filterMap_cons, h]

theorem IsChain.stored {p : stack_pool T} :
    ∀ {l : List Nat} {h : Nat}, IsChain p h l →
      ∀ x ∈ l, 0 < x ∧ x ≤ capacity p ∧ x ≤ p.pool.elems.length
  | [], _, _, x, hx => by cases hx
  | y :: l, h, hc, x, hx => by
    rw [isChain_cons] at hc
    obtain ⟨_, h2, h3, nd, h4, h5⟩ := hc
    rcases List.mem_cons.mp hx with rfl | hx
    · have := (List.getElem?_eq_some.mp h4).1
      exact ⟨h2, h3, by omega⟩
    · exact IsChain.stored h5 x hx

theorem IsChain.unique {p : stack_pool T} :
    ∀ {l l2 : List Nat} {h : Nat}, IsChain p h l → IsChain p h l2 → l = l2
  | [], [], _, _, _ => rfl
  | [], y :: l2, h, h1, h2 => by
    rw [isChain_nil] at h1
    rw [isChain_cons] at h2
    omega
  | x :: l, [], h, h1, h2 => by
    rw [isChain_nil] at h2
    rw [isChain_cons] at h1
    omega
  | x :: l, y :: l2, h, h1, h2 => by
    rw [isChain_cons] at h1 h2
    obtain ⟨a1, _, _, nd, a4, a5⟩ := h1
    obtain ⟨b1, _, _, nd2, b4, b5⟩ := h2
    have hxy : x = y := by omega
    subst hxy
    rw [a4] at b4
    cases b4
    rw [IsChain.unique a5 b5]

theorem IsChain.suffix {p : stack_pool T} :
    ∀ {a : List Nat} {b : List Nat} {x h : Nat}, IsChain p h (a ++ x :: b) → IsChain p x (x :: b)
  | [], b, x, h, hc => by
    have hc2 := hc
    rw [List.nil_append, isChain_cons] at hc2
    obtain ⟨h1, _⟩ := hc2
    subst h1
    exact hc
  | y :: a, b, x, h, hc => by
    rw [List.cons_append, isChain_cons] at hc
    obtain ⟨_, _, _, nd, _, h5⟩ := hc
    exact IsChain.suffix h5

theorem IsChain.nodup {p : stack_pool T} :
    ∀ {l : List Nat} {h : Nat}, IsChain p h l → l.Nodup
  | [], _, _ => List.nodup_nil
  | x :: l, h, hc => by
    have hc2 := hc
    rw [isChain_cons] at hc2
    obtain ⟨h1, _, _, nd, _, h5⟩ := hc2
    refine List.nodup_cons.mpr ⟨?_, IsChain.nodup h5⟩
    intro hx
    obtain ⟨a, b, hab⟩ := List.append_of_mem hx
    rw [hab] at h5
    have hs := IsChain.suffix h5
    rw [h1] at hc
    have := IsChain.unique hc hs
    have hlen := congrArg List.length this
    rw [hab] at hlen
    simp at hlen
    omega

theorem IsChain.cases_head {p : stack_pool T} {h : Nat} {l : List Nat} (hc : IsChain p h l) :
    (h = 0 ∧ l = []) ∨ (0 < h ∧ ∃ l2, l = h :: l2) := by
  cases l with
  | nil => left; exact ⟨isChain_nil.mp hc, rfl⟩
  | cons x l =>
    right
    rw [isChain_cons] at hc
    obtain ⟨h1, h2, _⟩ := hc
    subst h1
    exact ⟨h2, l, rfl⟩

theorem vals_length {p : stack_pool T} :
    ∀ {l : List Nat} {h : Nat}, IsChain p h l → (vals p l).length = l.length
  | [], _, _ => rfl
  | x :: l, h, hc => by
    rw [isChain_cons] at hc
    obtain ⟨_, _, _, nd, h4, h5⟩ := hc
    rw [vals_cons h4, List.length_cons, List.length_cons, vals_length h5]

theorem iterate_of_chain {p : stack_pool T} :
    ∀ {l : List Nat} {h : Nat}, IsChain p h l →
      ∀ fuel, l.length ≤ fuel → iterate fuel p h = .ok (vals p l)
  | [], h, hc, fuel, _ => by
    rw [isChain_nil] at hc
    subst hc
    unfold iterate
    simp [stack_end, vals]
  | x :: l, h, hc, fuel, hf => by
    rw [isChain_cons] at hc
    obtain ⟨h1, h2, h3, nd, h4, h5⟩ := hc
    subst h1
    cases fuel with
    | zero => simp at hf
    | succ f =>
      have ih := iterate_of_chain h5 f (by simpa using hf)
      unfold iterate
      simp only [stack_end, Nat.pos_iff_ne_zero.mp h2, if_false, value_eq_ok h2 h4,
        next_eq_ok h2 h3 h4, ih, vals_cons h4]
      rfl

theorem chain_of_iterate {p : stack_pool T} :
    ∀ {fuel : Nat} {h : Nat} {vs : List T}, iterate fuel p h = .ok vs →
      ∃ l, IsChain p h l ∧ vals p l = vs ∧ l.length ≤ fuel
  | fuel, h, vs, hi => by
    unfold iterate at hi
    split at hi
    · rename_i h0
      cases hi
      exact ⟨[], by simpa [IsChain, stack_end] using h0, rfl, by simp⟩
    · rename_i h0
      cases fuel with
      | zero => cases hi
      | succ f =>
        simp only at hi
        split at hi
        · rename_i v x1 hv hn
          cases hr : iterate f p x1 with
          | error e => rw [hr] at hi; cases hi
          | ok ws =>
            rw [hr] at hi
            obtain ⟨l, hl, hvals, hlen⟩ := chain_of_iterate hr
            obtain ⟨hx, hc, nd, hnd, hnx⟩ := next_ok_inv hn
            obtain ⟨_, nd2, hnd2, hval⟩ := value_ok_inv hv
            rw [hnd] at hnd2
            cases hnd2
            refine ⟨h :: l, ?_, ?_, by simpa using hlen⟩
            · rw [isChain_cons]
              exact ⟨rfl, hx, hc, nd, hnd, by rw [hnx]; exact hl⟩
            · rw [vals_cons hnd, hvals, hval]
              simpa [Except.map] using hi
        · cases hi
        · cases hi

/-! ## Growth -/

theorem emplace_back_elems {α : Type} (x : α) (v : StdVector α) :
    (v.emplace_back x).elems = v.elems ++ [x] := rfl

theorem emplace_back_cap_of_room {α : Type} (x : α) (v : StdVector α)
    (h : v.elems.length < v.cap) : (v.emplace_back x).cap = v.cap := by
  simp [StdVector.emplace_back, h]

theorem emplace_back_cap_le {α : Type} (x : α) (v : StdVector α) :
    v.cap ≤ (v.emplace_back x).cap ∨ v.cap < v.elems.length := by
  unfold StdVector.emplace_back
  by_cases h : v.elems.length < v.cap
  · left; simp [h]
  · by_cases h2 : v.cap < v.elems.length
    · right; exact h2
    · left; simp only [h, if_false]; omega

theorem emplace_back_loop_elems [Inhabited T] :
    ∀ (k i : Nat) (v : StdVector (node_t T)),
      (_emplace_back_loop k i v).elems =
        v.elems ++ (List.range' i k).map (fun j => ({ value := default, next := j + 1 } : node_t T))
  | 0, _, v => by simp [_emplace_back_loop]
  | k + 1, i, v => by
    rw [_emplace_back_loop, emplace_back_loop_elems k (i + 1), emplace_back_elems]
    simp [List.range'_succ]

theorem emplace_back_loop_cap [Inhabited T] :
    ∀ (k i : Nat) (v : StdVector (node_t T)), v.elems.length + k ≤ v.cap →
      (_emplace_back_loop k i v).cap = v.cap
  | 0, _, v, _ => by simp [_emplace_back_loop]
  | k + 1, i, v, h => by
    have hroom : v.elems.length < v.cap := by omega
    rw [_emplace_back_loop, emplace_back_loop_cap k (i + 1)]
    · exact emplace_back_cap_of_room _ _ hroom
    · rw [emplace_back_cap_of_room _ _ hroom, emplace_back_elems]
      simp only [List.length_append, List.length_singleton]
      omega

/-- The storage after `reserve(n)`: the old slots, then one fresh slot for
each iteration of the loop of `_emplace_back`, then the slot that links to the
old free-list head.  The last slot is appended for every `n`. -/
theorem reserve_elems [Inhabited T] (n : Nat) (p : stack_pool T) :
    (reserve n p).pool.elems = p.pool.elems ++
      ((List.range' (capacity p + 1) (n - (capacity p + 1))).map
        (fun j => ({ value := default, next := j + 1 } : node_t T)) ++
        [{ value := default, next := p.free_nodes }]) := by
  simp only [reserve, _reserve, _emplace_back, emplace_back_elems, emplace_back_loop_elems]
  have : (p.pool.reserve n).elems = p.pool.elems := by
    unfold StdVector.reserve; split <;> rfl
  rw [this, List.append_assoc]

theorem reserve_free_nodes [Inhabited T] (n : Nat) (p : stack_pool T) :
    (reserve n p).free_nodes = capacity p + 1 := rfl

theorem reserve_capacity [Inhabited T] (n : Nat) (p : stack_pool T)
    (hfull : p.pool.elems.length = p.pool.cap) (hn : capacity p < n) :
    capacity (reserve n p) = n := by
  have hc : p.pool.cap < n := hn
  have hr : p.pool.reserve n = { elems := p.pool.elems, cap := n } := by
    simp [StdVector.reserve, hc]
  simp only [reserve, _reserve, _emplace_back, capacity, StdVector.capacity, hr]
  have hloop := emplace_back_loop_cap (T := T) (n - (p.pool.cap + 1)) (p.pool.cap + 1)
    { elems := p.pool.elems, cap := n } (by simp only; omega)
  rw [emplace_back_cap_of_room]
  · exact hloop
  · rw [hloop, emplace_back_loop_elems]
    simp only [List.length_append, List.length_map, List.length_range']
    omega

theorem reserve_length [Inhabited T] (n : Nat) (p : stack_pool T) :
    (reserve n p).pool.elems.length = p.pool.elems.length + (n - (capacity p + 1)) + 1 := by
  rw [reserve_elems]
  simp only [List.length_append, List.length_map, List.length_range', List.length_singleton]
  omega

theorem reserve_full [Inhabited T] (n : Nat) (p : stack_pool T)
    (hfull : p.pool.elems.length = p.pool.cap) (hn : capacity p < n) :
    (reserve n p).pool.elems.length = (reserve n p).pool.cap := by
  have h1 := reserve_capacity n p hfull hn
  have h2 := reserve_length n p
  have hc : capacity p = p.pool.cap := rfl
  have hc2 : capacity (reserve n p) = (reserve n p).pool.cap := rfl
  omega

theorem reserve_old_slot [Inhabited T] (n : Nat) (p : stack_pool T) {x : Nat} (hx : 0 < x)
    (hs : x ≤ p.pool.elems.length) :
    (reserve n p).pool.elems[x - 1]? = p.pool.elems[x - 1]? := by
  rw [reserve_elems, List.getElem?_append_left (by omega)]

theorem reserve_new_slot [Inhabited T] (n : Nat) (p : stack_pool T)
    (hfull : p.pool.elems.length = p.pool.cap) {x : Nat} (h1 : capacity p < x) (h2 : x < n) :
    (reserve n p).pool.elems[x - 1]? = some { value := default, next := x + 1 } := by
  have hc : capacity p = p.pool.cap := rfl
  rw [reserve_elems, List.getElem?_append_right (by omega),
    List.getElem?_append_left (by simp only [List.length_map, List.length_range']; omega)]
  rw [List.getElem?_map, List.getElem?_range' _ _ (by omega)]
  simp only [Option.map_some', mul_one, Option.some.injEq, node_t.mk.injEq, true_and]
  omega

theorem reserve_last_slot [Inhabited T] (n : Nat) (p : stack_pool T)
    (hfull : p.pool.elems.length = p.pool.cap) (hn : capacity p < n) :
    (reserve n p).pool.elems[n - 1]? = some { value := default, next := p.free_nodes } := by
  have hc : capacity p = p.pool.cap := rfl
  rw [reserve_elems, List.getElem?_append_right (by omega),
    List.getElem?_append_right (by simp only [List.length_map, List.length_range']; omega)]
  simp only [List.length_map, List.length_range']
  have : n - 1 - p.pool.elems.length - (n - (capacity p + 1)) = 0 := by omega
  rw [this]
  rfl

theorem IsChain.reserve [Inhabited T] {p : stack_pool T} {h : Nat} {l : List Nat} (n : Nat)
    (hfull : p.pool.elems.length = p.pool.cap) (hn : capacity p < n) (hc : IsChain p h l) :
    IsChain (reserve n p) h l := by
  refine IsChain.frame ?_ ?_ hc
  · rw [reserve_capacity n p hfull hn]; exact Nat.le_of_lt hn
  · intro x hx
    obtain ⟨h1, _, h3⟩ := hc.stored x hx
    exact reserve_old_slot n p h1 h3

theorem vals_reserve [Inhabited T] {p : stack_pool T} {h : Nat} {l : List Nat} (n : Nat)
    (hc : IsChain p h l) : vals (reserve n p) l = vals p l := by
  refine vals_frame ?_
  intro x hx
  obtain ⟨h1, _, h3⟩ := hc.stored x hx
  exact reserve_old_slot n p h1 h3

theorem reserve_fresh_chain [Inhabited T] {p : stack_pool T} {fl : List Nat} (n : Nat)
    (hfull : p.pool.elems.length = p.pool.cap) (hn : capacity p < n)
    (hfl : IsChain p p.free_nodes fl) :
    ∀ (k i : Nat), i + k = n → capacity p < i →
      IsChain (reserve n p) i (List.range' i (k + 1) ++ fl)
  | 0, i, hik, hi => by
    have hin : i = n := by omega
    subst hin
    simp only [zero_add, List.range'_one, List.singleton_append]
    rw [isChain_cons]
    refine ⟨rfl, by omega, ?_, _, reserve_last_slot i p hfull hn, hfl.reserve i hfull hn⟩
    rw [reserve_capacity i p hfull hn]
  | k + 1, i, hik, hi => by
    rw [List.range'_succ, List.cons_append, isChain_cons]
    refine ⟨rfl, by omega, ?_, _, reserve_new_slot n p hfull hi (by omega), ?_⟩
    · rw [reserve_capacity n p hfull hn]; omega
    · exact reserve_fresh_chain n hfull hn hfl k (i + 1) (by omega) (by omega)

theorem reserve_free_chain [Inhabited T] {p : stack_pool T} {fl : List Nat} (n : Nat)
    (hfull : p.pool.elems.length = p.pool.cap) (hn : capacity p < n)
    (hfl : IsChain p p.free_nodes fl) :
    IsChain (reserve n p) (reserve n p).free_nodes
      (List.range' (capacity p + 1) (n - capacity p) ++ fl) := by
  have h := reserve_fresh_chain n hfull hn hfl (n - (capacity p + 1)) (capacity p + 1)
    (by omega) (by omega)
  have e : n - (capacity p + 1) + 1 = n - capacity p := by omega
  rw [e] at h
  exact h

/-! ## One call of `check_capacity`, `push`, `pop` -/

theorem IsChain.frame_next {p q : stack_pool T} (hcap : capacity p ≤ capacity q) :
    ∀ {l : List Nat} {h : Nat},
      (∀ x ∈ l, (q.pool.elems[x - 1]?).map (fun nd => nd.next) =
        (p.pool.elems[x - 1]?).map (fun nd => nd.next)) →
      IsChain p h l → IsChain q h l
  | [], h, _, hc => by simpa [IsChain] using hc
  | x :: l, h, hq, hc => by
    rw [isChain_cons] at hc ⊢
    obtain ⟨h1, h2, h3, nd, h4, h5⟩ := hc
    have hx := hq x (List.mem_cons_self _ _)
    rw [h4] at hx
    cases hq2 : q.pool.elems[x - 1]? with
    | none => rw [hq2] at hx; cases hx
    | some nd2 =>
      rw [hq2] at hx
      simp only [Option.map_some', Option.some.injEq] at hx
      refine ⟨h1, h2, le_trans h3 hcap, nd2, rfl, ?_⟩
      rw [hx]
      exact IsChain.frame_next hcap (fun y hy => hq y (List.mem_cons_of_mem _ hy)) h5

theorem IsChain.chain_empty_of_cap_zero {p : stack_pool T} {h : Nat} {l : List Nat}
    (hc : IsChain p h l) (h0 : capacity p = 0) : l = [] ∧ h = 0 := by
  cases l with
  | nil => exact ⟨rfl, isChain_nil.mp hc⟩
  | cons x l =>
    rw [isChain_cons] at hc
    omega

/-- What `check_capacity` does to a pool whose storage is full and whose free
list is the chain `fl`. -/
theorem check_capacity_spec [Inhabited T] {p : stack_pool T} {fl : List Nat}
    (hfull : p.pool.elems.length = p.pool.cap) (hfl : IsChain p p.free_nodes fl) :
    let q := check_capacity p
    q.pool.elems.length = q.pool.cap ∧
    capacity p ≤ capacity q ∧
    capacity q = (if capacity p = 0 then 1 else if p.free_nodes = 0 then 2 * capacity p
      else capacity p) ∧
    IsChain q q.free_nodes (fl ++ List.range' (capacity p + 1) (capacity q - capacity p)) ∧
    fl ++ List.range' (capacity p + 1) (capacity q - capacity p) ≠ [] ∧
    (∀ x, 0 < x → x ≤ p.pool.elems.length → q.pool.elems[x - 1]? = p.pool.elems[x - 1]?) := by
  intro q
  by_cases h0 : capacity p = 0
  · obtain ⟨hl, hf⟩ := hfl.chain_empty_of_cap_zero h0
    subst hl
    have hq : q = reserve 1 p := by
      show check_capacity p = _
      simp [check_capacity, h0, reserve_free_nodes, empty, stack_end]
    have hcap := reserve_capacity 1 p hfull (by omega)
    have hch := reserve_free_chain 1 hfull (by omega) hfl
    rw [hq, hcap]
    refine ⟨reserve_full 1 p hfull (by omega), by omega, by simp [h0], ?_, ?_, ?_⟩
    · simpa using hch
    · simp [h0]
    · intro x hx hs; exact reserve_old_slot 1 p hx hs
  · by_cases hf : p.free_nodes = 0
    · have hl : fl = [] := by
        rcases hfl.cases_head with ⟨_, h⟩ | ⟨h, _⟩
        · exact h
        · omega
      subst hl
      have hq : q = reserve (capacity p * 2) p := by
        show check_capacity p = _
        simp [check_capacity, h0, hf, empty, stack_end]
      have hlt : capacity p < capacity p * 2 := by omega
      have hcap := reserve_capacity _ p hfull hlt
      have hch := reserve_free_chain _ hfull hlt hfl
      rw [hq, hcap]
      refine ⟨reserve_full _ p hfull hlt, by omega, by simp [h0, hf]; omega, ?_, ?_, ?_⟩
      · simpa using hch
      · have : capacity p * 2 - capacity p = (capacity p - 1) + 1 := by omega
        simp [this, List.range'_succ]
      · intro x hx hs; exact reserve_old_slot _ p hx hs
    · have hq : q = p := by
        show check_capacity p = _
        simp [check_capacity, h0, hf, empty, stack_end]
      have hl : fl ≠ [] := by
        rcases hfl.cases_head with ⟨h, _⟩ | ⟨_, l2, h⟩
        · omega
        · rw [h]; simp
      rw [hq]
      refine ⟨hfull, le_refl _, by simp [h0, hf], ?_, ?_, fun _ _ _ => rfl⟩
      · simpa using hfl
      · simpa using hl

/-- The closed form of a `push` whose `check_capacity` leaves a stored slot at
the head of the free list. -/
theorem push_eq [Inhabited T] {p : stack_pool T} {nd : node_t T} (v : T) (head : Nat)
    (h0 : 0 < (check_capacity p).free_nodes)
    (hc : (check_capacity p).free_nodes ≤ capacity (check_capacity p))
    (hnd : (check_capacity p).pool.elems[(check_capacity p).free_nodes - 1]? = some nd) :
    push v head p = .ok
      ({ pool := { elems := (check_capacity p).pool.elems.set ((check_capacity p).free_nodes - 1)
                    { value := v, next := head },
                   cap := (check_capacity p).pool.cap },
         free_nodes := nd.next }, (check_capacity p).free_nodes) := by
  have hlt : (check_capacity p).free_nodes - 1 < (check_capacity p).pool.elems.length :=
    (List.getElem?_eq_some.mp hnd).1
  simp only [push, _push, next_eq_ok h0 hc hnd, bind, Except.bind]
  rw [set_value_eq_ok (p := { check_capacity p with free_nodes := nd.next }) v h0 hnd]
  simp only
  have hsn := set_next_eq_ok
    (p := ⟨⟨(check_capacity p).pool.elems.set ((check_capacity p).free_nodes - 1) ⟨v, nd.next⟩,
      (check_capacity p).pool.cap⟩, nd.next⟩)
    (d := ⟨v, nd.next⟩) head h0 hc (by simp [List.getElem?_set_self hlt])
  rw [hsn]
  simp [pure, Except.pure, List.set_set]

/-- The closed form of a `pop` of a stored slot. -/
theorem pop_eq {p : stack_pool T} {x : Nat} {nd : node_t T} (hx : 0 < x) (hc : x ≤ capacity p)
    (hnd : p.pool.elems[x - 1]? = some nd) :
    pop x p = .ok
      ({ pool := { elems := p.pool.elems.set (x - 1) { nd with next := p.free_nodes },
                   cap := p.pool.cap },
         free_nodes := x }, nd.next) := by
  simp only [pop, _pop, next_eq_ok hx hc hnd, bind, Except.bind]
  rw [set_next_eq_ok p.free_nodes hx hc hnd]
  rfl

theorem getElem?_set_other {α : Type} (es : List α) (a : α) {h x : Nat} (hh : 0 < h) (hx : 0 < x)
    (hne : x ≠ h) : (es.set (h - 1) a)[x - 1]? = es[x - 1]? :=
  List.getElem?_set_ne (by omega)

theorem IsChain.set_slot {p : stack_pool T} {h : Nat} {l : List Nat} (k : Nat) (nd : node_t T)
    (f : Nat) (hk : 0 < k) (hnot : k ∉ l) (hc : IsChain p h l) :
    IsChain ⟨⟨p.pool.elems.set (k - 1) nd, p.pool.cap⟩, f⟩ h l := by
  have hcap : capacity p ≤ capacity (⟨⟨p.pool.elems.set (k - 1) nd, p.pool.cap⟩, f⟩ : stack_pool T) :=
    le_refl _
  refine IsChain.frame hcap ?_ hc
  intro x hx
  have hne : x ≠ k := by rintro rfl; exact hnot hx
  exact getElem?_set_other _ _ hk (hc.stored x hx).1 hne

theorem vals_set_slot {p : stack_pool T} {h : Nat} {l : List Nat} (k : Nat) (nd : node_t T)
    (f : Nat) (hk : 0 < k) (hnot : k ∉ l) (hc : IsChain p h l) :
    vals (⟨⟨p.pool.elems.set (k - 1) nd, p.pool.cap⟩, f⟩ : stack_pool T) l = vals p l := by
  refine vals_frame ?_
  intro x hx
  have hne : x ≠ k := by rintro rfl; exact hnot hx
  exact getElem?_set_other _ _ hk (hc.stored x hx).1 hne

/-- What one `push` does to a pool whose storage is full and whose free list
is the chain `fl`. -/
theorem push_spec [Inhabited T] {p : stack_pool T} {fl : List Nat} (v : T) (head : Nat)
    (hfull : p.pool.elems.length = p.pool.cap) (hfl : IsChain p p.free_nodes fl) :
    ∃ q h fl2, push v head p = .ok (q, h) ∧
      q.pool.elems.length = q.pool.cap ∧
      capacity p ≤ capacity q ∧
      capacity q = (if capacity p = 0 then 1 else if p.free_nodes = 0 then 2 * capacity p
        else capacity p) ∧
      0 < h ∧ h ≤ capacity q ∧
      q.pool.elems[h - 1]? = some { value := v, next := head } ∧
      IsChain q q.free_nodes fl2 ∧
      h :: fl2 = fl ++ List.range' (capacity p + 1) (capacity q - capacity p) ∧
      (∀ x, 0 < x → x ≠ h → x ≤ p.pool.elems.length →
        q.pool.elems[x - 1]? = p.pool.elems[x - 1]?) := by
  obtain ⟨g1, g2, g3, g4, g5, g6⟩ := check_capacity_spec hfull hfl
  cases hl : fl ++ List.range' (capacity p + 1) (capacity (check_capacity p) - capacity p) with
  | nil => exact absurd hl g5
  | cons h fl2 =>
    rw [hl] at g4
    have hnodup := g4.nodup
    rw [isChain_cons] at g4
    obtain ⟨e1, e2, e3, nd, e4, e5⟩ := g4
    subst e1
    have hlt : (check_capacity p).free_nodes - 1 < (check_capacity p).pool.elems.length :=
      (List.getElem?_eq_some.mp e4).1
    refine ⟨_, _, fl2, push_eq v head e2 e3 e4, ?_, g2, g3, e2, e3, ?_, ?_, hl.symm, ?_⟩
    · simpa using g1
    · simp [List.getElem?_set_self hlt]
    · exact e5.set_slot _ _ _ e2 (List.nodup_cons.mp hnodup).1
    · intro x hx hne hs
      show ((check_capacity p).pool.elems.set _ _)[x - 1]? = _
      rw [getElem?_set_other _ _ e2 hx hne]
      exact g6 x hx hs

/-- What one `pop` does to a stack whose head `h` starts the chain `h :: l`. -/
theorem pop_spec {p : stack_pool T} {h : Nat} {l : List Nat} (hc : IsChain p h (h :: l)) :
    ∃ q nd, p.pool.elems[h - 1]? = some nd ∧ pop h p = .ok (q, nd.next) ∧
      q.pool.cap = p.pool.cap ∧ q.pool.elems.length = p.pool.elems.length ∧
      q.free_nodes = h ∧
      q.pool.elems[h - 1]? = some { nd with next := p.free_nodes } ∧
      IsChain q nd.next l ∧ vals q l = vals p l ∧
      (∀ x, 0 < x → x ≠ h → q.pool.elems[x - 1]? = p.pool.elems[x - 1]?) := by
  have hnodup := hc.nodup
  rw [isChain_cons] at hc
  obtain ⟨_, e2, e3, nd, e4, e5⟩ := hc
  have hlt : h - 1 < p.pool.elems.length := (List.getElem?_eq_some.mp e4).1
  have hnot : h ∉ l := (List.nodup_cons.mp hnodup).1
  refine ⟨_, nd, e4, pop_eq e2 e3 e4, rfl, by simp, rfl, by simp [List.getElem?_set_self hlt],
    e5.set_slot _ _ _ e2 hnot, vals_set_slot _ _ _ e2 hnot e5, ?_⟩
  intro x hx hne
  exact getElem?_set_other _ _ e2 hx hne

/-! ## Held stacks -/

theorem forall2_split {α β : Type} {R : α → β → Prop} :
    ∀ {a : List α} {x : α} {b : List α} {ls : List β}, List.Forall₂ R (a ++ x :: b) ls →
      ∃ la l lb, ls = la ++ l :: lb ∧ la.length = a.length ∧
        List.Forall₂ R a la ∧ R x l ∧ List.Forall₂ R b lb
  | [], x, b, ls, h => by
    rw [List.nil_append, List.forall₂_cons_left_iff] at h
    obtain ⟨l, lb, h1, h2, h3⟩ := h
    exact ⟨[], l, lb, by simpa using h3, rfl, List.Forall₂.nil, h1, h2⟩
  | y :: a, x, b, ls, h => by
    rw [List.cons_append, List.forall₂_cons_left_iff] at h
    obtain ⟨l0, ls0, h1, h2, h3⟩ := h
    obtain ⟨la, l, lb, e1, e2, e3, e4, e5⟩ := forall2_split h2
    exact ⟨l0 :: la, l, lb, by simp [h3, e1], by simp [e2], List.Forall₂.cons h1 e3, e4, e5⟩

theorem forall2_join {α β : Type} {R : α → β → Prop} {a : List α} {x : α} {b : List α}
    {la : List β} {l : β} {lb : List β} (h1 : List.Forall₂ R a la) (h2 : R x l)
    (h3 : List.Forall₂ R b lb) : List.Forall₂ R (a ++ x :: b) (la ++ l :: lb) :=
  List.rel_append h1 (List.Forall₂.cons h2 h3)

theorem forall2_chain_frame {p q : stack_pool T} (hcap : capacity p ≤ capacity q) :
    ∀ {hs : List Nat} {ls : List (List Nat)}, List.Forall₂ (IsChain p) hs ls →
      (∀ x ∈ ls.flatten, (q.pool.elems[x - 1]?).map (fun nd => nd.next) =
        (p.pool.elems[x - 1]?).map (fun nd => nd.next)) →
      List.Forall₂ (IsChain q) hs ls
  | _, _, List.Forall₂.nil, _ => List.Forall₂.nil
  | _, _, List.Forall₂.cons h1 h2, hq => by
    refine List.Forall₂.cons (IsChain.frame_next hcap ?_ h1) (forall2_chain_frame hcap h2 ?_)
    · intro x hx; exact hq x (by simp [hx])
    · intro x hx
      refine hq x ?_
      rw [List.flatten_cons]
      exact List.mem_append_right _ hx

theorem getElem?_app_cons_ne {α : Type} (a : List α) (x y : α) (b : List α) {j : Nat}
    (hj : j ≠ a.length) : (a ++ x :: b)[j]? = (a ++ y :: b)[j]? := by
  rcases Nat.lt_or_gt_of_ne hj with h | h
  · rw [List.getElem?_append_left h, List.getElem?_append_left h]
  · rw [List.getElem?_append_right (by omega), List.getElem?_append_right (by omega)]
    have : j - a.length = (j - a.length - 1) + 1 := by omega
    rw [this]
    rfl

theorem mem_flatten_of_getElem? {α : Type} {ls : List (List α)} {j : Nat} {l : List α} {x : α}
    (hl : ls[j]? = some l) (hx : x ∈ l) : x ∈ ls.flatten := by
  rw [List.mem_flatten]
  exact ⟨l, List.getElem?_mem hl, hx⟩

/-- A handle of a stack other than the one at position `la.length` lies on the
chains before or after it. -/
theorem mem_others_of_getElem? {α : Type} {la : List (List α)} {l : List α}
    {lb : List (List α)} {j : Nat} {l2 : List α} {x : α} (hj : j ≠ la.length)
    (hl : (la ++ l :: lb)[j]? = some l2) (hx : x ∈ l2) :
    x ∈ la.flatten ∨ x ∈ lb.flatten := by
  rcases Nat.lt_or_gt_of_ne hj with h | h
  · rw [List.getElem?_append_left h] at hl
    exact Or.inl (mem_flatten_of_getElem? hl hx)
  · rw [List.getElem?_append_right (by omega)] at hl
    have : j - la.length = (j - la.length - 1) + 1 := by omega
    rw [this, List.getElem?_cons_succ] at hl
    exact Or.inr (mem_flatten_of_getElem? hl hx)

/-- The parts of a representation invariant around the stack at position
`hs1.length`. -/
theorem Inv.split {p : stack_pool T} {hs1 : List Nat} {h : Nat} {hs2 : List Nat}
    {fl : List Nat} {ls : List (List Nat)} (hinv : Inv ⟨p, hs1 ++ h :: hs2⟩ fl ls) :
    ∃ la l lb, ls = la ++ l :: lb ∧ la.length = hs1.length ∧
      p.pool.elems.length = p.pool.cap ∧ IsChain p p.free_nodes fl ∧
      List.Forall₂ (IsChain p) hs1 la ∧ IsChain p h l ∧ List.Forall₂ (IsChain p) hs2 lb ∧
      List.Perm (fl ++ (la.flatten ++ (l ++ lb.flatten))) (List.range' 1 p.pool.cap) := by
  obtain ⟨h1, h2, h3, h4⟩ := hinv
  obtain ⟨la, l, lb, e1, e2, e3, e4, e5⟩ := forall2_split h3
  subst e1
  refine ⟨la, l, lb, rfl, e2, h1, h2, e3, e4, e5, ?_⟩
  simpa using h4

theorem Inv.join {p : stack_pool T} {hs1 : List Nat} {h : Nat} {hs2 : List Nat}
    {fl : List Nat} {la : List (List Nat)} {l : List Nat} {lb : List (List Nat)}
    (h1 : p.pool.elems.length = p.pool.cap) (h2 : IsChain p p.free_nodes fl)
    (h3 : List.Forall₂ (IsChain p) hs1 la) (h4 : IsChain p h l)
    (h5 : List.Forall₂ (IsChain p) hs2 lb)
    (h6 : List.Perm (fl ++ (la.flatten ++ (l ++ lb.flatten))) (List.range' 1 p.pool.cap)) :
    Inv ⟨p, hs1 ++ h :: hs2⟩ fl (la ++ l :: lb) :=
  ⟨h1, h2, forall2_join h3 h4 h5, by simpa using h6⟩

/-- Disjointness facts contained in the invariant. -/
theorem perm_disjoint {fl A l B R : List Nat} (hp : List.Perm (fl ++ (A ++ (l ++ B))) R)
    (hR : R.Nodup) :
    (∀ x, x ∈ A ∨ x ∈ B → x ∉ fl ∧ x ∉ l) ∧ (∀ x ∈ l, x ∉ fl) := by
  have hn : (fl ++ (A ++ (l ++ B))).Nodup := hp.nodup_iff.mpr hR
  rw [List.nodup_append] at hn
  obtain ⟨_, hn2, d1⟩ := hn
  rw [List.nodup_append] at hn2
  obtain ⟨_, hn3, d2⟩ := hn2
  rw [List.nodup_append] at hn3
  obtain ⟨_, _, d3⟩ := hn3
  refine ⟨?_, ?_⟩
  · rintro x (hx | hx)
    · exact ⟨fun hf => d1 hf (by simp [hx]), fun hl => d2 hx (by simp [hl])⟩
    · exact ⟨fun hf => d1 hf (by simp [hx]), fun hl => d3 hl hx⟩
  · intro x hx hf
    exact d1 hf (by simp [hx])

theorem perm_push {fl A l B R1 R2 fl2 : List Nat} {h : Nat}
    (hp : List.Perm (fl ++ (A ++ (l ++ B))) R1) (he : h :: fl2 = fl ++ R2) :
    List.Perm (fl2 ++ (A ++ ((h :: l) ++ B))) (R1 ++ R2) := by
  rw [List.perm_iff_count] at hp ⊢
  intro a
  have h1 := hp a
  have h2 := congrArg (List.count a) he
  simp only [List.count_append, List.count_cons] at h1 h2 ⊢
  omega

theorem perm_pop {fl A l B R : List Nat} {h : Nat}
    (hp : List.Perm (fl ++ (A ++ ((h :: l) ++ B))) R) :
    List.Perm ((h :: fl) ++ (A ++ (l ++ B))) R := by
  rw [List.perm_iff_count] at hp ⊢
  intro a
  have h1 := hp a
  simp only [List.count_append, List.count_cons] at h1 ⊢
  omega

theorem perm_free {fl A l B R : List Nat}
    (hp : List.Perm (fl ++ (A ++ (l ++ B))) R) :
    List.Perm ((l.reverse ++ fl) ++ (A ++ ([] ++ B))) R := by
  rw [List.perm_iff_count] at hp ⊢
  intro a
  have h1 := hp a
  simp only [List.count_append, List.count_reverse, List.count_nil] at h1 ⊢
  omega

theorem range_one_append (c d : Nat) (h : c ≤ d) :
    List.range' 1 c ++ List.range' (c + 1) (d - c) = List.range' 1 d := by
  have := List.range'_append 1 c (d - c) 1
  rw [show 1 + 1 * c = c + 1 by omega, show d - c + c = d by omega] at this
  exact this

theorem mem_range_one {x c : Nat} : x ∈ List.range' 1 c ↔ 0 < x ∧ x ≤ c := by
  rw [List.mem_range'_1]; omega

/-! ## The invariant is kept by every operation -/

theorem others_frame {p q : stack_pool T} (hcap : capacity p ≤ capacity q)
    {hs1 hs2 : List Nat} {la lb : List (List Nat)}
    (h3 : List.Forall₂ (IsChain p) hs1 la) (h5 : List.Forall₂ (IsChain p) hs2 lb)
    (hq : ∀ x, x ∈ la.flatten ∨ x ∈ lb.flatten → q.pool.elems[x - 1]? = p.pool.elems[x - 1]?) :
    List.Forall₂ (IsChain q) hs1 la ∧ List.Forall₂ (IsChain q) hs2 lb :=
  ⟨forall2_chain_frame hcap h3 (fun x hx => by rw [hq x (Or.inl hx)]),
   forall2_chain_frame hcap h5 (fun x hx => by rw [hq x (Or.inr hx)])⟩

/-- A `push` onto the held stack at position `hs1.length`. -/
theorem Inv.of_push [Inhabited T] {p : stack_pool T} {hs1 : List Nat} {h : Nat} {hs2 : List Nat}
    {fl : List Nat} {ls : List (List Nat)} (hinv : Inv ⟨p, hs1 ++ h :: hs2⟩ fl ls) (v : T) :
    ∃ q h2 fl2 la l lb, ls = la ++ l :: lb ∧ la.length = hs1.length ∧
      push v h p = .ok (q, h2) ∧
      Inv ⟨q, hs1 ++ h2 :: hs2⟩ fl2 (la ++ (h2 :: l) :: lb) ∧
      vals q (h2 :: l) = v :: vals p l ∧ capacity p ≤ capacity q ∧
      (∀ x, x ∈ la.flatten ∨ x ∈ lb.flatten → q.pool.elems[x - 1]? = p.pool.elems[x - 1]?) := by
  obtain ⟨la, l, lb, e1, e2, e3, e4, e5, e6, e7, e8⟩ := hinv.split
  obtain ⟨q, h2, fl2, g1, g2, g3, _, g5, g6, g7, g8, g9, g10⟩ := push_spec v h e3 e4
  have hnd := List.nodup_range' 1 p.pool.cap
  obtain ⟨d1, d2⟩ := perm_disjoint e8 hnd
  -- every handle on a held stack is an old stored slot different from the new head
  have hold : ∀ x, x ∈ la.flatten ∨ x ∈ l ∨ x ∈ lb.flatten →
      0 < x ∧ x ≠ h2 ∧ x ≤ p.pool.elems.length := by
    intro x hx
    have hmem : x ∈ fl ++ (la.flatten ++ (l ++ lb.flatten)) := by
      rcases hx with hx | hx | hx <;> simp [hx]
    have hr := mem_range_one.mp ((e8.mem_iff).mp hmem)
    have hnfl : x ∉ fl := by
      rcases hx with hx | hx | hx
      · exact (d1 x (Or.inl hx)).1
      · exact d2 x hx
      · exact (d1 x (Or.inr hx)).1
    refine ⟨hr.1, ?_, by omega⟩
    rintro rfl
    have hm : x ∈ fl ++ List.range' (capacity p + 1) (capacity q - capacity p) := by
      rw [← g9]; simp
    rcases List.mem_append.mp hm with hm | hm
    · exact hnfl hm
    · rw [List.mem_range'_1] at hm
      have : capacity p = p.pool.cap := rfl
      omega
  have hsame : ∀ x, x ∈ la.flatten ∨ x ∈ l ∨ x ∈ lb.flatten →
      q.pool.elems[x - 1]? = p.pool.elems[x - 1]? := fun x hx =>
    g10 x (hold x hx).1 (hold x hx).2.1 (hold x hx).2.2
  have hsame2 : ∀ x, x ∈ la.flatten ∨ x ∈ lb.flatten →
      q.pool.elems[x - 1]? = p.pool.elems[x - 1]? := fun x hx =>
    hsame x (by rcases hx with hx | hx <;> simp [hx])
  obtain ⟨f1, f2⟩ := others_frame g3 e5 e7 hsame2
  have hl : IsChain q h l := IsChain.frame g3 (fun x hx => hsame x (Or.inr (Or.inl hx))) e6
  have hvl : vals q l = vals p l := vals_frame (fun x hx => hsame x (Or.inr (Or.inl hx)))
  refine ⟨q, h2, fl2, la, l, lb, e1, e2, g1, ?_, ?_, g3, hsame2⟩
  · refine Inv.join g2 g8 f1 ?_ f2 ?_
    · rw [isChain_cons]
      exact ⟨rfl, g5, g6, _, g7, hl⟩
    · have hp := perm_push e8 g9
      have hc : capacity p = p.pool.cap := rfl
      have hc2 : capacity q = q.pool.cap := rfl
      rw [hc, hc2, range_one_append _ _ (by omega)] at hp
      exact hp
  · rw [vals_cons g7, hvl]

/-- A `pop` of the non-empty held stack at position `hs1.length`. -/
theorem Inv.of_pop {p : stack_pool T} {hs1 : List Nat} {h : Nat} {hs2 : List Nat}
    {fl : List Nat} {ls : List (List Nat)} (hinv : Inv ⟨p, hs1 ++ h :: hs2⟩ fl ls)
    (hne : h ≠ 0) :
    ∃ q h2 la l lb, ls = la ++ (h :: l) :: lb ∧ la.length = hs1.length ∧
      pop h p = .ok (q, h2) ∧
      Inv ⟨q, hs1 ++ h2 :: hs2⟩ (h :: fl) (la ++ l :: lb) ∧
      vals q l = vals p l ∧ capacity q = capacity p ∧
      (∀ x, 0 < x → x ≠ h → q.pool.elems[x - 1]? = p.pool.elems[x - 1]?) ∧
      (∀ x, x ∈ la.flatten ∨ x ∈ lb.flatten → q.pool.elems[x - 1]? = p.pool.elems[x - 1]?) := by
  obtain ⟨la, l0, lb, e1, e2, e3, e4, e5, e6, e7, e8⟩ := hinv.split
  obtain ⟨l, hl0⟩ : ∃ l, l0 = h :: l := by
    rcases e6.cases_head with ⟨h0, _⟩ | ⟨_, l, hl⟩
    · exact absurd h0 hne
    · exact ⟨l, hl⟩
  subst hl0
  obtain ⟨q, nd, g1, g2, g3, g4, g5, g6, g7, g8, g9⟩ := pop_spec e6
  have hnd := List.nodup_range' 1 p.pool.cap
  obtain ⟨d1, d2⟩ := perm_disjoint e8 hnd
  have hpos : 0 < h := Nat.pos_of_ne_zero hne
  have hcap : capacity p ≤ capacity q := Nat.le_of_eq g3.symm
  have hsame2 : ∀ x, x ∈ la.flatten ∨ x ∈ lb.flatten →
      q.pool.elems[x - 1]? = p.pool.elems[x - 1]? := by
    intro x hx
    have hmem : x ∈ fl ++ (la.flatten ++ ((h :: l) ++ lb.flatten)) := by
      rcases hx with hx | hx <;> simp [hx]
    have hr := mem_range_one.mp ((e8.mem_iff).mp hmem)
    refine g9 x hr.1 ?_
    rintro rfl
    exact (d1 x hx).2 (List.mem_cons_self _ _)
  obtain ⟨f1, f2⟩ := others_frame hcap e5 e7 hsame2
  have hfl : IsChain q p.free_nodes fl := by
    refine IsChain.frame hcap ?_ e4
    intro x hx
    refine g9 x (e4.stored x hx).1 ?_
    rintro rfl
    exact d2 x (List.mem_cons_self _ _) hx
  refine ⟨q, nd.next, la, l, lb, e1, e2, g2, ?_, g8, g3, g9, hsame2⟩
  refine Inv.join (by rw [g4, g3]; exact e3) ?_ f1 g7 f2 ?_
  · rw [g5, isChain_cons]
    have hb := e6.stored h (List.mem_cons_self _ _)
    exact ⟨rfl, hpos, le_trans hb.2.1 hcap, _, g6, hfl⟩
  · rw [g3]
    exact perm_pop e8

/-- Writing a value through a handle of the held stack at position
`hs1.length`. -/
theorem Inv.of_write {p : stack_pool T} {hs1 : List Nat} {h : Nat} {hs2 : List Nat}
    {fl : List Nat} {ls : List (List Nat)} (hinv : Inv ⟨p, hs1 ++ h :: hs2⟩ fl ls)
    {l0 : List Nat} {x : Nat} (hl0 : IsChain p h l0) (hx : x ∈ l0) (v : T) :
    ∃ q la lb, ls = la ++ l0 :: lb ∧ la.length = hs1.length ∧
      set_value p x v = .ok q ∧
      Inv ⟨q, hs1 ++ h :: hs2⟩ fl ls ∧ capacity q = capacity p ∧
      (∀ y, 0 < y → y ≠ x → q.pool.elems[y - 1]? = p.pool.elems[y - 1]?) ∧
      (∀ y, y ∈ la.flatten ∨ y ∈ lb.flatten → q.pool.elems[y - 1]? = p.pool.elems[y - 1]?) := by
  obtain ⟨la, l, lb, e1, e2, e3, e4, e5, e6, e7, e8⟩ := hinv.split
  have hll : l0 = l := hl0.unique e6
  subst hll
  obtain ⟨hx0, _, hxs⟩ := e6.stored x hx
  obtain ⟨nd, hnd⟩ : ∃ nd, p.pool.elems[x - 1]? = some nd :=
    ⟨_, List.getElem?_eq_getElem (by omega)⟩
  have hlt : x - 1 < p.pool.elems.length := by omega
  have hq := set_value_eq_ok v hx0 hnd
  have hnd2 := List.nodup_range' 1 p.pool.cap
  obtain ⟨d1, d2⟩ := perm_disjoint e8 hnd2
  have hnext : ∀ y, 0 < y →
      ((p.pool.elems.set (x - 1) { nd with value := v })[y - 1]?).map (fun d => d.next) =
        (p.pool.elems[y - 1]?).map (fun d => d.next) := by
    intro y hy
    by_cases hyx : y = x
    · subst hyx
      rw [List.getElem?_set_self hlt, hnd]
      rfl
    · rw [getElem?_set_other _ _ hx0 hy hyx]
  have hother : ∀ y, 0 < y → y ≠ x →
      (p.pool.elems.set (x - 1) { nd with value := v })[y - 1]? = p.pool.elems[y - 1]? :=
    fun y hy hyx => getElem?_set_other _ _ hx0 hy hyx
  have hcap : capacity p ≤ capacity ({ p with pool := { p.pool with
      elems := p.pool.elems.set (x - 1) { nd with value := v } } } : stack_pool T) := le_refl _
  have hpos : ∀ y, y ∈ fl ++ (la.flatten ++ (l0 ++ lb.flatten)) → 0 < y := fun y hy =>
    (mem_range_one.mp ((e8.mem_iff).mp hy)).1
  refine ⟨_, la, lb, e1, e2, hq, ?_, rfl, hother, ?_⟩
  · rw [e1]
    refine Inv.join (by simpa using e3) ?_ ?_ ?_ ?_ e8
    · exact IsChain.frame_next hcap (fun y hy => hnext y (hpos y (by simp [hy]))) e4
    · exact forall2_chain_frame hcap e5 (fun y hy => hnext y (hpos y (by simp [hy])))
    · exact IsChain.frame_next hcap (fun y hy => hnext y (hpos y (by simp [hy]))) e6
    · exact forall2_chain_frame hcap e7 (fun y hy => hnext y (hpos y (by simp [hy])))
  · intro y hy
    have hy0 : 0 < y := hpos y (by rcases hy with hy | hy <;> simp [hy])
    refine hother y hy0 ?_
    rintro rfl
    exact (d1 y hy).2 hx

/-- A `reserve(n)` that grows the pool. -/
theorem Inv.of_reserve [Inhabited T] {c : Client T} {fl : List Nat} {ls : List (List Nat)}
    (hinv : Inv c fl ls) {n : Nat} (hn : capacity c.pool < n) :
    Inv ⟨reserve n c.pool, c.heads⟩
      (List.range' (capacity c.pool + 1) (n - capacity c.pool) ++ fl) ls := by
  obtain ⟨h1, h2, h3, h4⟩ := hinv
  have hcap := reserve_capacity n c.pool h1 hn
  have hc : capacity c.pool = c.pool.pool.cap := rfl
  have hc2 : capacity (reserve n c.pool) = (reserve n c.pool).pool.cap := rfl
  refine ⟨reserve_full n c.pool h1 hn, reserve_free_chain n h1 hn h2, ?_, ?_⟩
  · have hle : capacity c.pool ≤ capacity (reserve n c.pool) := by omega
    refine forall2_chain_frame hle h3 ?_
    intro x hx
    have hmem : x ∈ fl ++ ls.flatten := by simp [hx]
    have hr := mem_range_one.mp ((h4.mem_iff).mp hmem)
    rw [reserve_old_slot n c.pool hr.1 (by omega)]
  · show List.Perm _ (List.range' 1 (reserve n c.pool).pool.cap)
    rw [← hc2, hcap, ← range_one_append c.pool.pool.cap n (by omega)]
    rw [List.perm_iff_count] at h4 ⊢
    intro a
    have := h4 a
    simp only [List.count_append, hc] at this ⊢
    omega

/-- A call of `new_stack()`. -/
theorem Inv.of_new_stack {c : Client T} {fl : List Nat} {ls : List (List Nat)}
    (hinv : Inv c fl ls) : Inv ⟨c.pool, c.heads ++ [new_stack c.pool]⟩ fl (ls ++ [[]]) := by
  obtain ⟨h1, h2, h3, h4⟩ := hinv
  refine ⟨h1, h2, List.rel_append h3 (List.Forall₂.cons ?_ List.Forall₂.nil), by simpa using h4⟩
  simp [IsChain, new_stack, stack_end]

theorem Inv.init : Inv (⟨stack_pool.empty_pool, []⟩ : Client T) [] [] :=
  ⟨rfl, by simp [IsChain, stack_pool.empty_pool], List.Forall₂.nil, by
    simp [stack_pool.empty_pool]⟩

theorem split_unique {α : Type} {la la2 : List α} {l l2 : α} {lb lb2 : List α}
    (h : la ++ l :: lb = la2 ++ l2 :: lb2) (hlen : la.length = la2.length) :
    la = la2 ∧ l = l2 ∧ lb = lb2 := by
  obtain ⟨h1, h2⟩ := List.append_inj h hlen
  cases h2
  exact ⟨h1, rfl, rfl⟩

theorem free_stack_zero (fuel : Nat) (p : stack_pool T) : free_stack fuel 0 p = .ok (p, 0) := by
  unfold free_stack
  simp [empty, stack_end]

theorem free_stack_succ {p q : stack_pool T} {h h2 : Nat} (fuel : Nat) (hne : h ≠ 0)
    (hpop : pop h p = .ok (q, h2)) : free_stack (fuel + 1) h p = free_stack fuel h2 q := by
  rw [free_stack]
  simp [empty, stack_end, hne, hpop]

theorem free_stack_no_fuel {p : stack_pool T} {h : Nat} (hne : h ≠ 0) :
    free_stack 0 h p = .error .out_of_fuel := by
  rw [free_stack]
  simp [empty, stack_end, hne]

theorem Inv.of_free_stack_aux {hs1 hs2 : List Nat} {la lb : List (List Nat)}
    (hlen : la.length = hs1.length) :
    ∀ (l : List Nat) (p : stack_pool T) (h : Nat) (fl : List Nat),
      Inv ⟨p, hs1 ++ h :: hs2⟩ fl (la ++ l :: lb) →
      ∃ q, (∀ fuel, l.length ≤ fuel → free_stack fuel h p = .ok (q, 0)) ∧
        (∀ fuel r, free_stack fuel h p = .ok r → r = (q, 0)) ∧
        Inv ⟨q, hs1 ++ 0 :: hs2⟩ (l.reverse ++ fl) (la ++ [] :: lb) ∧
        capacity q = capacity p ∧
        (∀ x, 0 < x → x ∉ l → q.pool.elems[x - 1]? = p.pool.elems[x - 1]?) ∧
        (∀ x, x ∈ la.flatten ∨ x ∈ lb.flatten → q.pool.elems[x - 1]? = p.pool.elems[x - 1]?)
  | [], p, h, fl, hinv => by
    obtain ⟨la2, l2, lb2, e1, e2, e3, e4, e5, e6, e7, e8⟩ := hinv.split
    obtain ⟨u1, u2, u3⟩ := split_unique e1 (by omega)
    subst u1 u2 u3
    have h0 : h = 0 := isChain_nil.mp e6
    subst h0
    refine ⟨p, fun fuel _ => free_stack_zero fuel p, ?_, by simpa using hinv, rfl,
      fun _ _ _ => rfl, fun _ _ => rfl⟩
    intro fuel r hr
    rw [free_stack_zero] at hr
    cases hr
    rfl
  | x :: l, p, h, fl, hinv => by
    obtain ⟨la2, l2, lb2, e1, e2, e3, e4, e5, e6, e7, e8⟩ := hinv.split
    obtain ⟨u1, u2, u3⟩ := split_unique e1 (by omega)
    subst u1 u2 u3
    have hx : h = x := (isChain_cons.mp e6).1
    subst hx
    have hne : h ≠ 0 := Nat.pos_iff_ne_zero.mp (isChain_cons.mp e6).2.1
    obtain ⟨q1, h2, la3, l3, lb3, g1, g2, g3, g4, _, g6, g7, g8⟩ := hinv.of_pop hne
    obtain ⟨v1, v2, v3⟩ := split_unique g1 (by omega)
    subst v1 v3
    cases v2
    obtain ⟨q, k1, k2, k3, k4, k5, k6⟩ := Inv.of_free_stack_aux hlen l q1 h2 (h :: fl) g4
    refine ⟨q, ?_, ?_, ?_, by rw [k4, g6], ?_, ?_⟩
    · intro fuel hf
      cases fuel with
      | zero => simp at hf
      | succ f =>
        rw [free_stack_succ f hne g3]
        exact k1 f (by simpa using hf)
    · intro fuel r hr
      cases fuel with
      | zero => rw [free_stack_no_fuel hne] at hr; cases hr
      | succ f =>
        rw [free_stack_succ f hne g3] at hr
        exact k2 f r hr
    · simpa using k3
    · intro y hy hny
      rw [k5 y hy (fun hm => hny (List.mem_cons_of_mem _ hm))]
      exact g7 y hy (fun hm => hny (by simp [hm]))
    · intro y hy
      rw [k6 y hy, g8 y hy]

/-- A `free_stack` of the held stack at position `hs1.length`: with enough
fuel it returns the sentinel, every slot of the stack goes to the front of the
free list, and no other result is possible with any fuel. -/
theorem Inv.of_free_stack {p : stack_pool T} {hs1 : List Nat} {h : Nat} {hs2 : List Nat}
    {fl : List Nat} {ls : List (List Nat)} (hinv : Inv ⟨p, hs1 ++ h :: hs2⟩ fl ls) :
    ∃ q la l lb, ls = la ++ l :: lb ∧ la.length = hs1.length ∧
      (∀ fuel, l.length ≤ fuel → free_stack fuel h p = .ok (q, 0)) ∧
      (∀ fuel r, free_stack fuel h p = .ok r → r = (q, 0)) ∧
      Inv ⟨q, hs1 ++ 0 :: hs2⟩ (l.reverse ++ fl) (la ++ [] :: lb) ∧
      capacity q = capacity p ∧
      (∀ x, 0 < x → x ∉ l → q.pool.elems[x - 1]? = p.pool.elems[x - 1]?) ∧
      (∀ x, x ∈ la.flatten ∨ x ∈ lb.flatten → q.pool.elems[x - 1]? = p.pool.elems[x - 1]?) := by
  obtain ⟨la, l, lb, e1, e2, _⟩ := hinv.split
  subst e1
  obtain ⟨q, k⟩ := Inv.of_free_stack_aux e2 l p h fl hinv
  exact ⟨q, la, l, lb, rfl, e2, k⟩

/-- Every operation keeps the invariant, never lowers the capacity, and leaves
alone the head, the chain and the slots of every stack it does not work on. -/
theorem Step.spec [Inhabited T] {c d : Client T} {lab : Option Nat} {fl : List Nat}
    {ls : List (List Nat)} (hinv : Inv c fl ls) (hs : Step c lab d) :
    ∃ fl2 ls2, Inv d fl2 ls2 ∧ capacity c.pool ≤ capacity d.pool ∧
      ∀ j l, lab ≠ some j → ls[j]? = some l →
        ls2[j]? = some l ∧ d.heads[j]? = c.heads[j]? ∧
        (∀ x ∈ l, d.pool.pool.elems[x - 1]? = c.pool.pool.elems[x - 1]?) := by
  cases hs with
  | new_stack p hs =>
    refine ⟨fl, ls ++ [[]], hinv.of_new_stack, le_refl _, ?_⟩
    intro j l _ hl
    have hj : j < ls.length := (List.getElem?_eq_some.mp hl).1
    have hlen : hs.length = ls.length := hinv.2.2.1.length_eq
    refine ⟨by rw [List.getElem?_append_left hj]; exact hl, ?_, fun _ _ => rfl⟩
    show (hs ++ _)[j]? = hs[j]?
    rw [List.getElem?_append_left (by omega)]
  | push p hs1 h hs2 v q h2 hpush =>
    obtain ⟨q2, h3, fl2, la, l0, lb, e1, e2, e3, e4, _, e5, e6⟩ := hinv.of_push v
    rw [hpush] at e3
    cases e3
    subst e1
    refine ⟨fl2, _, e4, e5, ?_⟩
    · intro j l hj hl
      have hne : j ≠ la.length := by rw [e2]; exact fun hh => hj (by rw [hh])
      refine ⟨by rw [← getElem?_app_cons_ne la l0 _ lb hne]; exact hl,
        getElem?_app_cons_ne hs1 _ _ hs2 (by omega), ?_⟩
      intro x hx
      exact e6 x (mem_others_of_getElem? hne hl hx)
  | pop p hs1 h hs2 q h2 hne0 hpop =>
    have hne : h ≠ 0 := by simpa [empty, stack_end] using hne0
    obtain ⟨q2, h3, la, l0, lb, e1, e2, e3, e4, _, e6, _, e8⟩ := hinv.of_pop hne
    rw [hpop] at e3
    cases e3
    subst e1
    refine ⟨_, _, e4, Nat.le_of_eq e6.symm, ?_⟩
    intro j l hj hl
    have hne : j ≠ la.length := by rw [e2]; exact fun hh => hj (by rw [hh])
    refine ⟨by rw [← getElem?_app_cons_ne la (h :: l0) _ lb hne]; exact hl,
      getElem?_app_cons_ne hs1 _ _ hs2 (by omega), ?_⟩
    intro x hx
    exact e8 x (mem_others_of_getElem? hne hl hx)
  | free_stack p hs1 h hs2 fuel q h2 hfree =>
    obtain ⟨q2, la, l0, lb, e1, e2, _, e4, e5, e6, _, e8⟩ := hinv.of_free_stack
    have := e4 fuel _ hfree
    cases this
    subst e1
    refine ⟨_, _, e5, Nat.le_of_eq e6.symm, ?_⟩
    intro j l hj hl
    have hne : j ≠ la.length := by rw [e2]; exact fun hh => hj (by rw [hh])
    refine ⟨by rw [← getElem?_app_cons_ne la l0 _ lb hne]; exact hl,
      getElem?_app_cons_ne hs1 _ _ hs2 (by omega), ?_⟩
    intro x hx
    exact e8 x (mem_others_of_getElem? hne hl hx)
  | write p hs1 h hs2 l0 x v q hl0 hx hset =>
    obtain ⟨q2, la, lb, e1, e2, e3, e4, e5, _, e7⟩ := hinv.of_write hl0 hx v
    rw [hset] at e3
    cases e3
    subst e1
    refine ⟨_, _, e4, Nat.le_of_eq e5.symm, ?_⟩
    intro j l hj hl
    have hne : j ≠ la.length := by rw [e2]; exact fun hh => hj (by rw [hh])
    refine ⟨hl, rfl, ?_⟩
    intro y hy
    exact e7 y (mem_others_of_getElem? hne hl hy)
  | reserve p hs n hn =>
    refine ⟨_, ls, hinv.of_reserve hn, ?_, ?_⟩
    · show capacity p ≤ capacity (StackPool.reserve n p)
      rw [reserve_capacity n p hinv.1 hn]
      exact Nat.le_of_lt hn
    · intro j l _ hl
      refine ⟨hl, rfl, ?_⟩
      intro x hx
      have hmem : x ∈ fl ++ ls.flatten :=
        List.mem_append_right _ (mem_flatten_of_getElem? hl hx)
      have hr := mem_range_one.mp ((hinv.2.2.2.mem_iff).mp hmem)
      have h1 : p.pool.elems.length = p.pool.cap := hinv.1
      have h2 : x ≤ p.pool.cap := hr.2
      exact reserve_old_slot n p hr.1 (by omega)

/-- Every reachable state satisfies the representation invariant. -/
theorem Reach.inv [Inhabited T] {c : Client T} (hr : Reach c) : ∃ fl ls, Inv c fl ls := by
  induction hr with
  | init => exact ⟨[], [], Inv.init⟩
  | step _ hs ih =>
    obtain ⟨fl, ls, hinv⟩ := ih
    obtain ⟨fl2, ls2, h, _⟩ := Step.spec hinv hs
    exact ⟨fl2, ls2, h⟩

theorem reserve_capacity_of_le [Inhabited T] (n : Nat) (p : stack_pool T)
    (hle : p.pool.elems.length ≤ p.pool.cap) (hn : capacity p < n) :
    capacity (reserve n p) = n := by
  have hc : p.pool.cap < n := hn
  have hr : p.pool.reserve n = { elems := p.pool.elems, cap := n } := by
    simp [StdVector.reserve, hc]
  simp only [reserve, _reserve, _emplace_back, capacity, StdVector.capacity, hr]
  have hloop := emplace_back_loop_cap (T := T) (n - (p.pool.cap + 1)) (p.pool.cap + 1)
    { elems := p.pool.elems, cap := n } (by simp only; omega)
  rw [emplace_back_cap_of_room]
  · exact hloop
  · rw [hloop, emplace_back_loop_elems]
    simp only [List.length_append, List.length_map, List.length_range']
    omega

theorem check_capacity_capacity [Inhabited T] (p : stack_pool T)
    (hle : p.pool.elems.length ≤ p.pool.cap) :
    capacity (check_capacity p) = (if capacity p = 0 then 1
      else if empty p.free_nodes then 2 * capacity p else capacity p) := by
  by_cases h0 : capacity p = 0
  · have hq : check_capacity p = reserve 1 p := by
      simp [check_capacity, h0, reserve_free_nodes, empty, stack_end]
    rw [hq, reserve_capacity_of_le 1 p hle (by omega)]
    simp [h0]
  · by_cases hf : p.free_nodes = 0
    · have hq : check_capacity p = reserve (capacity p * 2) p := by
        simp [check_capacity, h0, hf, empty, stack_end]
      rw [hq, reserve_capacity_of_le _ p hle (by omega)]
      simp [h0, hf, empty, stack_end]
      omega
    · have hq : check_capacity p = p := by
        simp [check_capacity, h0, hf, empty, stack_end]
      rw [hq]
      simp [h0, hf, empty, stack_end]

/-- Whenever `push` returns, it has taken the head of the free list left by
`check_capacity`, stored the value and the old head in that slot, and touched
no other slot and not the capacity. -/
theorem push_ok_inv [Inhabited T] {p q : stack_pool T} {v : T} {head h2 : Nat}
    (hp : push v head p = .ok (q, h2)) :
    h2 = (check_capacity p).free_nodes ∧ 0 < h2 ∧ h2 ≤ capacity q ∧
    q.pool.elems[h2 - 1]? = some { value := v, next := head } ∧
    capacity q = capacity (check_capacity p) ∧
    q.pool.elems.length = (check_capacity p).pool.elems.length ∧
    (∀ x, 0 < x → x ≠ h2 → q.pool.elems[x - 1]? = (check_capacity p).pool.elems[x - 1]?) := by
  cases hn : next (check_capacity p) (check_capacity p).free_nodes with
  | error e =>
    simp [push, _push, hn, bind, Except.bind] at hp
  | ok nx =>
    obtain ⟨h0, hc, nd, hnd, _⟩ := next_ok_inv hn
    rw [push_eq v head h0 hc hnd] at hp
    have hlt : (check_capacity p).free_nodes - 1 < (check_capacity p).pool.elems.length :=
      (List.getElem?_eq_some.mp hnd).1
    cases hp
    refine ⟨rfl, h0, hc, by simp [List.getElem?_set_self hlt], rfl, by simp, ?_⟩
    intro x hx hne
    exact getElem?_set_other _ _ h0 hx hne

theorem check_capacity_elems [Inhabited T] (p : stack_pool T) :
    ∃ extra, (check_capacity p).pool.elems = p.pool.elems ++ extra := by
  unfold check_capacity
  simp only
  split
  · split
    · exact ⟨_, reserve_elems 1 p⟩
    · rw [reserve_elems, reserve_elems, List.append_assoc]
      exact ⟨_, rfl⟩
  · split
    · exact ⟨[], by simp⟩
    · exact ⟨_, reserve_elems _ p⟩

/-! ## Claims -/

theorem forall2_getElem? {α β : Type} {R : α → β → Prop} :
    ∀ {hs : List α} {ls : List β} {j : Nat} {b : α} {l : β}, List.Forall₂ R hs ls →
      hs[j]? = some b → ls[j]? = some l → R b l
  | _, _, _, _, _, List.Forall₂.nil, hb, _ => by simp at hb
  | _, _, 0, _, _, List.Forall₂.cons h1 _, hb, hl => by
    simp only [List.getElem?_cons_zero, Option.some.injEq] at hb hl
    subst hb hl
    exact h1
  | _, _, j + 1, _, _, List.Forall₂.cons _ h2, hb, hl => by
    simp only [List.getElem?_cons_succ] at hb hl
    exact forall2_getElem? h2 hb hl

theorem forall2_getElem?_left {α β : Type} {R : α → β → Prop} {hs : List α} {ls : List β}
    {j : Nat} {b : α} (h : List.Forall₂ R hs ls) (hb : hs[j]? = some b) :
    ∃ l, ls[j]? = some l ∧ R b l := by
  have hj : j < hs.length := (List.getElem?_eq_some.mp hb).1
  have hlen := h.length_eq
  have hjl : j < ls.length := by omega
  have hl : ls[j]? = some ls[j] := List.getElem?_eq_getElem hjl
  exact ⟨_, hl, forall2_getElem? h hb hl⟩

/-- The state kept along `Built`: the invariant, and the chain of the stack at
position `i`, whose values are `vs`. -/
theorem Built.chain [Inhabited T] {i : Nat} {vs : List T} {c : Client T} (hb : Built i vs c) :
    ∃ fl ls h l, Inv c fl ls ∧ c.heads[i]? = some h ∧ ls[i]? = some l ∧ vals c.pool l = vs := by
  induction hb with
  | new c hr hlen =>
    obtain ⟨fl, ls, hinv⟩ := hr.inv
    have hl : ls.length = i := by rw [← hinv.2.2.1.length_eq]; exact hlen
    refine ⟨fl, ls ++ [[]], 0, [], hinv.of_new_stack, ?_, ?_, rfl⟩
    · show (c.heads ++ _)[i]? = _
      rw [List.getElem?_append_right (by omega)]
      simp [hlen, new_stack, stack_end]
    · rw [List.getElem?_append_right (by omega)]
      simp [hl]
  | push p hs1 h hs2 v q h2 vs _ hlen hpush ih =>
    obtain ⟨fl, ls, h0, l, hinv, hh, hl, hv⟩ := ih
    obtain ⟨q2, h3, fl2, la, l0, lb, e1, e2, e3, e4, e5, _⟩ := hinv.of_push v
    rw [hpush] at e3
    cases e3
    subst e1
    have hl0 : l = l0 := by
      rw [List.getElem?_append_right (by omega)] at hl
      simpa [e2, hlen] using hl.symm
    subst hl0
    refine ⟨fl2, _, h2, h2 :: l, e4, ?_, ?_, by rw [e5, hv]⟩
    · show (hs1 ++ _)[i]? = _
      rw [List.getElem?_append_right (by omega)]
      simp [hlen]
    · rw [List.getElem?_append_right (by omega)]
      simp [e2, hlen]
  | other c d lab vs _ hs hlab ih =>
    obtain ⟨fl, ls, h0, l, hinv, hh, hl, hv⟩ := ih
    obtain ⟨fl2, ls2, g1, _, g3⟩ := Step.spec hinv hs
    obtain ⟨k1, k2, k3⟩ := g3 i l hlab hl
    exact ⟨fl2, ls2, h0, l, g1, by rw [k2]; exact hh, k1, by rw [vals_frame k3]; exact hv⟩

/-- LIFO round trip where `reserve` is only called to grow the pool.  Take any
state of `Reach`, create a stack with `new_stack()` and push values onto it,
doing anything to other stacks in between but nothing else to this one
(`Built i vs c`, where `vs` lists the pushed values with the last pushed
first).  Then the stack has a head `h`, iterating from `begin(h)` to `end(h)`
yields exactly `vs`, that is the pushed values in reverse order of insertion,
and a further push onto `h` returns. -/
theorem push_sequence_iterates_lifo [Inhabited T] {i : Nat} {vs : List T} {c : Client T}
    (hb : Built i vs c) :
    ∃ h, c.heads[i]? = some h ∧
      (∀ fuel, vs.length ≤ fuel → iterate fuel c.pool h = .ok vs) ∧
      (∀ v, ∃ q h2, push v h c.pool = .ok (q, h2)) := by
  obtain ⟨fl, ls, h, l, hinv, hh, hl, hv⟩ := hb.chain
  have hc : IsChain c.pool h l := forall2_getElem? hinv.2.2.1 hh hl
  refine ⟨h, hh, ?_, ?_⟩
  · intro fuel hf
    rw [← hv] at hf ⊢
    rw [vals_length hc] at hf
    exact iterate_of_chain hc fuel hf
  · intro v
    obtain ⟨q, h2, _, hp, _⟩ := push_spec v h hinv.1 hinv.2.1
    exact ⟨q, h2, hp⟩

/-- Scenario B: on a default-constructed pool, a new stack onto which 10 and
then 11 are pushed iterates as `[11, 10]`. -/
theorem push_sequence_iterates_lifo_witness :
    Built 0 [11, 10]
      (⟨⟨⟨[⟨10, 0⟩, ⟨11, 1⟩], 2⟩, 0⟩, [2]⟩ : Client Int) ∧
    ∃ h, (⟨⟨⟨[⟨10, 0⟩, ⟨11, 1⟩], 2⟩, 0⟩, [2]⟩ : Client Int).heads[0]? = some h ∧
      (∀ fuel, [11, 10].length ≤ fuel →
        iterate fuel (⟨⟨[⟨10, 0⟩, ⟨11, 1⟩], 2⟩, 0⟩ : stack_pool Int) h = .ok [11, 10]) ∧
      (∀ v, ∃ q h2, push v h (⟨⟨[⟨10, 0⟩, ⟨11, 1⟩], 2⟩, 0⟩ : stack_pool Int) = .ok (q, h2)) :=
  have hb : Built 0 [11, 10] (⟨⟨⟨[⟨10, 0⟩, ⟨11, 1⟩], 2⟩, 0⟩, [2]⟩ : Client Int) :=
    Built.push ⟨⟨[⟨10, 0⟩], 1⟩, 0⟩ [] 1 [] 11 _ 2 [10]
      (Built.push stack_pool.empty_pool [] 0 [] 10 _ 1 []
        (Built.new ⟨stack_pool.empty_pool, []⟩ Reach.init rfl) rfl rfl) rfl rfl
  ⟨hb, push_sequence_iterates_lifo hb⟩

/-- C2 (pop correctness).  If iterating from a head `h` yields `x :: xs` (so
the stack holds `n = xs.length + 1 ≥ 1` values), then `pop(h)` returns a head
from which iteration yields exactly `xs`: one value fewer, the remaining ones
unchanged and in the same order.  This holds in every pool state, reachable
or not. -/
theorem pop_yields_tail {p : stack_pool T} {h fuel : Nat} {x : T} {xs : List T}
    (hit : iterate fuel p h = .ok (x :: xs)) :
    ∃ q h2, pop h p = .ok (q, h2) ∧
      (∀ f, xs.length ≤ f → iterate f q h2 = .ok xs) ∧
      xs.length = (x :: xs).length - 1 := by
  obtain ⟨l, hc, hv, _⟩ := chain_of_iterate hit
  obtain ⟨l2, hl⟩ : ∃ l2, l = h :: l2 := by
    rcases hc.cases_head with ⟨_, hnil⟩ | ⟨_, l2, hl⟩
    · rw [hnil] at hv; cases hv
    · exact ⟨l2, hl⟩
  subst hl
  obtain ⟨q, nd, g1, g2, _, _, _, _, g7, g8, _⟩ := pop_spec hc
  rw [vals_cons g1] at hv
  have hxs : vals p l2 = xs := (List.cons.inj hv).2
  refine ⟨q, nd.next, g2, ?_, by simp⟩
  intro f hf
  rw [← hxs, ← g8] at hf ⊢
  rw [vals_length g7] at hf
  exact iterate_of_chain g7 f hf

/-- A stack `[11, 10]` with head 2: popping it leaves `[10]`. -/
theorem pop_yields_tail_witness :
    iterate 2 (⟨⟨[⟨10, 0⟩, ⟨11, 1⟩], 2⟩, 0⟩ : stack_pool Int) 2 = .ok [11, 10] ∧
    ∃ q h2, pop 2 (⟨⟨[⟨10, 0⟩, ⟨11, 1⟩], 2⟩, 0⟩ : stack_pool Int) = .ok (q, h2) ∧
      (∀ f, [10].length ≤ f → iterate f q h2 = .ok [10]) ∧
      [10].length = ([11, 10] : List Int).length - 1 :=
  have hit : iterate 2 (⟨⟨[⟨10, 0⟩, ⟨11, 1⟩], 2⟩, 0⟩ : stack_pool Int) 2 = .ok [11, 10] := by
    decide
  ⟨hit, pop_yields_tail hit⟩

/-- C4 (push postcondition).  Whenever `push(v, head)` returns, in any pool
state and for any `head`, the returned handle `h2` is not the sentinel,
`value(h2) == v` and `next(h2) == head`; and in every reachable state the push
does return.  Scenario A: pushing 42 onto a new stack of the
default-constructed pool returns handle 1, with `value(1) == 42` and
`next(1) == 0`. -/
theorem push_returns_linked_slot [Inhabited T] (p : stack_pool T) (v : T) (head : Nat) :
    (∀ q h2, push v head p = .ok (q, h2) →
      h2 ≠ stack_end ∧ value q h2 = .ok v ∧ next q h2 = .ok head) ∧
    (∀ hs, Reach ⟨p, hs⟩ → ∃ q h2, push v head p = .ok (q, h2)) ∧
    (∃ q, push (42 : Int) (new_stack (stack_pool.empty_pool : stack_pool Int))
        stack_pool.empty_pool = .ok (q, 1) ∧ value q 1 = .ok 42 ∧ next q 1 = .ok stack_end) := by
  refine ⟨?_, ?_, ⟨_, rfl, by decide, by decide⟩⟩
  · intro q h2 hp
    obtain ⟨_, g2, g3, g4, _⟩ := push_ok_inv hp
    exact ⟨by simp only [stack_end]; omega, value_eq_ok g2 g4, next_eq_ok g2 g3 g4⟩
  · intro hs hr
    obtain ⟨fl, ls, hinv⟩ := hr.inv
    obtain ⟨q, h2, _, g1, _⟩ := push_spec v head hinv.1 hinv.2.1
    exact ⟨q, h2, g1⟩

/-- The state after pushing 10 onto a new stack of the default-constructed
pool is reachable; the push of 7 onto the held head 1 returns handle 2 and
obeys the postcondition. -/
theorem push_returns_linked_slot_witness :
    Reach (⟨⟨⟨[⟨10, 0⟩], 1⟩, 0⟩, [1]⟩ : Client Int) ∧
    push (7 : Int) 1 (⟨⟨[⟨10, 0⟩], 1⟩, 0⟩ : stack_pool Int)
      = .ok (⟨⟨[⟨10, 0⟩, ⟨7, 1⟩], 2⟩, 0⟩, 2) ∧
    ((2 : Nat) ≠ stack_end ∧
      value (⟨⟨[⟨10, 0⟩, ⟨7, 1⟩], 2⟩, 0⟩ : stack_pool Int) 2 = .ok 7 ∧
      next (⟨⟨[⟨10, 0⟩, ⟨7, 1⟩], 2⟩, 0⟩ : stack_pool Int) 2 = .ok 1) ∧
    (∃ q h2, push (7 : Int) 1 (⟨⟨[⟨10, 0⟩], 1⟩, 0⟩ : stack_pool Int) = .ok (q, h2)) :=
  have hr : Reach (⟨⟨⟨[⟨10, 0⟩], 1⟩, 0⟩, [1]⟩ : Client Int) :=
    Reach.step (Reach.step Reach.init (Step.new_stack stack_pool.empty_pool []))
      (Step.push stack_pool.empty_pool [] 0 [] 10 ⟨⟨[⟨10, 0⟩], 1⟩, 0⟩ 1 (by decide))
  have hp : push (7 : Int) 1 (⟨⟨[⟨10, 0⟩], 1⟩, 0⟩ : stack_pool Int)
      = .ok (⟨⟨[⟨10, 0⟩, ⟨7, 1⟩], 2⟩, 0⟩, 2) := by decide
  ⟨hr, hp, (push_returns_linked_slot ⟨⟨[⟨10, 0⟩], 1⟩, 0⟩ 7 1).1 _ _ hp,
    (push_returns_linked_slot ⟨⟨[⟨10, 0⟩], 1⟩, 0⟩ 7 1).2.1 [1] hr⟩

/-- C8 (growth policy).  A push in a pool of capacity `c` leaves the capacity
equal to 1 if `c == 0`, to `2 * c` if `c > 0` and the free list is empty, and
to `c` if `c > 0` and the free list is not empty: this holds whenever the push
returns, in any pool state (the vector holding at most `capacity()` elements),
and in every reachable state the push does return.  On the
default-constructed pool the first two pushes take the capacity from 0 to 1 and
then to 2. -/
theorem push_capacity_policy [Inhabited T] (p : stack_pool T) (v : T) (head : Nat) :
    (p.pool.size ≤ capacity p → ∀ q h2, push v head p = .ok (q, h2) →
      capacity q = (if capacity p = 0 then 1
        else if empty p.free_nodes then 2 * capacity p else capacity p)) ∧
    (∀ hs, Reach ⟨p, hs⟩ → ∃ q h2, push v head p = .ok (q, h2) ∧
      capacity q = (if capacity p = 0 then 1
        else if empty p.free_nodes then 2 * capacity p else capacity p)) ∧
    (capacity (stack_pool.empty_pool : stack_pool Int) = 0 ∧
     push (10 : Int) 0 stack_pool.empty_pool = .ok (⟨⟨[⟨10, 0⟩], 1⟩, 0⟩, 1) ∧
     capacity (⟨⟨[⟨10, 0⟩], 1⟩, 0⟩ : stack_pool Int) = 1 ∧
     push (11 : Int) 1 ⟨⟨[⟨10, 0⟩], 1⟩, 0⟩ = .ok (⟨⟨[⟨10, 0⟩, ⟨11, 1⟩], 2⟩, 0⟩, 2) ∧
     capacity (⟨⟨[⟨10, 0⟩, ⟨11, 1⟩], 2⟩, 0⟩ : stack_pool Int) = 2) := by
  have hcap : p.pool.size ≤ capacity p → ∀ q h2, push v head p = .ok (q, h2) →
      capacity q = (if capacity p = 0 then 1
        else if empty p.free_nodes then 2 * capacity p else capacity p) := by
    intro hle q h2 hp
    obtain ⟨_, _, _, _, g5, _⟩ := push_ok_inv hp
    rw [g5]
    exact check_capacity_capacity p hle
  refine ⟨hcap, ?_, by decide, by decide, by decide, by decide, by decide⟩
  intro hs hr
  obtain ⟨fl, ls, hinv⟩ := hr.inv
  obtain ⟨q, h2, _, g1, _⟩ := push_spec v head hinv.1 hinv.2.1
  exact ⟨q, h2, g1, hcap (Nat.le_of_eq hinv.1) q h2 g1⟩

/-- In the reachable state that holds the stack `[10]` in a pool of capacity 1
with an empty free list, a push doubles the capacity. -/
theorem push_capacity_policy_witness :
    Reach (⟨⟨⟨[⟨10, 0⟩], 1⟩, 0⟩, [1]⟩ : Client Int) ∧
    (⟨⟨[⟨10, 0⟩], 1⟩, 0⟩ : stack_pool Int).pool.size
      ≤ capacity (⟨⟨[⟨10, 0⟩], 1⟩, 0⟩ : stack_pool Int) ∧
    push (7 : Int) 1 (⟨⟨[⟨10, 0⟩], 1⟩, 0⟩ : stack_pool Int)
      = .ok (⟨⟨[⟨10, 0⟩, ⟨7, 1⟩], 2⟩, 0⟩, 2) ∧
    capacity (⟨⟨[⟨10, 0⟩, ⟨7, 1⟩], 2⟩, 0⟩ : stack_pool Int)
      = (if capacity (⟨⟨[⟨10, 0⟩], 1⟩, 0⟩ : stack_pool Int) = 0 then 1
        else if empty (⟨⟨[⟨10, 0⟩], 1⟩, 0⟩ : stack_pool Int).free_nodes
          then 2 * capacity (⟨⟨[⟨10, 0⟩], 1⟩, 0⟩ : stack_pool Int)
          else capacity (⟨⟨[⟨10, 0⟩], 1⟩, 0⟩ : stack_pool Int)) ∧
    (∃ q h2, push (7 : Int) 1 (⟨⟨[⟨10, 0⟩], 1⟩, 0⟩ : stack_pool Int) = .ok (q, h2) ∧
      capacity q = (if capacity (⟨⟨[⟨10, 0⟩], 1⟩, 0⟩ : stack_pool Int) = 0 then 1
        else if empty (⟨⟨[⟨10, 0⟩], 1⟩, 0⟩ : stack_pool Int).free_nodes
          then 2 * capacity (⟨⟨[⟨10, 0⟩], 1⟩, 0⟩ : stack_pool Int)
          else capacity (⟨⟨[⟨10, 0⟩], 1⟩, 0⟩ : stack_pool Int))) :=
  have hr : Reach (⟨⟨⟨[⟨10, 0⟩], 1⟩, 0⟩, [1]⟩ : Client Int) :=
    Reach.step (Reach.step Reach.init (Step.new_stack stack_pool.empty_pool []))
      (Step.push stack_pool.empty_pool [] 0 [] 10 ⟨⟨[⟨10, 0⟩], 1⟩, 0⟩ 1 (by decide))
  have hp : push (7 : Int) 1 (⟨⟨[⟨10, 0⟩], 1⟩, 0⟩ : stack_pool Int)
      = .ok (⟨⟨[⟨10, 0⟩, ⟨7, 1⟩], 2⟩, 0⟩, 2) := by decide
  have hle : (⟨⟨[⟨10, 0⟩], 1⟩, 0⟩ : stack_pool Int).pool.size
      ≤ capacity (⟨⟨[⟨10, 0⟩], 1⟩, 0⟩ : stack_pool Int) := by decide
  ⟨hr, hle, hp, (push_capacity_policy ⟨⟨[⟨10, 0⟩], 1⟩, 0⟩ 7 1).1 hle _ _ hp,
    (push_capacity_policy ⟨⟨[⟨10, 0⟩], 1⟩, 0⟩ 7 1).2.1 [1] hr⟩

theorem iterate_frame {p q : stack_pool T} {b : Nat} {l : List Nat}
    (hcap : capacity p ≤ capacity q) (hc : IsChain p b l)
    (hsame : ∀ x ∈ l, q.pool.elems[x - 1]? = p.pool.elems[x - 1]?) :
    ∀ f, (vals p l).length ≤ f → iterate f q b = .ok (vals p l) := by
  intro f hf
  have hq : IsChain q b l := IsChain.frame hcap hsame hc
  rw [← vals_frame hsame] at hf ⊢
  rw [vals_length hq] at hf
  exact iterate_of_chain hq f hf

theorem Inv.chain_length_le {p : stack_pool T} {hs1 : List Nat} {h : Nat} {hs2 : List Nat}
    {fl : List Nat} {la : List (List Nat)} {l : List Nat} {lb : List (List Nat)}
    (hinv : Inv ⟨p, hs1 ++ h :: hs2⟩ fl (la ++ l :: lb)) : l.length ≤ capacity p := by
  have h4 := hinv.2.2.2.length_eq
  simp only [List.length_append, List.flatten_append, List.flatten_cons, List.length_range']
    at h4
  show l.length ≤ p.pool.cap
  omega

/-- No cross-contamination where `reserve` is only called to grow the pool.  In
every state of `Reach` in which the client holds a stack A (head `a`, at
position `hs1.length`) and another stack B (head `b`, at a different position
`j`), iterating B yields some values `vs`, and
each of `push(v, A)`, `pop(A)` for non-empty A and `free_stack(A)` returns and
leaves the values iterated from `b` equal to `vs`; whether the push grows the
pool or reuses a released slot makes no difference.  Scenario C: with A = [11,
10] and B = [20], popping A and then pushing 21 onto B reuses handle 2 and gives
A = [10], B = [21, 20]. -/
theorem other_stack_unchanged [Inhabited T] {p : stack_pool T} {hs1 : List Nat} {a : Nat}
    {hs2 : List Nat} (hr : Reach ⟨p, hs1 ++ a :: hs2⟩) {j b : Nat} (hj : j ≠ hs1.length)
    (hb : (hs1 ++ a :: hs2)[j]? = some b) :
    (∃ vs, (∀ f, vs.length ≤ f → iterate f p b = .ok vs) ∧
      (∀ v, ∃ q a2, push v a p = .ok (q, a2) ∧
        ∀ f, vs.length ≤ f → iterate f q b = .ok vs) ∧
      (a ≠ stack_end → ∃ q a2, pop a p = .ok (q, a2) ∧
        ∀ f, vs.length ≤ f → iterate f q b = .ok vs) ∧
      (∃ q, (∀ fuel, capacity p ≤ fuel → free_stack fuel a p = .ok (q, stack_end)) ∧
        ∀ f, vs.length ≤ f → iterate f q b = .ok vs)) ∧
    (push (10 : Int) stack_end stack_pool.empty_pool = .ok (⟨⟨[⟨10, 0⟩], 1⟩, 0⟩, 1) ∧
     push (11 : Int) 1 ⟨⟨[⟨10, 0⟩], 1⟩, 0⟩ = .ok (⟨⟨[⟨10, 0⟩, ⟨11, 1⟩], 2⟩, 0⟩, 2) ∧
     push (20 : Int) stack_end ⟨⟨[⟨10, 0⟩, ⟨11, 1⟩], 2⟩, 0⟩
       = .ok (⟨⟨[⟨10, 0⟩, ⟨11, 1⟩, ⟨20, 0⟩, ⟨0, 0⟩], 4⟩, 4⟩, 3) ∧
     pop 2 (⟨⟨[⟨10, 0⟩, ⟨11, 1⟩, ⟨20, 0⟩, ⟨0, 0⟩], 4⟩, 4⟩ : stack_pool Int)
       = .ok (⟨⟨[⟨10, 0⟩, ⟨11, 4⟩, ⟨20, 0⟩, ⟨0, 0⟩], 4⟩, 2⟩, 1) ∧
     push (21 : Int) 3 ⟨⟨[⟨10, 0⟩, ⟨11, 4⟩, ⟨20, 0⟩, ⟨0, 0⟩], 4⟩, 2⟩
       = .ok (⟨⟨[⟨10, 0⟩, ⟨21, 3⟩, ⟨20, 0⟩, ⟨0, 0⟩], 4⟩, 4⟩, 2) ∧
     iterate 2 (⟨⟨[⟨10, 0⟩, ⟨21, 3⟩, ⟨20, 0⟩, ⟨0, 0⟩], 4⟩, 4⟩ : stack_pool Int) 1 = .ok [10] ∧
     iterate 2 (⟨⟨[⟨10, 0⟩, ⟨21, 3⟩, ⟨20, 0⟩, ⟨0, 0⟩], 4⟩, 4⟩ : stack_pool Int) 2
       = .ok [21, 20]) := by
  refine ⟨?_, by decide, by decide, by decide, by decide, by decide, by decide, by decide⟩
  obtain ⟨fl, ls, hinv⟩ := hr.inv
  obtain ⟨lB, hlB, hcB⟩ := forall2_getElem?_left hinv.2.2.1 hb
  refine ⟨vals p lB, ?_, ?_, ?_, ?_⟩
  · intro f hf
    rw [vals_length hcB] at hf
    exact iterate_of_chain hcB f hf
  · intro v
    obtain ⟨q, a2, fl2, la, l, lb, e1, e2, e3, _, _, e6, e7⟩ := hinv.of_push v
    subst e1
    have hne : j ≠ la.length := by omega
    exact ⟨q, a2, e3, iterate_frame e6 hcB
      (fun x hx => e7 x (mem_others_of_getElem? hne hlB hx))⟩
  · intro ha
    obtain ⟨q, a2, la, l, lb, e1, e2, e3, _, _, e6, _, e8⟩ := hinv.of_pop ha
    subst e1
    have hne : j ≠ la.length := by omega
    exact ⟨q, a2, e3, iterate_frame (Nat.le_of_eq e6.symm) hcB
      (fun x hx => e8 x (mem_others_of_getElem? hne hlB hx))⟩
  · obtain ⟨q, la, l, lb, e1, e2, e3, _, _, e6, _, e8⟩ := hinv.of_free_stack
    subst e1
    have hne : j ≠ la.length := by omega
    have hlen := hinv.chain_length_le
    refine ⟨q, fun fuel hf => e3 fuel (by omega), iterate_frame (Nat.le_of_eq e6.symm) hcB
      (fun x hx => e8 x (mem_others_of_getElem? hne hlB hx))⟩

/-- The reachable state of scenario C before the pop: A = [11, 10] with head
2 at position 0 and B = [20] with head 3 at position 1. -/
theorem other_stack_unchanged_witness :
    Reach (⟨⟨⟨[⟨10, 0⟩, ⟨11, 1⟩, ⟨20, 0⟩, ⟨0, 0⟩], 4⟩, 4⟩, [] ++ 2 :: [3]⟩ : Client Int) ∧
    (1 : Nat) ≠ ([] : List Nat).length ∧ (([] : List Nat) ++ 2 :: [3])[1]? = some 3 ∧
    ∃ vs, (∀ f, vs.length ≤ f →
        iterate f (⟨⟨[⟨10, 0⟩, ⟨11, 1⟩, ⟨20, 0⟩, ⟨0, 0⟩], 4⟩, 4⟩ : stack_pool Int) 3 = .ok vs) ∧
      (∀ v, ∃ q a2,
        push v 2 (⟨⟨[⟨10, 0⟩, ⟨11, 1⟩, ⟨20, 0⟩, ⟨0, 0⟩], 4⟩, 4⟩ : stack_pool Int) = .ok (q, a2) ∧
        ∀ f, vs.length ≤ f → iterate f q 3 = .ok vs) ∧
      ((2 : Nat) ≠ stack_end → ∃ q a2,
        pop 2 (⟨⟨[⟨10, 0⟩, ⟨11, 1⟩, ⟨20, 0⟩, ⟨0, 0⟩], 4⟩, 4⟩ : stack_pool Int) = .ok (q, a2) ∧
        ∀ f, vs.length ≤ f → iterate f q 3 = .ok vs) ∧
      (∃ q, (∀ fuel,
          capacity (⟨⟨[⟨10, 0⟩, ⟨11, 1⟩, ⟨20, 0⟩, ⟨0, 0⟩], 4⟩, 4⟩ : stack_pool Int) ≤ fuel →
          free_stack fuel 2 (⟨⟨[⟨10, 0⟩, ⟨11, 1⟩, ⟨20, 0⟩, ⟨0, 0⟩], 4⟩, 4⟩ : stack_pool Int)
            = .ok (q, stack_end)) ∧
        ∀ f, vs.length ≤ f → iterate f q 3 = .ok vs) :=
  have hr : Reach (⟨⟨⟨[⟨10, 0⟩, ⟨11, 1⟩, ⟨20, 0⟩, ⟨0, 0⟩], 4⟩, 4⟩, [] ++ 2 :: [3]⟩ : Client Int) :=
    Reach.step (Reach.step (Reach.step (Reach.step (Reach.step Reach.init
      (Step.new_stack stack_pool.empty_pool []))
      (Step.push stack_pool.empty_pool [] 0 [] 10 ⟨⟨[⟨10, 0⟩], 1⟩, 0⟩ 1 (by decide)))
      (Step.push ⟨⟨[⟨10, 0⟩], 1⟩, 0⟩ [] 1 [] 11 ⟨⟨[⟨10, 0⟩, ⟨11, 1⟩], 2⟩, 0⟩ 2 (by decide)))
      (Step.new_stack ⟨⟨[⟨10, 0⟩, ⟨11, 1⟩], 2⟩, 0⟩ [2]))
      (Step.push ⟨⟨[⟨10, 0⟩, ⟨11, 1⟩], 2⟩, 0⟩ [2] 0 [] 20
        ⟨⟨[⟨10, 0⟩, ⟨11, 1⟩, ⟨20, 0⟩, ⟨0, 0⟩], 4⟩, 4⟩ 3 (by decide))
  ⟨hr, by decide, by decide, (other_stack_unchanged hr (j := 1) (b := 3) (by decide) (by decide)).1⟩

theorem reserve_capacity_ge [Inhabited T] (n : Nat) (p : stack_pool T)
    (hle : p.pool.elems.length ≤ p.pool.cap) : capacity p ≤ capacity (reserve n p) := by
  by_cases hn : capacity p < n
  · rw [reserve_capacity_of_le n p hle hn]; omega
  · have hc : ¬ p.pool.cap < n := hn
    have hk : n - (p.pool.cap + 1) = 0 := by omega
    have hr : p.pool.reserve n = p.pool := by simp [StdVector.reserve, hc]
    simp only [reserve, _reserve, _emplace_back, capacity, StdVector.capacity, hr, hk,
      _emplace_back_loop, StdVector.emplace_back]
    split <;> omega

theorem reserve_keeps_slot [Inhabited T] (n : Nat) (p : stack_pool T)
    (hle : p.pool.elems.length ≤ p.pool.cap) {h : Nat} (h1 : 0 < h)
    (h2 : h ≤ p.pool.elems.length) :
    value (reserve n p) h = value p h ∧ next (reserve n p) h = next p h := by
  have hc : capacity p = p.pool.cap := rfl
  have hlt : h - 1 < p.pool.elems.length := by omega
  have hnd : p.pool.elems[h - 1]? = some p.pool.elems[h - 1] := List.getElem?_eq_getElem hlt
  have hnd2 : (reserve n p).pool.elems[h - 1]? = some p.pool.elems[h - 1] := by
    rw [reserve_old_slot n p h1 h2]; exact hnd
  have hge := reserve_capacity_ge n p hle
  exact ⟨by rw [value_eq_ok h1 hnd, value_eq_ok h1 hnd2],
    by rw [next_eq_ok h1 (by omega) hnd, next_eq_ok h1 (by omega) hnd2]⟩

/-- C7 (handle stability under growth).  Take any pool (the vector holding at
most `capacity()` elements) and any handle `h` of a stored slot; in a pool whose
storage holds `capacity()` slots these are the handles in `[1, capacity()]`.
For every `n`, `value(h)` and `next(h)` are the same after `reserve(n)` as
before.  Hence when the free list is empty, so that a push grows the pool, the
push returns, the capacity has grown, and `h` keeps its value and its next. -/
theorem reserve_keeps_handles [Inhabited T] (p : stack_pool T)
    (hle : p.pool.size ≤ capacity p) (h : Nat) (h1 : 1 ≤ h) (h2 : h ≤ p.pool.size) :
    (∀ n, value (reserve n p) h = value p h ∧ next (reserve n p) h = next p h) ∧
    (empty p.free_nodes = true → ∀ v head, ∃ q h3, push v head p = .ok (q, h3) ∧
      capacity p < capacity q ∧ value q h = value p h ∧ next q h = next p h) := by
  have hle2 : p.pool.elems.length ≤ p.pool.cap := hle
  have h22 : h ≤ p.pool.elems.length := h2
  have hc : capacity p = p.pool.cap := rfl
  refine ⟨fun n => reserve_keeps_slot n p hle2 h1 h22, ?_⟩
  intro hf v head
  have hf0 : p.free_nodes = 0 := by simpa [empty, stack_end] using hf
  have h0 : capacity p ≠ 0 := by omega
  have hq : check_capacity p = reserve (capacity p * 2) p := by
    simp [check_capacity, h0, hf0, empty, stack_end]
  have hcap1 : capacity (check_capacity p) = capacity p * 2 := by
    rw [hq]; exact reserve_capacity_of_le _ p hle2 (by omega)
  have hfree1 : (check_capacity p).free_nodes = capacity p + 1 := by rw [hq]; rfl
  have hlen1 : (check_capacity p).pool.elems.length = p.pool.elems.length + capacity p := by
    rw [hq, reserve_length]; omega
  have hlt1 : (check_capacity p).free_nodes - 1 < (check_capacity p).pool.elems.length := by
    rw [hfree1, hlen1]; omega
  have hp := push_eq v head (by rw [hfree1]; omega) (by rw [hfree1, hcap1]; omega)
    (List.getElem?_eq_getElem hlt1)
  obtain ⟨g1, _, _, _, g5, _, g7⟩ := push_ok_inv hp
  have hlt : h - 1 < p.pool.elems.length := by omega
  have hnd : p.pool.elems[h - 1]? = some p.pool.elems[h - 1] := List.getElem?_eq_getElem hlt
  have hold : (check_capacity p).pool.elems[h - 1]? = p.pool.elems[h - 1]? := by
    rw [hq]; exact reserve_old_slot _ p h1 h22
  refine ⟨_, _, hp, by rw [g5, hcap1]; omega, ?_, ?_⟩
  · rw [value_eq_ok h1 hnd, value_eq_ok h1 (by rw [g7 h h1 (by omega), hold]; exact hnd)]
  · rw [next_eq_ok h1 (by omega) hnd,
      next_eq_ok h1 (by rw [g5, hcap1]; omega) (by rw [g7 h h1 (by omega), hold]; exact hnd)]

/-- The pool holding the stack `[10]` in its single slot: handle 1 keeps its
value and next under every `reserve` and under the growing push. -/
theorem reserve_keeps_handles_witness :
    ((⟨⟨[⟨10, 0⟩], 1⟩, 0⟩ : stack_pool Int).pool.size
      ≤ capacity (⟨⟨[⟨10, 0⟩], 1⟩, 0⟩ : stack_pool Int) ∧
     1 ≤ 1 ∧ 1 ≤ (⟨⟨[⟨10, 0⟩], 1⟩, 0⟩ : stack_pool Int).pool.size) ∧
    ((∀ n, value (reserve n (⟨⟨[⟨10, 0⟩], 1⟩, 0⟩ : stack_pool Int)) 1
          = value (⟨⟨[⟨10, 0⟩], 1⟩, 0⟩ : stack_pool Int) 1 ∧
        next (reserve n (⟨⟨[⟨10, 0⟩], 1⟩, 0⟩ : stack_pool Int)) 1
          = next (⟨⟨[⟨10, 0⟩], 1⟩, 0⟩ : stack_pool Int) 1) ∧
    (empty (⟨⟨[⟨10, 0⟩], 1⟩, 0⟩ : stack_pool Int).free_nodes = true → ∀ v head, ∃ q h3,
      push v head (⟨⟨[⟨10, 0⟩], 1⟩, 0⟩ : stack_pool Int) = .ok (q, h3) ∧
      capacity (⟨⟨[⟨10, 0⟩], 1⟩, 0⟩ : stack_pool Int) < capacity q ∧
      value q 1 = value (⟨⟨[⟨10, 0⟩], 1⟩, 0⟩ : stack_pool Int) 1 ∧
      next q 1 = next (⟨⟨[⟨10, 0⟩], 1⟩, 0⟩ : stack_pool Int) 1)) ∧
    empty (⟨⟨[⟨10, 0⟩], 1⟩, 0⟩ : stack_pool Int).free_nodes = true :=
  ⟨⟨by decide, by decide, by decide⟩,
    reserve_keeps_handles ⟨⟨[⟨10, 0⟩], 1⟩, 0⟩ (by decide) 1 (by decide) (by decide),
    by decide⟩

/-- C9 (reserve prepends the new slots).  In a pool whose storage holds
`c = capacity()` slots and whose free-list head is `f`, for every `n > c`,
after `reserve(n)`: `capacity() == n`, the storage holds `n` slots, the
free-list head is `c + 1`, `next(i) == i + 1` for every `c + 1 ≤ i < n`, and
`next(n) == f`. -/
theorem reserve_links_new_slots [Inhabited T] (p : stack_pool T)
    (hfull : p.pool.size = capacity p) (n : Nat) (hn : capacity p < n) :
    capacity (reserve n p) = n ∧ (reserve n p).pool.size = n ∧
    (reserve n p).free_nodes = capacity p + 1 ∧
    (∀ i, capacity p + 1 ≤ i → i < n → next (reserve n p) i = .ok (i + 1)) ∧
    next (reserve n p) n = .ok p.free_nodes := by
  have hfull2 : p.pool.elems.length = p.pool.cap := hfull
  have hcap := reserve_capacity n p hfull2 hn
  have hsize : (reserve n p).pool.size = n := by
    have := reserve_full n p hfull2 hn
    have hc2 : capacity (reserve n p) = (reserve n p).pool.cap := rfl
    show (reserve n p).pool.elems.length = n
    omega
  refine ⟨hcap, hsize, rfl, ?_, ?_⟩
  · intro i h1 h2
    exact next_eq_ok (by omega) (by omega) (reserve_new_slot n p hfull2 (by omega) h2)
  · exact next_eq_ok (by omega) (by omega) (reserve_last_slot n p hfull2 hn)

/-- The pool with the single free slot 1, grown to four slots: the free list
becomes 2 -> 3 -> 4 -> 1. -/
theorem reserve_links_new_slots_witness :
    (⟨⟨[⟨0, 0⟩], 1⟩, 1⟩ : stack_pool Int).pool.size
      = capacity (⟨⟨[⟨0, 0⟩], 1⟩, 1⟩ : stack_pool Int) ∧
    capacity (⟨⟨[⟨0, 0⟩], 1⟩, 1⟩ : stack_pool Int) < 4 ∧
    (capacity (reserve 4 (⟨⟨[⟨0, 0⟩], 1⟩, 1⟩ : stack_pool Int)) = 4 ∧
    (reserve 4 (⟨⟨[⟨0, 0⟩], 1⟩, 1⟩ : stack_pool Int)).pool.size = 4 ∧
    (reserve 4 (⟨⟨[⟨0, 0⟩], 1⟩, 1⟩ : stack_pool Int)).free_nodes
      = capacity (⟨⟨[⟨0, 0⟩], 1⟩, 1⟩ : stack_pool Int) + 1 ∧
    (∀ i, capacity (⟨⟨[⟨0, 0⟩], 1⟩, 1⟩ : stack_pool Int) + 1 ≤ i → i < 4 →
      next (reserve 4 (⟨⟨[⟨0, 0⟩], 1⟩, 1⟩ : stack_pool Int)) i = .ok (i + 1)) ∧
    next (reserve 4 (⟨⟨[⟨0, 0⟩], 1⟩, 1⟩ : stack_pool Int)) 4
      = .ok (⟨⟨[⟨0, 0⟩], 1⟩, 1⟩ : stack_pool Int).free_nodes) :=
  ⟨by decide, by decide, reserve_links_new_slots ⟨⟨[⟨0, 0⟩], 1⟩, 1⟩ (by decide) 4 (by decide)⟩

/-- C10 (bounds check of `next`).  For every pool and every handle `h`,
`next(h)` stops with the 'Invalid index' error if and only if `h == 0` or
`h > capacity()`.  For every `h` in `[1, capacity()]` whose slot is stored it
returns the `next` field stored in slot `h`, whatever it is (the sentinel
included); and in a pool whose storage holds `capacity()` slots every `h` in
`[1, capacity()]` has a stored slot, so `next(h)` succeeds. -/
theorem next_invalid_index_iff (p : stack_pool T) (h : Nat) :
    (next p h = .error .invalid_index ↔ h = 0 ∨ capacity p < h) ∧
    (∀ nd, 1 ≤ h → h ≤ capacity p → p.pool.elems[h - 1]? = some nd →
      next p h = .ok nd.next) ∧
    (p.pool.size = capacity p → 1 ≤ h → h ≤ capacity p →
      ∃ nd, p.pool.elems[h - 1]? = some nd ∧ next p h = .ok nd.next) := by
  refine ⟨⟨?_, ?_⟩, ?_, ?_⟩
  · intro hn
    by_contra hc
    have hr : 0 < h ∧ h ≤ capacity p := by omega
    unfold next at hn
    rw [if_pos hr] at hn
    unfold node at hn
    split at hn
    · omega
    · split at hn <;> simp [Except.map] at hn
  · intro hc
    unfold next
    rw [if_neg (by omega)]
  · intro nd h1 h2 hnd
    exact next_eq_ok h1 h2 hnd
  · intro hfull h1 h2
    have hfull2 : p.pool.elems.length = p.pool.cap := hfull
    have hc : capacity p = p.pool.cap := rfl
    have hlt : h - 1 < p.pool.elems.length := by omega
    exact ⟨_, List.getElem?_eq_getElem hlt, next_eq_ok h1 h2 (List.getElem?_eq_getElem hlt)⟩

/-- In the pool holding the stack `[10]`, `next(1)` returns the stored
sentinel, while `next(0)` and `next(2)` stop with 'Invalid index'. -/
theorem next_invalid_index_iff_witness :
    ((⟨⟨[⟨10, 0⟩], 1⟩, 0⟩ : stack_pool Int).pool.size
        = capacity (⟨⟨[⟨10, 0⟩], 1⟩, 0⟩ : stack_pool Int) ∧ 1 ≤ 1 ∧
      1 ≤ capacity (⟨⟨[⟨10, 0⟩], 1⟩, 0⟩ : stack_pool Int)) ∧
    (∃ nd, (⟨⟨[⟨10, 0⟩], 1⟩, 0⟩ : stack_pool Int).pool.elems[1 - 1]? = some nd ∧
      next (⟨⟨[⟨10, 0⟩], 1⟩, 0⟩ : stack_pool Int) 1 = .ok nd.next) ∧
    next (⟨⟨[⟨10, 0⟩], 1⟩, 0⟩ : stack_pool Int) 1 = .ok 0 ∧
    next (⟨⟨[⟨10, 0⟩], 1⟩, 0⟩ : stack_pool Int) 0 = .error .invalid_index ∧
    next (⟨⟨[⟨10, 0⟩], 1⟩, 0⟩ : stack_pool Int) 2 = .error .invalid_index :=
  ⟨⟨by decide, by decide, by decide⟩,
    (next_invalid_index_iff ⟨⟨[⟨10, 0⟩], 1⟩, 0⟩ 1).2.2 (by decide) (by decide) (by decide),
    (next_invalid_index_iff ⟨⟨[⟨10, 0⟩], 1⟩, 0⟩ 1).2.1 ⟨10, 0⟩ (by decide) (by decide)
      (by decide),
    by decide, by decide⟩

/-! ## Conservation and disjointness of the chains -/

theorem handles_of_chain {p : stack_pool T} :
    ∀ {l : List Nat} {h : Nat}, IsChain p h l →
      ∀ fuel, l.length ≤ fuel → handles fuel p h = .ok l
  | [], h, hc, fuel, _ => by
    rw [isChain_nil] at hc
    subst hc
    unfold handles
    simp [stack_end]
  | x :: l, h, hc, fuel, hf => by
    rw [isChain_cons] at hc
    obtain ⟨h1, h2, h3, nd, h4, h5⟩ := hc
    subst h1
    cases fuel with
    | zero => simp at hf
    | succ f =>
      have ih := handles_of_chain h5 f (by simpa using hf)
      unfold handles
      simp only [stack_end, Nat.pos_iff_ne_zero.mp h2, if_false, next_eq_ok h2 h3 h4, ih]
      rfl

theorem occupied_count_of_chains {p : stack_pool T} (fuel : Nat) :
    ∀ {hs : List Nat} {ls : List (List Nat)}, List.Forall₂ (IsChain p) hs ls →
      ls.flatten.length ≤ fuel → occupied_count fuel p hs = .ok ls.flatten.length
  | _, _, List.Forall₂.nil, _ => rfl
  | _, _, List.Forall₂.cons h1 h2, hf => by
    simp only [List.flatten_cons, List.length_append] at hf ⊢
    unfold occupied_count
    rw [handles_of_chain h1 fuel (by omega), occupied_count_of_chains fuel h2 (by omega)]

theorem handles_of_chains {p : stack_pool T} (fuel : Nat) :
    ∀ {hs : List Nat} {ls : List (List Nat)}, List.Forall₂ (IsChain p) hs ls →
      (∀ l ∈ ls, l.length ≤ fuel) →
      List.Forall₂ (fun h l => handles fuel p h = .ok l) hs ls
  | _, _, List.Forall₂.nil, _ => List.Forall₂.nil
  | _, _, List.Forall₂.cons h1 h2, hall =>
    List.Forall₂.cons (handles_of_chain h1 fuel (hall _ (List.mem_cons_self _ _)))
      (handles_of_chains fuel h2 (fun l hl => hall l (List.mem_cons_of_mem _ hl)))

/-- In every reachable state the slots on the held stacks and the slots on
the free list add up to `capacity()`. -/
theorem Reach.conservation [Inhabited T] {c : Client T} (hr : Reach c) (fuel : Nat)
    (hf : capacity c.pool ≤ fuel) :
    ∃ no nf, occupied_count fuel c.pool c.heads = .ok no ∧ free_count fuel c.pool = .ok nf ∧
      no + nf = capacity c.pool := by
  obtain ⟨fl, ls, h1, h2, h3, h4⟩ := hr.inv
  have hlen := h4.length_eq
  simp only [List.length_append, List.length_range'] at hlen
  have hc : capacity c.pool = c.pool.pool.cap := rfl
  refine ⟨ls.flatten.length, fl.length, occupied_count_of_chains fuel h3 (by omega), ?_,
    by omega⟩
  unfold free_count
  rw [handles_of_chain h2 fuel (by omega)]
  rfl

/-- In every reachable state the free list and the held stacks are chains
that end at the sentinel, their handles lie in `[1, capacity()]`, and no
handle occurs twice, neither on one chain nor on two of them. -/
theorem Reach.chains [Inhabited T] {c : Client T} (hr : Reach c) (fuel : Nat)
    (hf : capacity c.pool ≤ fuel) :
    ∃ fl ls, handles fuel c.pool c.pool.free_nodes = .ok fl ∧
      List.Forall₂ (fun h l => handles fuel c.pool h = .ok l) c.heads ls ∧
      (fl ++ ls.flatten).Nodup ∧
      ∀ x ∈ fl ++ ls.flatten, 1 ≤ x ∧ x ≤ capacity c.pool := by
  obtain ⟨fl, ls, h1, h2, h3, h4⟩ := hr.inv
  have hlen := h4.length_eq
  simp only [List.length_append, List.length_range'] at hlen
  have hc : capacity c.pool = c.pool.pool.cap := rfl
  refine ⟨fl, ls, handles_of_chain h2 fuel (by omega), ?_,
    h4.nodup_iff.mpr (List.nodup_range' 1 _), ?_⟩
  · have hall : ∀ l ∈ ls, l.length ≤ fuel := by
      intro l hl
      have : l.length ≤ ls.flatten.length := by
        obtain ⟨a, b, hab⟩ := List.append_of_mem hl
        rw [hab]
        simp
        omega
      omega
    exact handles_of_chains fuel h3 hall
  · intro x hx
    have := mem_range_one.mp ((h4.mem_iff).mp hx)
    omega

/-- C5 (free-list conservation), evaluated on the calls `reserve(4)`,
`reserve(2)` made on a default-constructed pool: the second call appends a
fifth slot although `2 <= capacity()`, the vector doubles its capacity to 8, and
the 0 slots on held stacks plus the 5 slots on the free list differ from
`capacity() == 8`. -/
theorem conservation_broken_by_small_reserve :
    capacity (reserve 2 (reserve 4 (stack_pool.empty_pool : stack_pool Int))) = 8 ∧
    (reserve 2 (reserve 4 (stack_pool.empty_pool : stack_pool Int))).pool.size = 5 ∧
    occupied_count 8 (reserve 2 (reserve 4 (stack_pool.empty_pool : stack_pool Int))) [] = .ok 0 ∧
    free_count 8 (reserve 2 (reserve 4 (stack_pool.empty_pool : stack_pool Int))) = .ok 5 := by
  decide

/-- C6 (chains stay inside the pool), evaluated on the calls `reserve(4)`,
`reserve(2)`, `reserve(2)` made on a default-constructed pool: the free-list
head becomes 9 while `capacity()` is 8, so the free list is not a chain of
handles in `[1, capacity()]`: following it stops with 'Invalid index', and so
does the next push. -/
theorem free_list_broken_by_small_reserve :
    (reserve 2 (reserve 2 (reserve 4 (stack_pool.empty_pool : stack_pool Int)))).free_nodes = 9 ∧
    capacity (reserve 2 (reserve 2 (reserve 4 (stack_pool.empty_pool : stack_pool Int)))) = 8 ∧
    handles 9 (reserve 2 (reserve 2 (reserve 4 (stack_pool.empty_pool : stack_pool Int)))) 9
      = .error .invalid_index ∧
    push 1 stack_end (reserve 2 (reserve 2 (reserve 4 (stack_pool.empty_pool : stack_pool Int))))
      = .error .invalid_index := by
  decide

/-- C17 (empty-stack identity).  In every pool state `new_stack()` returns the
sentinel 0; it is a `const` member that only computes a handle, so the pool is
the same afterwards.  For every handle `h`, `empty(h)` is true if and only if
`h == 0`, so `empty(new_stack())` is always true. -/
theorem new_stack_is_empty_sentinel (p : stack_pool T) :
    new_stack p = 0 ∧ new_stack p = stack_end ∧
    (∀ h : Nat, empty h = true ↔ h = 0) ∧
    empty (new_stack p) = true := by
  refine ⟨rfl, rfl, ?_, rfl⟩
  intro h
  simp [empty, stack_end]

/-- `pop_leaving` agrees with `pop` on what is returned. -/
theorem pop_leaving_result (x : Nat) (p : stack_pool T) :
    pop x p = (match pop_leaving x p with
      | (q, .ok t) => .ok (q, t)
      | (_, .error e) => .error e) := by
  unfold pop _pop pop_leaving
  cases hn : next p x with
  | error e => rfl
  | ok tmp =>
    cases hs : set_next p x p.free_nodes with
    | error e => simp [bind, Except.bind]
    | ok p1 => simp [bind, Except.bind, pure, Except.pure]

/-- C18 (pop of an invalid handle).  For every pool and every handle `h` with
`h == 0` or `h > capacity()`, `pop(h)` stops with the 'Invalid index' error
raised by `next(h)`, its first statement; nothing has been assigned before, so
the pool it leaves is the pool it found: the free-list head and every slot are
as they were.  In particular popping an empty stack is rejected. -/
theorem pop_invalid_handle_fails (p : stack_pool T) (h : Nat)
    (hh : h = 0 ∨ capacity p < h) :
    next p h = .error .invalid_index ∧ pop h p = .error .invalid_index ∧
    pop_leaving h p = (p, .error .invalid_index) := by
  have hn : next p h = .error .invalid_index := by
    unfold next
    rw [if_neg (by omega)]
  have hp : _pop h p = .error .invalid_index := by
    simp [_pop, hn, bind, Except.bind]
  refine ⟨hn, hp, ?_⟩
  simp [pop_leaving, hn]

/-- Popping the empty stack, and popping handle 3 in a pool of capacity 2. -/
theorem pop_invalid_handle_fails_witness :
    ((0 : Nat) = 0 ∨ capacity (⟨⟨[⟨10, 0⟩, ⟨11, 1⟩], 2⟩, 0⟩ : stack_pool Int) < 0) ∧
    (next (⟨⟨[⟨10, 0⟩, ⟨11, 1⟩], 2⟩, 0⟩ : stack_pool Int) 0 = .error .invalid_index ∧
      pop 0 (⟨⟨[⟨10, 0⟩, ⟨11, 1⟩], 2⟩, 0⟩ : stack_pool Int) = .error .invalid_index ∧
      pop_leaving 0 (⟨⟨[⟨10, 0⟩, ⟨11, 1⟩], 2⟩, 0⟩ : stack_pool Int)
        = (⟨⟨[⟨10, 0⟩, ⟨11, 1⟩], 2⟩, 0⟩, .error .invalid_index)) ∧
    pop 3 (⟨⟨[⟨10, 0⟩, ⟨11, 1⟩], 2⟩, 0⟩ : stack_pool Int) = .error .invalid_index :=
  ⟨Or.inl rfl, pop_invalid_handle_fails ⟨⟨[⟨10, 0⟩, ⟨11, 1⟩], 2⟩, 0⟩ 0 (Or.inl rfl), by decide⟩

theorem reserve_small_elems [Inhabited T] (p : stack_pool T) (n : Nat) (hn : n ≤ capacity p) :
    (reserve n p).pool.elems = p.pool.elems ++ [{ value := default, next := p.free_nodes }] := by
  rw [reserve_elems]
  have : n - (capacity p + 1) = 0 := by omega
  simp [this]

/-- C19 (`reserve` below the capacity).  In a pool whose storage holds
`c = capacity()` slots, with free-list head `f`, for every `n <= c` the call
`reserve(n)` is not a no-op: it appends exactly one slot, at handle `c + 1`,
whose next is `f`, sets the free-list head to `c + 1`, and leaves the existing
slots as they were; `next(c + 1)` then returns `f`.  Hence after `reserve(m)`,
for any `m`, the storage holds `max(m, c + 1)` slots. -/
theorem reserve_small_appends_one [Inhabited T] (p : stack_pool T)
    (hfull : p.pool.size = capacity p) (n : Nat) (hn : n ≤ capacity p) :
    (reserve n p).pool.elems = p.pool.elems ++ [{ value := default, next := p.free_nodes }] ∧
    (reserve n p).pool.size = capacity p + 1 ∧
    (reserve n p).free_nodes = capacity p + 1 ∧
    next (reserve n p) (capacity p + 1) = .ok p.free_nodes ∧
    (∀ x, 1 ≤ x → x ≤ capacity p →
      (reserve n p).pool.elems[x - 1]? = p.pool.elems[x - 1]?) ∧
    reserve n p ≠ p ∧
    (∀ m, (reserve m p).pool.size = max m (capacity p + 1)) := by
  have hfull2 : p.pool.elems.length = p.pool.cap := hfull
  have hc : capacity p = p.pool.cap := rfl
  have he := reserve_small_elems p n hn
  have hsz : (reserve n p).pool.size = capacity p + 1 := by
    show (reserve n p).pool.elems.length = _
    rw [he]; simp; omega
  have hslot : (reserve n p).pool.elems[capacity p + 1 - 1]? =
      some { value := default, next := p.free_nodes } := by
    rw [he, List.getElem?_append_right (by omega)]
    have : capacity p + 1 - 1 - p.pool.elems.length = 0 := by omega
    rw [this]; rfl
  refine ⟨he, hsz, rfl, ?_, ?_, ?_, ?_⟩
  · have hge := reserve_capacity_ge n p (Nat.le_of_eq hfull2)
    have hsz2 : (reserve n p).pool.elems.length = capacity p + 1 := hsz
    refine next_eq_ok (by omega) ?_ hslot
    -- the vector has grown, so its capacity is at least its size
    have hk : n - (p.pool.cap + 1) = 0 := by omega
    have hr : p.pool.reserve n = p.pool := by
      have : ¬ p.pool.cap < n := by omega
      simp [StdVector.reserve, this]
    simp only [reserve, _reserve, _emplace_back, capacity, StdVector.capacity, hr, hk,
      _emplace_back_loop, StdVector.emplace_back]
    split <;> omega
  · intro x h1 h2
    exact reserve_old_slot n p h1 (by omega)
  · intro heq
    have := congrArg (fun q : stack_pool T => q.pool.elems.length) heq
    simp only [he, List.length_append, List.length_singleton] at this
    omega
  · intro m
    show (reserve m p).pool.elems.length = _
    rw [reserve_length]
    omega

/-- The pool with the four free slots 1 -> 2 -> 3 -> 4: `reserve(2)` appends
slot 5, linked to the old head 1, and makes it the head. -/
theorem reserve_small_appends_one_witness :
    ((⟨⟨[⟨0, 2⟩, ⟨0, 3⟩, ⟨0, 4⟩, ⟨0, 0⟩], 4⟩, 1⟩ : stack_pool Int).pool.size
        = capacity (⟨⟨[⟨0, 2⟩, ⟨0, 3⟩, ⟨0, 4⟩, ⟨0, 0⟩], 4⟩, 1⟩ : stack_pool Int) ∧
      2 ≤ capacity (⟨⟨[⟨0, 2⟩, ⟨0, 3⟩, ⟨0, 4⟩, ⟨0, 0⟩], 4⟩, 1⟩ : stack_pool Int)) ∧
    reserve 2 (⟨⟨[⟨0, 2⟩, ⟨0, 3⟩, ⟨0, 4⟩, ⟨0, 0⟩], 4⟩, 1⟩ : stack_pool Int)
      = ⟨⟨[⟨0, 2⟩, ⟨0, 3⟩, ⟨0, 4⟩, ⟨0, 0⟩, ⟨0, 1⟩], 8⟩, 5⟩ ∧
    (reserve 2 (⟨⟨[⟨0, 2⟩, ⟨0, 3⟩, ⟨0, 4⟩, ⟨0, 0⟩], 4⟩, 1⟩ : stack_pool Int)).pool.size
      = capacity (⟨⟨[⟨0, 2⟩, ⟨0, 3⟩, ⟨0, 4⟩, ⟨0, 0⟩], 4⟩, 1⟩ : stack_pool Int) + 1 :=
  ⟨⟨by decide, by decide⟩, by decide,
    (reserve_small_appends_one ⟨⟨[⟨0, 2⟩, ⟨0, 3⟩, ⟨0, 4⟩, ⟨0, 0⟩], 4⟩, 1⟩ (by decide) 2
      (by decide)).2.1⟩

/-- C11 (bounds check of `value`), as the claim states it, evaluated at the
sentinel in the pool holding the stack `[10]`: `next(0)` stops with 'Invalid
index', while `value(0)` is not checked and reads `pool[0 - 1]`, outside the
vector. -/
theorem value_sentinel_not_checked :
    (0 = 0 ∨ capacity (⟨⟨[⟨10, 0⟩], 1⟩, 0⟩ : stack_pool Int) < 0) ∧
    next (⟨⟨[⟨10, 0⟩], 1⟩, 0⟩ : stack_pool Int) 0 = .error .invalid_index ∧
    value (⟨⟨[⟨10, 0⟩], 1⟩, 0⟩ : stack_pool Int) 0 = .error .out_of_storage ∧
    value (⟨⟨[⟨10, 0⟩], 1⟩, 0⟩ : stack_pool Int) 0 ≠ .error .invalid_index := by
  decide

/-- C11, amended.  `value(h)` makes no bounds check: in no pool and for no
handle does it stop with 'Invalid index'.  For `h == 0` or `h` beyond the
stored slots it is an unchecked access outside the vector, for every other `h`
it returns the stored value.  Only `next(h)` is checked: it stops with 'Invalid
index' for `h == 0` or `h > capacity()`. -/
theorem value_has_no_bounds_check (p : stack_pool T) (h : Nat) :
    value p h ≠ .error .invalid_index ∧
    (h = 0 ∨ p.pool.size < h → value p h = .error .out_of_storage) ∧
    (1 ≤ h → h ≤ p.pool.size → ∃ nd, p.pool.elems[h - 1]? = some nd ∧ value p h = .ok nd.value) ∧
    (h = 0 ∨ capacity p < h → next p h = .error .invalid_index) := by
  have hv : h = 0 ∨ p.pool.size < h → value p h = .error .out_of_storage := by
    intro hh
    unfold value node
    by_cases h0 : h = 0
    · simp [h0, Except.map]
    · have hs : p.pool.elems.length < h := by
        rcases hh with hh | hh
        · exact absurd hh h0
        · exact hh
      rw [if_neg h0, List.getElem?_eq_none (by omega)]
      rfl
  have hok : 1 ≤ h → h ≤ p.pool.size →
      ∃ nd, p.pool.elems[h - 1]? = some nd ∧ value p h = .ok nd.value := by
    intro h1 h2
    have h22 : h ≤ p.pool.elems.length := h2
    have hlt : h - 1 < p.pool.elems.length := by omega
    exact ⟨_, List.getElem?_eq_getElem hlt, value_eq_ok h1 (List.getElem?_eq_getElem hlt)⟩
  refine ⟨?_, hv, hok, ?_⟩
  · intro hc
    by_cases hh : h = 0 ∨ p.pool.size < h
    · rw [hv hh] at hc; cases hc
    · have h1 : 1 ≤ h := by omega
      have h2 : h ≤ p.pool.size := by omega
      obtain ⟨nd, _, hval⟩ := hok h1 h2
      rw [hval] at hc; cases hc
  · intro hh
    unfold next
    rw [if_neg (by omega)]

/-- In the pool holding the stack `[10]`: `value(1)` is 10, `value(2)` reads
outside the vector, `next(2)` stops with 'Invalid index'. -/
theorem value_has_no_bounds_check_witness :
    ((2 = 0 ∨ (⟨⟨[⟨10, 0⟩], 1⟩, 0⟩ : stack_pool Int).pool.size < 2) ∧
      (2 = 0 ∨ capacity (⟨⟨[⟨10, 0⟩], 1⟩, 0⟩ : stack_pool Int) < 2) ∧
      1 ≤ 1 ∧ 1 ≤ (⟨⟨[⟨10, 0⟩], 1⟩, 0⟩ : stack_pool Int).pool.size) ∧
    value (⟨⟨[⟨10, 0⟩], 1⟩, 0⟩ : stack_pool Int) 2 = .error .out_of_storage ∧
    next (⟨⟨[⟨10, 0⟩], 1⟩, 0⟩ : stack_pool Int) 2 = .error .invalid_index ∧
    (∃ nd, (⟨⟨[⟨10, 0⟩], 1⟩, 0⟩ : stack_pool Int).pool.elems[1 - 1]? = some nd ∧
      value (⟨⟨[⟨10, 0⟩], 1⟩, 0⟩ : stack_pool Int) 1 = .ok nd.value) ∧
    value (⟨⟨[⟨10, 0⟩], 1⟩, 0⟩ : stack_pool Int) 1 = .ok 10 :=
  ⟨⟨by decide, by decide, by decide, by decide⟩,
    (value_has_no_bounds_check ⟨⟨[⟨10, 0⟩], 1⟩, 0⟩ 2).2.1 (by decide),
    (value_has_no_bounds_check ⟨⟨[⟨10, 0⟩], 1⟩, 0⟩ 2).2.2.2 (by decide),
    (value_has_no_bounds_check ⟨⟨[⟨10, 0⟩], 1⟩, 0⟩ 1).2.2.1 (by decide) (by decide),
    by decide⟩

/-- For `n >= 1` the constructor `stack_pool(n)` reserves exactly `n` nodes:
the capacity is `n` and the free list is the chain `1 -> 2 -> ... -> n`. -/
theorem with_nodes_chain [Inhabited T] (n : Nat) (hn : 1 ≤ n) :
    capacity (stack_pool.with_nodes n : stack_pool T) = n ∧
    (stack_pool.with_nodes n : stack_pool T).pool.size = n ∧
    (stack_pool.with_nodes n : stack_pool T).free_nodes = 1 ∧
    ∀ fuel, n ≤ fuel →
      handles fuel (stack_pool.with_nodes n : stack_pool T)
        (stack_pool.with_nodes n : stack_pool T).free_nodes = .ok (List.range' 1 n) := by
  have hfull : (stack_pool.empty_pool : stack_pool T).pool.elems.length
      = (stack_pool.empty_pool : stack_pool T).pool.cap := rfl
  have hlt : capacity (stack_pool.empty_pool : stack_pool T) < n := hn
  have hcap := reserve_capacity n (stack_pool.empty_pool : stack_pool T) hfull hlt
  have hfl : IsChain (stack_pool.empty_pool : stack_pool T)
      (stack_pool.empty_pool : stack_pool T).free_nodes [] := by
    simp [IsChain, stack_pool.empty_pool]
  have hch := reserve_free_chain n hfull hlt hfl
  have hsz := reserve_full n (stack_pool.empty_pool : stack_pool T) hfull hlt
  refine ⟨hcap, ?_, rfl, ?_⟩
  · show (reserve n stack_pool.empty_pool).pool.elems.length = n
    rw [hsz]; exact hcap
  · intro fuel hf
    have hch2 : IsChain (stack_pool.with_nodes n : stack_pool T)
        (stack_pool.with_nodes n : stack_pool T).free_nodes (List.range' 1 n) := by
      simpa [stack_pool.with_nodes, capacity, StdVector.capacity, stack_pool.empty_pool]
        using hch
    exact handles_of_chain hch2 fuel (by simpa using hf)

/-- C16 (the constructor `stack_pool(n)`), evaluated at `n == 0`: the
constructor calls `reserve(0)`, which appends one node, so the pool has
capacity 1 and the free list is the chain `1 -> 0` of one slot; it is the pool
that `stack_pool(1)` builds. -/
theorem with_nodes_zero_reserves_one :
    capacity (stack_pool.with_nodes 0 : stack_pool Int) = 1 ∧
    (stack_pool.with_nodes 0 : stack_pool Int).pool.size = 1 ∧
    (stack_pool.with_nodes 0 : stack_pool Int).free_nodes = 1 ∧
    handles 1 (stack_pool.with_nodes 0 : stack_pool Int) 1 = .ok [1] ∧
    free_count 1 (stack_pool.with_nodes 0 : stack_pool Int) = .ok 1 ∧
    (stack_pool.with_nodes 0 : stack_pool Int) = stack_pool.with_nodes 1 := by
  decide

/-- Whenever `pop` returns, it has read the slot of its argument, linked that
slot in front of the free list and made it the free-list head. -/
theorem pop_ok_inv {p q : stack_pool T} {h h2 : Nat} (hp : pop h p = .ok (q, h2)) :
    0 < h ∧ h ≤ capacity p ∧
    ∃ nd, p.pool.elems[h - 1]? = some nd ∧ h2 = nd.next ∧
      q = { pool := { elems := p.pool.elems.set (h - 1) { nd with next := p.free_nodes },
                      cap := p.pool.cap },
            free_nodes := h } := by
  cases hn : next p h with
  | error e => simp [pop, _pop, hn, bind, Except.bind] at hp
  | ok nx =>
    obtain ⟨h0, hc, nd, hnd, _⟩ := next_ok_inv hn
    rw [pop_eq h0 hc hnd] at hp
    cases hp
    exact ⟨h0, hc, nd, hnd, rfl, rfl⟩

theorem check_capacity_noop [Inhabited T] {p : stack_pool T} (hc : capacity p ≠ 0)
    (hf : p.free_nodes ≠ 0) : check_capacity p = p := by
  simp [check_capacity, hc, hf, empty, stack_end]

/-- C14 (the released slot is reused).  Whenever `pop(h)` returns, in any pool
state, a push that follows at once, of any value onto any head, returns
exactly the handle `h` and leaves the capacity as it was before the pop; and
in every reachable state the pop of a non-empty held stack does return.  In
the run of `main` the handle 2 is popped and the next push returns 2. -/
theorem pop_then_push_reuses_slot [Inhabited T] (p : stack_pool T) (h : Nat) :
    (∀ q h2, pop h p = .ok (q, h2) → ∀ (v : T) (s : Nat),
      ∃ r, push v s q = .ok (r, h) ∧ capacity q = capacity p ∧ capacity r = capacity p) ∧
    (∀ hs1 hs2, Reach ⟨p, hs1 ++ h :: hs2⟩ → h ≠ stack_end →
      ∃ q h2, pop h p = .ok (q, h2)) ∧
    (pop 2 (⟨⟨[⟨10, 0⟩, ⟨11, 1⟩, ⟨20, 0⟩, ⟨0, 0⟩], 4⟩, 4⟩ : stack_pool Int)
       = .ok (⟨⟨[⟨10, 0⟩, ⟨11, 4⟩, ⟨20, 0⟩, ⟨0, 0⟩], 4⟩, 2⟩, 1) ∧
     push (21 : Int) 3 ⟨⟨[⟨10, 0⟩, ⟨11, 4⟩, ⟨20, 0⟩, ⟨0, 0⟩], 4⟩, 2⟩
       = .ok (⟨⟨[⟨10, 0⟩, ⟨21, 3⟩, ⟨20, 0⟩, ⟨0, 0⟩], 4⟩, 4⟩, 2)) := by
  refine ⟨?_, ?_, by decide, by decide⟩
  · intro q h2 hp v s
    obtain ⟨h0, hc, nd, hnd, _, hq⟩ := pop_ok_inv hp
    have hlt : h - 1 < p.pool.elems.length := (List.getElem?_eq_some.mp hnd).1
    have hcq : capacity q = capacity p := by rw [hq]; rfl
    have hfq : q.free_nodes = h := by rw [hq]
    have hnoop : check_capacity q = q :=
      check_capacity_noop (by rw [hcq]; omega) (by rw [hfq]; omega)
    have hslot : q.pool.elems[h - 1]? = some { nd with next := p.free_nodes } := by
      rw [hq]; simp [List.getElem?_set_self hlt]
    have hpush := push_eq v s (p := q) (by rw [hnoop, hfq]; exact h0)
      (by rw [hnoop, hfq, hcq]; exact hc) (by rw [hnoop, hfq]; exact hslot)
    rw [hnoop, hfq] at hpush
    exact ⟨_, hpush, hcq, by show q.pool.cap = _; rw [hq]; rfl⟩
  · intro hs1 hs2 hr hne
    obtain ⟨fl, ls, hinv⟩ := hr.inv
    obtain ⟨q, h2, _, _, _, _, _, e3, _⟩ := hinv.of_pop (by simpa [stack_end] using hne)
    exact ⟨q, h2, e3⟩

/-- The reachable state of `main` before `l = pool.pop(l)`: the stack `[11,
10]` with head 2 is popped, and the push that follows returns 2. -/
theorem pop_then_push_reuses_slot_witness :
    Reach (⟨⟨⟨[⟨10, 0⟩, ⟨11, 1⟩, ⟨20, 0⟩, ⟨0, 0⟩], 4⟩, 4⟩, [] ++ 2 :: [3]⟩ : Client Int) ∧
    (2 : Nat) ≠ stack_end ∧
    (∃ q h2, pop 2 (⟨⟨[⟨10, 0⟩, ⟨11, 1⟩, ⟨20, 0⟩, ⟨0, 0⟩], 4⟩, 4⟩ : stack_pool Int)
      = .ok (q, h2)) ∧
    (∃ r, push (21 : Int) 3 ⟨⟨[⟨10, 0⟩, ⟨11, 4⟩, ⟨20, 0⟩, ⟨0, 0⟩], 4⟩, 2⟩ = .ok (r, 2) ∧
      capacity (⟨⟨[⟨10, 0⟩, ⟨11, 4⟩, ⟨20, 0⟩, ⟨0, 0⟩], 4⟩, 2⟩ : stack_pool Int)
        = capacity (⟨⟨[⟨10, 0⟩, ⟨11, 1⟩, ⟨20, 0⟩, ⟨0, 0⟩], 4⟩, 4⟩ : stack_pool Int) ∧
      capacity r = capacity (⟨⟨[⟨10, 0⟩, ⟨11, 1⟩, ⟨20, 0⟩, ⟨0, 0⟩], 4⟩, 4⟩ : stack_pool Int)) :=
  have hr : Reach (⟨⟨⟨[⟨10, 0⟩, ⟨11, 1⟩, ⟨20, 0⟩, ⟨0, 0⟩], 4⟩, 4⟩, [] ++ 2 :: [3]⟩ : Client Int) :=
    Reach.step (Reach.step (Reach.step (Reach.step (Reach.step Reach.init
      (Step.new_stack stack_pool.empty_pool []))
      (Step.push stack_pool.empty_pool [] 0 [] 10 ⟨⟨[⟨10, 0⟩], 1⟩, 0⟩ 1 (by decide)))
      (Step.push ⟨⟨[⟨10, 0⟩], 1⟩, 0⟩ [] 1 [] 11 ⟨⟨[⟨10, 0⟩, ⟨11, 1⟩], 2⟩, 0⟩ 2 (by decide)))
      (Step.new_stack ⟨⟨[⟨10, 0⟩, ⟨11, 1⟩], 2⟩, 0⟩ [2]))
      (Step.push ⟨⟨[⟨10, 0⟩, ⟨11, 1⟩], 2⟩, 0⟩ [2] 0 [] 20
        ⟨⟨[⟨10, 0⟩, ⟨11, 1⟩, ⟨20, 0⟩, ⟨0, 0⟩], 4⟩, 4⟩ 3 (by decide))
  have hp : pop 2 (⟨⟨[⟨10, 0⟩, ⟨11, 1⟩, ⟨20, 0⟩, ⟨0, 0⟩], 4⟩, 4⟩ : stack_pool Int)
      = .ok (⟨⟨[⟨10, 0⟩, ⟨11, 4⟩, ⟨20, 0⟩, ⟨0, 0⟩], 4⟩, 2⟩, 1) := by decide
  ⟨hr, by decide,
    (pop_then_push_reuses_slot ⟨⟨[⟨10, 0⟩, ⟨11, 1⟩, ⟨20, 0⟩, ⟨0, 0⟩], 4⟩, 4⟩ 2).2.1 [] [3] hr
      (by decide),
    (pop_then_push_reuses_slot ⟨⟨[⟨10, 0⟩, ⟨11, 1⟩, ⟨20, 0⟩, ⟨0, 0⟩], 4⟩, 4⟩ 2).1 _ _ hp 21 3⟩

theorem push_ok_free [Inhabited T] {p q : stack_pool T} {v : T} {s h : Nat}
    (hp : push v s p = .ok (q, h)) :
    ∃ nd, (check_capacity p).pool.elems[h - 1]? = some nd ∧ q.free_nodes = nd.next := by
  cases hn : next (check_capacity p) (check_capacity p).free_nodes with
  | error e => simp [push, _push, hn, bind, Except.bind] at hp
  | ok nx =>
    obtain ⟨h0, hc2, nd, hnd, _⟩ := next_ok_inv hn
    rw [push_eq v s h0 hc2 hnd] at hp
    cases hp
    exact ⟨nd, hnd, rfl⟩

/-- C20 (push then pop).  Whenever `push(v, s)` returns a handle `h`, in any
pool state, `pop(h)` returns `s`.  When moreover the push did not grow the pool
(the capacity is not 0 and the free list is not empty), the pool after the pop
has the capacity and the free-list head it had before the push, every slot has
the `next` field it had, every slot but the used one is as it was, and the used
slot, the old free-list head, now holds `v`.  In every reachable state the
push returns, and a non-empty free list means a capacity above 0. -/
theorem push_then_pop_restores [Inhabited T] (p : stack_pool T) (v : T) (s : Nat) :
    (∀ q h, push v s p = .ok (q, h) → ∃ r, pop h q = .ok (r, s) ∧
      (capacity p ≠ 0 → empty p.free_nodes = false →
        h = p.free_nodes ∧ capacity r = capacity p ∧ r.free_nodes = p.free_nodes ∧
        r.pool.size = p.pool.size ∧
        (∀ x : Nat, (r.pool.elems[x]?).map (fun nd => nd.next)
          = (p.pool.elems[x]?).map (fun nd => nd.next)) ∧
        (∀ x, 0 < x → x ≠ h → r.pool.elems[x - 1]? = p.pool.elems[x - 1]?) ∧
        value r h = .ok v)) ∧
    (∀ hs, Reach ⟨p, hs⟩ → (∃ q h, push v s p = .ok (q, h)) ∧
      (empty p.free_nodes = false → capacity p ≠ 0)) := by
  constructor
  · intro q h hp
    obtain ⟨g1, g2, g3, g4, g5, g6, g7⟩ := push_ok_inv hp
    obtain ⟨nd, hnd, hqf⟩ := push_ok_free hp
    have hlt : h - 1 < q.pool.elems.length := (List.getElem?_eq_some.mp g4).1
    have hpop := pop_eq g2 g3 g4
    refine ⟨_, hpop, ?_⟩
    intro hc hf
    have hf0 : p.free_nodes ≠ 0 := by simpa [empty, stack_end] using hf
    have hnoop := check_capacity_noop hc hf0
    rw [hnoop] at g1 g5 g6 g7 hnd
    refine ⟨g1, g5, g1, ?_, ?_, ?_, ?_⟩
    · show (q.pool.elems.set _ _).length = p.pool.elems.length
      rw [List.length_set, g6]
    · intro x
      show ((q.pool.elems.set (h - 1) _)[x]?).map _ = _
      by_cases hx : x = h - 1
      · subst hx
        rw [List.getElem?_set_self hlt, hnd, hqf]
        rfl
      · rw [List.getElem?_set_ne (Ne.symm hx)]
        have := g7 (x + 1) (by omega) (by omega)
        simp only [Nat.add_sub_cancel] at this
        rw [this]
    · intro x hx hne
      show (q.pool.elems.set (h - 1) _)[x - 1]? = _
      rw [getElem?_set_other _ _ g2 hx hne]
      exact g7 x hx hne
    · have hslot : (q.pool.elems.set (h - 1)
          ({ value := v, next := q.free_nodes } : node_t T))[h - 1]?
          = some { value := v, next := q.free_nodes } := List.getElem?_set_self hlt
      exact value_eq_ok (p := ⟨⟨q.pool.elems.set (h - 1) ⟨v, q.free_nodes⟩, q.pool.cap⟩, h⟩)
        g2 hslot
  · intro hs hr
    obtain ⟨fl, ls, hinv⟩ := hr.inv
    obtain ⟨q, h, _, hp, _⟩ := push_spec v s hinv.1 hinv.2.1
    refine ⟨⟨q, h, hp⟩, ?_⟩
    intro hf hc
    have hf0 : p.free_nodes ≠ 0 := by simpa [empty, stack_end] using hf
    obtain ⟨hl, hz⟩ := hinv.2.1.chain_empty_of_cap_zero hc
    exact hf0 hz

/-- The reachable state holding the stack `[10]` with the free slot 2: the
push of 7 takes slot 2, the pop gives it back, and only its value differs. -/
theorem push_then_pop_restores_witness :
    Reach (⟨⟨⟨[⟨10, 0⟩, ⟨11, 0⟩], 2⟩, 2⟩, [] ++ 1 :: []⟩ : Client Int) ∧
    push (7 : Int) 1 (⟨⟨[⟨10, 0⟩, ⟨11, 0⟩], 2⟩, 2⟩ : stack_pool Int)
      = .ok (⟨⟨[⟨10, 0⟩, ⟨7, 1⟩], 2⟩, 0⟩, 2) ∧
    pop 2 (⟨⟨[⟨10, 0⟩, ⟨7, 1⟩], 2⟩, 0⟩ : stack_pool Int)
      = .ok (⟨⟨[⟨10, 0⟩, ⟨7, 0⟩], 2⟩, 2⟩, 1) ∧
    (∃ r, pop 2 (⟨⟨[⟨10, 0⟩, ⟨7, 1⟩], 2⟩, 0⟩ : stack_pool Int) = .ok (r, 1) ∧
      (capacity (⟨⟨[⟨10, 0⟩, ⟨11, 0⟩], 2⟩, 2⟩ : stack_pool Int) ≠ 0 →
        empty (⟨⟨[⟨10, 0⟩, ⟨11, 0⟩], 2⟩, 2⟩ : stack_pool Int).free_nodes = false →
        2 = (⟨⟨[⟨10, 0⟩, ⟨11, 0⟩], 2⟩, 2⟩ : stack_pool Int).free_nodes ∧
        capacity r = capacity (⟨⟨[⟨10, 0⟩, ⟨11, 0⟩], 2⟩, 2⟩ : stack_pool Int) ∧
        r.free_nodes = (⟨⟨[⟨10, 0⟩, ⟨11, 0⟩], 2⟩, 2⟩ : stack_pool Int).free_nodes ∧
        r.pool.size = (⟨⟨[⟨10, 0⟩, ⟨11, 0⟩], 2⟩, 2⟩ : stack_pool Int).pool.size ∧
        (∀ x : Nat, (r.pool.elems[x]?).map (fun nd => nd.next)
          = ((⟨⟨[⟨10, 0⟩, ⟨11, 0⟩], 2⟩, 2⟩ : stack_pool Int).pool.elems[x]?).map
              (fun nd => nd.next)) ∧
        (∀ x, 0 < x → x ≠ 2 → r.pool.elems[x - 1]?
          = (⟨⟨[⟨10, 0⟩, ⟨11, 0⟩], 2⟩, 2⟩ : stack_pool Int).pool.elems[x - 1]?) ∧
        value r 2 = .ok 7)) ∧
    ((∃ q h, push (7 : Int) 1 (⟨⟨[⟨10, 0⟩, ⟨11, 0⟩], 2⟩, 2⟩ : stack_pool Int) = .ok (q, h)) ∧
      (empty (⟨⟨[⟨10, 0⟩, ⟨11, 0⟩], 2⟩, 2⟩ : stack_pool Int).free_nodes = false →
        capacity (⟨⟨[⟨10, 0⟩, ⟨11, 0⟩], 2⟩, 2⟩ : stack_pool Int) ≠ 0)) ∧
    capacity (⟨⟨[⟨10, 0⟩, ⟨11, 0⟩], 2⟩, 2⟩ : stack_pool Int) ≠ 0 ∧
    empty (⟨⟨[⟨10, 0⟩, ⟨11, 0⟩], 2⟩, 2⟩ : stack_pool Int).free_nodes = false :=
  have hr : Reach (⟨⟨⟨[⟨10, 0⟩, ⟨11, 0⟩], 2⟩, 2⟩, [] ++ 1 :: []⟩ : Client Int) :=
    Reach.step (Reach.step (Reach.step (Reach.step Reach.init
      (Step.new_stack stack_pool.empty_pool []))
      (Step.push stack_pool.empty_pool [] 0 [] 10 ⟨⟨[⟨10, 0⟩], 1⟩, 0⟩ 1 (by decide)))
      (Step.push ⟨⟨[⟨10, 0⟩], 1⟩, 0⟩ [] 1 [] 11 ⟨⟨[⟨10, 0⟩, ⟨11, 1⟩], 2⟩, 0⟩ 2 (by decide)))
      (Step.pop ⟨⟨[⟨10, 0⟩, ⟨11, 1⟩], 2⟩, 0⟩ [] 2 [] ⟨⟨[⟨10, 0⟩, ⟨11, 0⟩], 2⟩, 2⟩ 1
        (by decide) (by decide))
  have hp : push (7 : Int) 1 (⟨⟨[⟨10, 0⟩, ⟨11, 0⟩], 2⟩, 2⟩ : stack_pool Int)
      = .ok (⟨⟨[⟨10, 0⟩, ⟨7, 1⟩], 2⟩, 0⟩, 2) := by decide
  ⟨hr, hp, by decide,
    (push_then_pop_restores ⟨⟨[⟨10, 0⟩, ⟨11, 0⟩], 2⟩, 2⟩ 7 1).1 _ _ hp,
    (push_then_pop_restores ⟨⟨[⟨10, 0⟩, ⟨11, 0⟩], 2⟩, 2⟩ 7 1).2 [1] hr,
    by decide, by decide⟩

/-- After `k` pushes on a default-constructed pool, and nothing else, the
storage is full, the slots `1..k` are in use and the free list is the chain
`k+1 -> k+2 -> ... -> capacity()`. -/
theorem PushOnly.free_chain [Inhabited T] {k : Nat} {p : stack_pool T} (hk : PushOnly k p) :
    p.pool.elems.length = p.pool.cap ∧ k ≤ capacity p ∧
    IsChain p p.free_nodes (List.range' (k + 1) (capacity p - k)) := by
  induction hk with
  | init => exact ⟨rfl, Nat.le_refl _, by simp [IsChain, stack_pool.empty_pool, capacity,
      StdVector.capacity]⟩
  | @push k p q v head h _ hp ih =>
    obtain ⟨h1, h2, h3⟩ := ih
    obtain ⟨q2, h4, fl2, g1, g2, g3, _, _, _, _, g8, g9, _⟩ := push_spec v head h1 h3
    rw [hp] at g1
    cases g1
    have happ : List.range' (k + 1) (capacity p - k)
        ++ List.range' (capacity p + 1) (capacity q - capacity p)
        = List.range' (k + 1) (capacity q - k) := by
      have := List.range'_append (k + 1) (capacity p - k) (capacity q - capacity p) 1
      rw [show k + 1 + 1 * (capacity p - k) = capacity p + 1 by omega,
        show capacity q - capacity p + (capacity p - k) = capacity q - k by omega] at this
      exact this
    rw [happ] at g9
    have hpos : capacity q - k ≠ 0 := by
      intro h0
      rw [h0] at g9
      simp at g9
    have hsplit : capacity q - k = (capacity q - (k + 1)) + 1 := by omega
    rw [hsplit, List.range'_succ] at g9
    obtain ⟨e1, e2⟩ := List.cons.inj g9
    refine ⟨g2, by omega, ?_⟩
    rw [← e2]
    exact g8

/-- C15 (allocation order).  On a default-constructed pool on which `k`
pushes and nothing else have been made (onto any heads), the next push, the
`(k+1)`-th, returns and its handle is `k + 1`; so the `i`-th push returns `i`.
In `main` the pushes of 10, 11 and 20 return 1, 2 and 3. -/
theorem pushes_return_consecutive_handles [Inhabited T] {k : Nat} {p : stack_pool T}
    (hk : PushOnly k p) (v : T) (head : Nat) :
    (∃ q, push v head p = .ok (q, k + 1) ∧ PushOnly (k + 1) q) ∧
    (∀ q h, push v head p = .ok (q, h) → h = k + 1) ∧
    (push (10 : Int) stack_end stack_pool.empty_pool = .ok (⟨⟨[⟨10, 0⟩], 1⟩, 0⟩, 1) ∧
     push (11 : Int) 1 ⟨⟨[⟨10, 0⟩], 1⟩, 0⟩ = .ok (⟨⟨[⟨10, 0⟩, ⟨11, 1⟩], 2⟩, 0⟩, 2) ∧
     push (20 : Int) stack_end ⟨⟨[⟨10, 0⟩, ⟨11, 1⟩], 2⟩, 0⟩
       = .ok (⟨⟨[⟨10, 0⟩, ⟨11, 1⟩, ⟨20, 0⟩, ⟨0, 0⟩], 4⟩, 4⟩, 3)) := by
  obtain ⟨h1, _, h3⟩ := hk.free_chain
  obtain ⟨q, h, _, g1, _⟩ := push_spec v head h1 h3
  have hq : PushOnly (k + 1) q := PushOnly.push hk g1
  obtain ⟨_, _, c3⟩ := hq.free_chain
  -- the handle returned is the head of the old free list
  have hh : h = k + 1 := by
    obtain ⟨h1b, h2b, h3b⟩ := hk.free_chain
    obtain ⟨q2, h4, fl2, e1, _, e3, _, _, _, _, _, e9, _⟩ := push_spec v head h1b h3b
    rw [g1] at e1
    cases e1
    have happ : List.range' (k + 1) (capacity p - k)
        ++ List.range' (capacity p + 1) (capacity q - capacity p)
        = List.range' (k + 1) (capacity q - k) := by
      have := List.range'_append (k + 1) (capacity p - k) (capacity q - capacity p) 1
      rw [show k + 1 + 1 * (capacity p - k) = capacity p + 1 by omega,
        show capacity q - capacity p + (capacity p - k) = capacity q - k by omega] at this
      exact this
    rw [happ] at e9
    have hpos : capacity q - k ≠ 0 := by
      intro h0
      rw [h0] at e9
      simp at e9
    have hsplit : capacity q - k = (capacity q - (k + 1)) + 1 := by omega
    rw [hsplit, List.range'_succ] at e9
    exact (List.cons.inj e9).1
  subst hh
  refine ⟨⟨q, g1, hq⟩, ?_, by decide, by decide, by decide⟩
  intro q2 h2 hp2
  rw [g1] at hp2
  cases hp2
  rfl

/-- After the pushes of 10 and 11 on a default-constructed pool, the third
push returns 3. -/
theorem pushes_return_consecutive_handles_witness :
    PushOnly 2 (⟨⟨[⟨10, 0⟩, ⟨11, 1⟩], 2⟩, 0⟩ : stack_pool Int) ∧
    (∃ q, push (20 : Int) 0 (⟨⟨[⟨10, 0⟩, ⟨11, 1⟩], 2⟩, 0⟩ : stack_pool Int) = .ok (q, 2 + 1) ∧
      PushOnly (2 + 1) q) :=
  have hk : PushOnly 2 (⟨⟨[⟨10, 0⟩, ⟨11, 1⟩], 2⟩, 0⟩ : stack_pool Int) :=
    PushOnly.push (v := 11) (h := 2)
      (PushOnly.push (v := 10) (h := 1) PushOnly.init
        (by decide : push (10 : Int) 0 stack_pool.empty_pool = .ok (⟨⟨[⟨10, 0⟩], 1⟩, 0⟩, 1)))
      (by decide : push (11 : Int) 1 ⟨⟨[⟨10, 0⟩], 1⟩, 0⟩
        = .ok (⟨⟨[⟨10, 0⟩, ⟨11, 1⟩], 2⟩, 0⟩, 2))
  ⟨hk, (pushes_return_consecutive_handles hk 20 0).1⟩

/-- The member `free_stack` where `reserve` is only called to grow the pool.  In
every state of `Reach`, for the held stack with head `h` (at position
`hs1.length`) whose chain is `l`, of `m = l.length >= 0` slots, and with the
free list `fl`: `free_stack(h)` returns the sentinel 0 for
every loop bound from `capacity()` on, the capacity is unchanged, the free list
afterwards is `l` reversed followed by `fl`, so every slot of the stack is on
it and its length has grown by exactly `m`; and the values iterated from every
other held stack are unchanged. -/
theorem free_stack_releases_chain [Inhabited T] {p : stack_pool T} {hs1 : List Nat} {h : Nat}
    {hs2 : List Nat} (hr : Reach ⟨p, hs1 ++ h :: hs2⟩) (fuel : Nat)
    (hfuel : capacity p ≤ fuel) :
    ∃ l fl q, handles fuel p h = .ok l ∧ handles fuel p p.free_nodes = .ok fl ∧
      free_stack fuel h p = .ok (q, stack_end) ∧
      capacity q = capacity p ∧
      handles fuel q q.free_nodes = .ok (l.reverse ++ fl) ∧
      (∀ x ∈ l, x ∈ l.reverse ++ fl) ∧
      free_count fuel p = .ok fl.length ∧
      free_count fuel q = .ok (fl.length + l.length) ∧
      (∀ j b, j ≠ hs1.length → (hs1 ++ h :: hs2)[j]? = some b →
        ∃ vs, (∀ f, vs.length ≤ f → iterate f p b = .ok vs) ∧
          (∀ f, vs.length ≤ f → iterate f q b = .ok vs)) := by
  obtain ⟨fl, ls, hinv⟩ := hr.inv
  obtain ⟨q, la, l, lb, e1, e2, e3, _, e5, e6, _, e8⟩ := hinv.of_free_stack
  subst e1
  obtain ⟨la2, l2, lb2, s1, s2, s3, s4, s5, s6, s7, s8⟩ := hinv.split
  obtain ⟨u1, u2, u3⟩ := split_unique s1 (by omega)
  subst u1 u2 u3
  have hlen := s8.length_eq
  simp only [List.length_append, List.length_range'] at hlen
  have hc : capacity p = p.pool.cap := rfl
  have hq1 := handles_of_chain s6 fuel (by omega)
  have hq2 := handles_of_chain s4 fuel (by omega)
  have hq3 := handles_of_chain e5.2.1 fuel (by simp; omega)
  refine ⟨l, fl, q, hq1, hq2, e3 fuel (by omega), e6, hq3, ?_, ?_, ?_, ?_⟩
  · intro x hx
    simp [hx]
  · unfold free_count; rw [hq2]; rfl
  · unfold free_count; rw [hq3]; simp [Except.map]; omega
  · intro j b hj hb
    obtain ⟨lB, hlB, hcB⟩ := forall2_getElem?_left hinv.2.2.1 hb
    have hne : j ≠ la.length := by omega
    refine ⟨vals p lB, ?_, iterate_frame (Nat.le_of_eq e6.symm) hcB
      (fun x hx => e8 x (mem_others_of_getElem? hne hlB hx))⟩
    intro f hf
    rw [vals_length hcB] at hf
    exact iterate_of_chain hcB f hf

/-- The reachable state of `main` holding `[11, 10]` (head 2) and `[20]`
(head 3) with the free slot 4: freeing the first stack puts the slots 1 and 2
on the free list, in front of 4. -/
theorem free_stack_releases_chain_witness :
    Reach (⟨⟨⟨[⟨10, 0⟩, ⟨11, 1⟩, ⟨20, 0⟩, ⟨0, 0⟩], 4⟩, 4⟩, [] ++ 2 :: [3]⟩ : Client Int) ∧
    capacity (⟨⟨[⟨10, 0⟩, ⟨11, 1⟩, ⟨20, 0⟩, ⟨0, 0⟩], 4⟩, 4⟩ : stack_pool Int) ≤ 4 ∧
    free_stack 4 2 (⟨⟨[⟨10, 0⟩, ⟨11, 1⟩, ⟨20, 0⟩, ⟨0, 0⟩], 4⟩, 4⟩ : stack_pool Int)
      = .ok (⟨⟨[⟨10, 2⟩, ⟨11, 4⟩, ⟨20, 0⟩, ⟨0, 0⟩], 4⟩, 1⟩, 0) ∧
    handles 4 (⟨⟨[⟨10, 2⟩, ⟨11, 4⟩, ⟨20, 0⟩, ⟨0, 0⟩], 4⟩, 1⟩ : stack_pool Int) 1
      = .ok [1, 2, 4] ∧
    ∃ l fl q,
      handles 4 (⟨⟨[⟨10, 0⟩, ⟨11, 1⟩, ⟨20, 0⟩, ⟨0, 0⟩], 4⟩, 4⟩ : stack_pool Int) 2 = .ok l ∧
      handles 4 (⟨⟨[⟨10, 0⟩, ⟨11, 1⟩, ⟨20, 0⟩, ⟨0, 0⟩], 4⟩, 4⟩ : stack_pool Int)
        (⟨⟨[⟨10, 0⟩, ⟨11, 1⟩, ⟨20, 0⟩, ⟨0, 0⟩], 4⟩, 4⟩ : stack_pool Int).free_nodes = .ok fl ∧
      free_stack 4 2 (⟨⟨[⟨10, 0⟩, ⟨11, 1⟩, ⟨20, 0⟩, ⟨0, 0⟩], 4⟩, 4⟩ : stack_pool Int)
        = .ok (q, stack_end) ∧
      capacity q = capacity (⟨⟨[⟨10, 0⟩, ⟨11, 1⟩, ⟨20, 0⟩, ⟨0, 0⟩], 4⟩, 4⟩ : stack_pool Int) ∧
      handles 4 q q.free_nodes = .ok (l.reverse ++ fl) ∧
      (∀ x ∈ l, x ∈ l.reverse ++ fl) ∧
      free_count 4 (⟨⟨[⟨10, 0⟩, ⟨11, 1⟩, ⟨20, 0⟩, ⟨0, 0⟩], 4⟩, 4⟩ : stack_pool Int)
        = .ok fl.length ∧
      free_count 4 q = .ok (fl.length + l.length) ∧
      (∀ j b, j ≠ ([] : List Nat).length → (([] : List Nat) ++ 2 :: [3])[j]? = some b →
        ∃ vs, (∀ f, vs.length ≤ f →
            iterate f (⟨⟨[⟨10, 0⟩, ⟨11, 1⟩, ⟨20, 0⟩, ⟨0, 0⟩], 4⟩, 4⟩ : stack_pool Int) b
              = .ok vs) ∧
          (∀ f, vs.length ≤ f → iterate f q b = .ok vs)) :=
  have hr : Reach (⟨⟨⟨[⟨10, 0⟩, ⟨11, 1⟩, ⟨20, 0⟩, ⟨0, 0⟩], 4⟩, 4⟩, [] ++ 2 :: [3]⟩ : Client Int) :=
    Reach.step (Reach.step (Reach.step (Reach.step (Reach.step Reach.init
      (Step.new_stack stack_pool.empty_pool []))
      (Step.push stack_pool.empty_pool [] 0 [] 10 ⟨⟨[⟨10, 0⟩], 1⟩, 0⟩ 1 (by decide)))
      (Step.push ⟨⟨[⟨10, 0⟩], 1⟩, 0⟩ [] 1 [] 11 ⟨⟨[⟨10, 0⟩, ⟨11, 1⟩], 2⟩, 0⟩ 2 (by decide)))
      (Step.new_stack ⟨⟨[⟨10, 0⟩, ⟨11, 1⟩], 2⟩, 0⟩ [2]))
      (Step.push ⟨⟨[⟨10, 0⟩, ⟨11, 1⟩], 2⟩, 0⟩ [2] 0 [] 20
        ⟨⟨[⟨10, 0⟩, ⟨11, 1⟩, ⟨20, 0⟩, ⟨0, 0⟩], 4⟩, 4⟩ 3 (by decide))
  ⟨hr, by decide, by decide, by decide, free_stack_releases_chain hr 4 (by decide)⟩

/-! ## The standard algorithms over the iterator -/

/-- The loop of the selection algorithms keeps the best value seen so far:
`R y b` reads "`b` is at least as good as `y`". -/
theorem select_element_loop_spec {better : Int → Int → Bool} {R : Int → Int → Prop}
    (hb1 : ∀ a b, better a b = true → R a b) (hb2 : ∀ a b, better a b = false → R b a)
    (htrans : ∀ a b c, R a b → R b c → R a c) (hrefl : ∀ a, R a a) {p : stack_pool Int} :
    ∀ (rest : List Nat) (first best : Nat) (a : Int) (fuel : Nat),
      IsChain p first rest → value p best = .ok a → rest.length ≤ fuel →
      ∃ M b, select_element_loop better fuel p best first = .ok M ∧ value p M = .ok b ∧
        R a b ∧ (∀ y ∈ vals p rest, R y b) ∧ (b = a ∨ b ∈ vals p rest)
  | [], first, best, a, fuel, hc, hv, _ => by
    rw [isChain_nil] at hc
    subst hc
    refine ⟨best, a, ?_, hv, hrefl a, by simp [vals], Or.inl rfl⟩
    unfold select_element_loop
    simp [stack_end]
  | x :: rest, first, best, a, fuel, hc, hv, hf => by
    rw [isChain_cons] at hc
    obtain ⟨h1, h2, h3, nd, h4, h5⟩ := hc
    subst h1
    cases fuel with
    | zero => simp at hf
    | succ f =>
      have hvf : value p first = .ok nd.value := value_eq_ok h2 h4
      have hnf : next p first = .ok nd.next := next_eq_ok h2 h3 h4
      have hstep : select_element_loop better (f + 1) p best first
          = select_element_loop better f p (if better a nd.value then first else best)
              nd.next := by
        rw [select_element_loop]
        simp only [stack_end, Nat.pos_iff_ne_zero.mp h2, if_false, hv, hvf, hnf]
      cases hbt : better a nd.value with
      | true =>
        obtain ⟨M, b, g1, g2, g3, g4, g5⟩ :=
          select_element_loop_spec hb1 hb2 htrans hrefl rest nd.next first nd.value f h5 hvf
            (by simpa using hf)
        refine ⟨M, b, ?_, g2, htrans _ _ _ (hb1 _ _ hbt) g3, ?_, ?_⟩
        · rw [hstep, hbt]; exact g1
        · intro y hy
          rw [vals_cons h4] at hy
          rcases List.mem_cons.mp hy with rfl | hy
          · exact g3
          · exact g4 y hy
        · right
          rw [vals_cons h4]
          rcases g5 with g5 | g5
          · rw [g5]; exact List.mem_cons_self _ _
          · exact List.mem_cons_of_mem _ g5
      | false =>
        obtain ⟨M, b, g1, g2, g3, g4, g5⟩ :=
          select_element_loop_spec hb1 hb2 htrans hrefl rest nd.next best a f h5 hv
            (by simpa using hf)
        refine ⟨M, b, ?_, g2, g3, ?_, ?_⟩
        · rw [hstep, hbt]; exact g1
        · intro y hy
          rw [vals_cons h4] at hy
          rcases List.mem_cons.mp hy with rfl | hy
          · exact htrans _ _ _ (hb2 _ _ hbt) g3
          · exact g4 y hy
        · rcases g5 with g5 | g5
          · exact Or.inl g5
          · right
            rw [vals_cons h4]
            exact List.mem_cons_of_mem _ g5

/-- Over a non-empty chain a selection algorithm returns the handle of a slot
of the chain whose value is at least as good as every value of the chain. -/
theorem select_element_spec {better : Int → Int → Bool} {R : Int → Int → Prop}
    (hb1 : ∀ a b, better a b = true → R a b) (hb2 : ∀ a b, better a b = false → R b a)
    (htrans : ∀ a b c, R a b → R b c → R a c) (hrefl : ∀ a, R a a) {p : stack_pool Int}
    {h : Nat} {l : List Nat} (hc : IsChain p h (h :: l)) (fuel : Nat)
    (hf : (h :: l).length ≤ fuel) :
    ∃ M b, select_element better fuel p h = .ok M ∧ value p M = .ok b ∧
      b ∈ vals p (h :: l) ∧ ∀ y ∈ vals p (h :: l), R y b := by
  have hc2 := hc
  rw [isChain_cons] at hc2
  obtain ⟨_, h2, h3, nd, h4, h5⟩ := hc2
  obtain ⟨M, b, g1, g2, g3, g4, g5⟩ :=
    select_element_loop_spec hb1 hb2 htrans hrefl l nd.next h nd.value fuel h5
      (value_eq_ok h2 h4) (by simp at hf; omega)
  refine ⟨M, b, ?_, g2, ?_, ?_⟩
  · unfold select_element
    simp only [stack_end, Nat.pos_iff_ne_zero.mp h2, if_false, next_eq_ok h2 h3 h4]
    exact g1
  · rw [vals_cons h4]
    rcases g5 with g5 | g5
    · rw [g5]; exact List.mem_cons_self _ _
    · exact List.mem_cons_of_mem _ g5
  · intro y hy
    rw [vals_cons h4] at hy
    rcases List.mem_cons.mp hy with rfl | hy
    · exact g3
    · exact g4 y hy

theorem max_element_spec {p : stack_pool Int} {h : Nat} {l : List Nat}
    (hc : IsChain p h (h :: l)) (fuel : Nat) (hf : (h :: l).length ≤ fuel) :
    ∃ M b, max_element fuel p h = .ok M ∧ value p M = .ok b ∧
      b ∈ vals p (h :: l) ∧ ∀ y ∈ vals p (h :: l), y ≤ b :=
  select_element_spec (R := fun y b => y ≤ b)
    (fun a b hab => by simp at hab; omega) (fun a b hab => by simp at hab; omega)
    (fun a b c h1 h2 => Int.le_trans h1 h2) (fun a => Int.le_refl a) hc fuel hf

theorem min_element_spec {p : stack_pool Int} {h : Nat} {l : List Nat}
    (hc : IsChain p h (h :: l)) (fuel : Nat) (hf : (h :: l).length ≤ fuel) :
    ∃ m b, min_element fuel p h = .ok m ∧ value p m = .ok b ∧
      b ∈ vals p (h :: l) ∧ ∀ y ∈ vals p (h :: l), b ≤ y :=
  select_element_spec (R := fun y b => b ≤ y)
    (fun a b hab => by simp at hab; omega) (fun a b hab => by simp at hab; omega)
    (fun a b c h1 h2 => Int.le_trans h2 h1) (fun a => Int.le_refl a) hc fuel hf

/-- The extrema found over a stack that was built by pushes. -/
theorem Built.extrema {i : Nat} {vs : List Int} {c : Client Int} (hb : Built i vs c)
    (hne : vs ≠ []) (fuel : Nat) (hf : vs.length ≤ fuel) :
    ∃ h M m vM vm, c.heads[i]? = some h ∧
      max_element fuel c.pool h = .ok M ∧ value c.pool M = .ok vM ∧
      vM ∈ vs ∧ (∀ y ∈ vs, y ≤ vM) ∧
      min_element fuel c.pool h = .ok m ∧ value c.pool m = .ok vm ∧
      vm ∈ vs ∧ (∀ y ∈ vs, vm ≤ y) := by
  obtain ⟨fl, ls, h, l, hinv, hh, hl, hv⟩ := hb.chain
  have hc : IsChain c.pool h l := forall2_getElem? hinv.2.2.1 hh hl
  obtain ⟨l2, hl2⟩ : ∃ l2, l = h :: l2 := by
    rcases hc.cases_head with ⟨_, hnil⟩ | ⟨_, l2, hl2⟩
    · rw [hnil] at hv; exact absurd hv.symm hne
    · exact ⟨l2, hl2⟩
  subst hl2
  have hlen : (h :: l2).length ≤ fuel := by
    rw [← vals_length hc, hv]; exact hf
  obtain ⟨M, vM, a1, a2, a3, a4⟩ := max_element_spec hc fuel hlen
  obtain ⟨m, vm, b1, b2, b3, b4⟩ := min_element_spec hc fuel hlen
  rw [hv] at a3 a4 b3 b4
  exact ⟨h, M, m, vM, vm, hh, a1, a2, a3, a4, b1, b2, b3, b4⟩

/-- A run of pushes onto the held stack at position `hs1.length`: it returns,
the state stays reachable, the pushed values are added to what was built on
that stack, and what was built on the other stacks is kept. -/
theorem push_all_built [Inhabited T] {hs1 hs2 : List Nat} :
    ∀ (ws : List T) (p : stack_pool T) (h : Nat), Reach ⟨p, hs1 ++ h :: hs2⟩ →
      ∃ q h2, push_all ws h p = .ok (q, h2) ∧ Reach ⟨q, hs1 ++ h2 :: hs2⟩ ∧
        (∀ vs, Built hs1.length vs ⟨p, hs1 ++ h :: hs2⟩ →
          Built hs1.length (ws.reverse ++ vs) ⟨q, hs1 ++ h2 :: hs2⟩) ∧
        (∀ j vs, j ≠ hs1.length → Built j vs ⟨p, hs1 ++ h :: hs2⟩ →
          Built j vs ⟨q, hs1 ++ h2 :: hs2⟩)
  | [], p, h, hr => ⟨p, h, rfl, hr, fun vs hb => by simpa using hb, fun _ _ _ hb => hb⟩
  | v :: ws, p, h, hr => by
    obtain ⟨fl, ls, hinv⟩ := hr.inv
    obtain ⟨q1, h1, _, hp, _⟩ := push_spec v h hinv.1 hinv.2.1
    have hstep : Step ⟨p, hs1 ++ h :: hs2⟩ (some hs1.length) ⟨q1, hs1 ++ h1 :: hs2⟩ :=
      Step.push p hs1 h hs2 v q1 h1 hp
    obtain ⟨q, h2, e1, e2, e3, e4⟩ := push_all_built ws q1 h1 (Reach.step hr hstep)
    refine ⟨q, h2, ?_, e2, ?_, ?_⟩
    · rw [push_all, hp]; exact e1
    · intro vs hb
      have := e3 (v :: vs) (Built.push p hs1 h hs2 v q1 h1 vs hb rfl hp)
      simpa using this
    · intro j vs hj hb
      exact e4 j vs hj (Built.other _ _ _ vs hb hstep (fun hh => hj (Option.some.inj hh).symm))

/-- The run of the third scope of `main`, up to the two assertions. -/
theorem main_scope_three :
    ∃ p1 l1 p2 l2 M m,
      push_all [3, 1, 4, 1, 5, 9, 2, 6, 5, 3, 5]
        (new_stack (stack_pool.with_nodes 22 : stack_pool Int)) (stack_pool.with_nodes 22)
        = .ok (p1, l1) ∧
      push_all [8, 9, 7, 9, 3, 1, 1, 5, 9, 9, 7] (new_stack p1) p1 = .ok (p2, l2) ∧
      max_element 22 p2 l1 = .ok M ∧ value p2 M = .ok 9 ∧
      min_element 22 p2 l2 = .ok m ∧ value p2 m = .ok 1 := by
  have hr0 : Reach (⟨stack_pool.with_nodes 22, []⟩ : Client Int) :=
    Reach.step Reach.init (Step.reserve stack_pool.empty_pool [] 22 (by decide))
  have hb0 : Built 0 [] (⟨stack_pool.with_nodes 22, [] ++ 0 :: []⟩ : Client Int) :=
    Built.new ⟨stack_pool.with_nodes 22, []⟩ hr0 rfl
  have hr0b : Reach (⟨stack_pool.with_nodes 22, [] ++ 0 :: []⟩ : Client Int) :=
    Reach.step hr0 (Step.new_stack _ [])
  obtain ⟨p1, l1, e1, e2, e3, _⟩ :=
    push_all_built [3, 1, 4, 1, 5, 9, 2, 6, 5, 3, (5 : Int)] _ 0 hr0b
  have hb1 := e3 [] hb0
  have hstep : Step (⟨p1, [] ++ l1 :: []⟩ : Client Int) none ⟨p1, [l1] ++ 0 :: []⟩ :=
    Step.new_stack p1 [l1]
  have hr1 : Reach (⟨p1, [l1] ++ 0 :: []⟩ : Client Int) := Reach.step e2 hstep
  have hb1b : Built 0 _ (⟨p1, [l1] ++ 0 :: []⟩ : Client Int) :=
    Built.other _ _ _ _ hb1 hstep (by simp)
  have hb2 : Built 1 [] (⟨p1, [l1] ++ 0 :: []⟩ : Client Int) :=
    Built.new ⟨p1, [l1]⟩ e2 rfl
  obtain ⟨p2, l2, f1, _, f3, f4⟩ :=
    push_all_built [8, 9, 7, 9, 3, 1, 1, 5, 9, 9, (7 : Int)] p1 0 hr1
  have hc1 := f4 0 _ (by simp) hb1b
  have hc2 := f3 [] hb2
  obtain ⟨h, M, _, vM, _, a1, a2, a3, a4, a5, _⟩ := hc1.extrema (by simp) 22 (by simp)
  obtain ⟨hB, _, m, _, vm, b1, _, _, _, _, b6, b7, b8, b9⟩ := hc2.extrema (by simp) 22 (by simp)
  have hh1 : h = l1 := by simpa using a1.symm
  have hh2 : hB = l2 := by simpa using b1.symm
  subst hh1 hh2
  have hvM : vM = 9 := by
    have h9 := a5 9 (by simp)
    have hle : ∀ y ∈ ([3, 1, 4, 1, 5, 9, 2, 6, 5, 3, 5] : List Int).reverse ++ [], y ≤ 9 := by
      decide
    have := hle vM a4
    omega
  have hvm : vm = 1 := by
    have h1 := b9 1 (by simp)
    have hge : ∀ y ∈ ([8, 9, 7, 9, 3, 1, 1, 5, 9, 9, 7] : List Int).reverse ++ [], 1 ≤ y := by
      decide
    have := hge vm b8
    omega
  subst hvM hvm
  exact ⟨p1, h, p2, hB, M, m, e1, f1, a2, a3, b6, b7⟩

/-- C12 (the iterator under `std::max_element` and `std::min_element`).  For
a stack built by pushing a non-empty list of ints (`vs`, last pushed first),
whatever was done to other stacks of the pool in between, `std::max_element`
over `[begin(h), end(h))` returns an iterator to a slot whose value is one of
the pushed values and is at least every pushed value, and `std::min_element`
one whose value is one of the pushed values and at most every pushed value.
In the run of `main`, with `stack_pool(22)` and the two lists of eleven pushes,
the maximum over `l1` is 9 and the minimum over `l2` is 1. -/
theorem extrema_over_iterated_stack {i : Nat} {vs : List Int} {c : Client Int}
    (hb : Built i vs c) (hne : vs ≠ []) (fuel : Nat) (hf : vs.length ≤ fuel) :
    (∃ h M m vM vm, c.heads[i]? = some h ∧
      max_element fuel c.pool h = .ok M ∧ value c.pool M = .ok vM ∧
      vM ∈ vs ∧ (∀ y ∈ vs, y ≤ vM) ∧
      min_element fuel c.pool h = .ok m ∧ value c.pool m = .ok vm ∧
      vm ∈ vs ∧ (∀ y ∈ vs, vm ≤ y)) ∧
    (∃ p1 l1 p2 l2 M m,
      push_all [3, 1, 4, 1, 5, 9, 2, 6, 5, 3, 5]
        (new_stack (stack_pool.with_nodes 22 : stack_pool Int)) (stack_pool.with_nodes 22)
        = .ok (p1, l1) ∧
      push_all [8, 9, 7, 9, 3, 1, 1, 5, 9, 9, 7] (new_stack p1) p1 = .ok (p2, l2) ∧
      max_element 22 p2 l1 = .ok M ∧ value p2 M = .ok 9 ∧
      min_element 22 p2 l2 = .ok m ∧ value p2 m = .ok 1) :=
  ⟨hb.extrema hne fuel hf, main_scope_three⟩

/-- The stack `[11, 10]` built on a default-constructed pool: the maximum is
11 and the minimum is 10. -/
theorem extrema_over_iterated_stack_witness :
    Built 0 [11, 10] (⟨⟨⟨[⟨10, 0⟩, ⟨11, 1⟩], 2⟩, 0⟩, [2]⟩ : Client Int) ∧
    ([11, 10] : List Int) ≠ [] ∧ ([11, 10] : List Int).length ≤ 2 ∧
    max_element 2 (⟨⟨[⟨10, 0⟩, ⟨11, 1⟩], 2⟩, 0⟩ : stack_pool Int) 2 = .ok 2 ∧
    min_element 2 (⟨⟨[⟨10, 0⟩, ⟨11, 1⟩], 2⟩, 0⟩ : stack_pool Int) 2 = .ok 1 ∧
    ∃ h M m vM vm, (⟨⟨⟨[⟨10, 0⟩, ⟨11, 1⟩], 2⟩, 0⟩, [2]⟩ : Client Int).heads[0]? = some h ∧
      max_element 2 (⟨⟨[⟨10, 0⟩, ⟨11, 1⟩], 2⟩, 0⟩ : stack_pool Int) h = .ok M ∧
      value (⟨⟨[⟨10, 0⟩, ⟨11, 1⟩], 2⟩, 0⟩ : stack_pool Int) M = .ok vM ∧
      vM ∈ ([11, 10] : List Int) ∧ (∀ y ∈ ([11, 10] : List Int), y ≤ vM) ∧
      min_element 2 (⟨⟨[⟨10, 0⟩, ⟨11, 1⟩], 2⟩, 0⟩ : stack_pool Int) h = .ok m ∧
      value (⟨⟨[⟨10, 0⟩, ⟨11, 1⟩], 2⟩, 0⟩ : stack_pool Int) m = .ok vm ∧
      vm ∈ ([11, 10] : List Int) ∧ (∀ y ∈ ([11, 10] : List Int), vm ≤ y) :=
  have hb : Built 0 [11, 10] (⟨⟨⟨[⟨10, 0⟩, ⟨11, 1⟩], 2⟩, 0⟩, [2]⟩ : Client Int) :=
    Built.push ⟨⟨[⟨10, 0⟩], 1⟩, 0⟩ [] 1 [] 11 ⟨⟨[⟨10, 0⟩, ⟨11, 1⟩], 2⟩, 0⟩ 2 [10]
      (Built.push stack_pool.empty_pool [] 0 [] 10 ⟨⟨[⟨10, 0⟩], 1⟩, 0⟩ 1 []
        (Built.new ⟨stack_pool.empty_pool, []⟩ Reach.init rfl) rfl (by decide)) rfl (by decide)
  ⟨hb, by decide, by decide, by decide, by decide,
    (extrema_over_iterated_stack hb (by decide) 2 (by decide)).1⟩

/-! ## Stacks pushed after a call of `reserve` that does not grow the pool -/

/-- C1 (LIFO round trip), evaluated on a state reached from the empty pool by
the calls `reserve(4)`, `reserve(2)`, `reserve(2)`, `reserve(11)`: the two
calls `reserve(2)` append a slot each although `2 <= capacity()`, and the last
call leaves slot 9 as the free-list head with `next(9) == 9`.  Pushing 10 and
then 11 onto a new stack returns handle 9 both times, the second push links
slot 9 to itself, and iterating from the head never reaches `end()`: for no
loop bound does the iteration yield `[11, 10]`. -/
theorem lifo_broken_by_small_reserve :
    ∃ p q r : stack_pool Int,
      p = reserve 11 (reserve 2 (reserve 2 (reserve 4 stack_pool.empty_pool))) ∧
      capacity p = 11 ∧ p.free_nodes = 9 ∧ next p 9 = .ok 9 ∧
      push 10 (new_stack p) p = .ok (q, 9) ∧
      push 11 9 q = .ok (r, 9) ∧
      value r 9 = .ok 11 ∧ next r 9 = .ok 9 ∧
      ∀ fuel, iterate fuel r 9 = .error .out_of_fuel := by
  refine ⟨⟨⟨[⟨0, 2⟩, ⟨0, 3⟩, ⟨0, 4⟩, ⟨0, 0⟩, ⟨0, 1⟩, ⟨0, 5⟩, ⟨0, 10⟩, ⟨0, 11⟩, ⟨0, 9⟩], 11⟩, 9⟩,
    ⟨⟨[⟨0, 2⟩, ⟨0, 3⟩, ⟨0, 4⟩, ⟨0, 0⟩, ⟨0, 1⟩, ⟨0, 5⟩, ⟨0, 10⟩, ⟨0, 11⟩, ⟨10, 0⟩], 11⟩, 9⟩,
    ⟨⟨[⟨0, 2⟩, ⟨0, 3⟩, ⟨0, 4⟩, ⟨0, 0⟩, ⟨0, 1⟩, ⟨0, 5⟩, ⟨0, 10⟩, ⟨0, 11⟩, ⟨11, 9⟩], 11⟩, 0⟩,
    by decide, by decide, by decide, by decide, by decide, by decide, by decide, by decide, ?_⟩
  intro fuel
  induction fuel with
  | zero => decide
  | succ n ih =>
    rw [iterate, if_neg (by decide)]
    have hv : value (⟨⟨[⟨0, 2⟩, ⟨0, 3⟩, ⟨0, 4⟩, ⟨0, 0⟩, ⟨0, 1⟩, ⟨0, 5⟩, ⟨0, 10⟩, ⟨0, 11⟩,
        ⟨11, 9⟩], 11⟩, 0⟩ : stack_pool Int) 9 = .ok 11 := by decide
    have hn : next (⟨⟨[⟨0, 2⟩, ⟨0, 3⟩, ⟨0, 4⟩, ⟨0, 0⟩, ⟨0, 1⟩, ⟨0, 5⟩, ⟨0, 10⟩, ⟨0, 11⟩,
        ⟨11, 9⟩], 11⟩, 0⟩ : stack_pool Int) 9 = .ok 9 := by decide
    simp only [hv, hn, ih]
    rfl

/-- C3 (no cross-contamination), evaluated on a state reached by the calls
`reserve(4)`, `reserve(2)`, `reserve(2)`, `reserve(11)` on a default-constructed
pool.  The client pushes 10 onto a new stack B, which gets head 9 and iterates
as `[10]`, and creates a second stack A with `new_stack()`.  `push(20, A)`
returns handle 9 again, because slot 9 stayed the free-list head, and
overwrites the slot: afterwards iterating from B's head yields `[20]`. -/
theorem other_stack_changed_by_small_reserve :
    ∃ p q r : stack_pool Int,
      p = reserve 11 (reserve 2 (reserve 2 (reserve 4 stack_pool.empty_pool))) ∧
      push 10 (new_stack p) p = .ok (q, 9) ∧
      q.free_nodes = 9 ∧
      (∀ f, iterate (f + 1) q 9 = .ok [10]) ∧
      new_stack q ≠ 9 ∧
      push 20 (new_stack q) q = .ok (r, 9) ∧
      (∀ f, iterate (f + 1) r 9 = .ok [20]) := by
  refine ⟨⟨⟨[⟨0, 2⟩, ⟨0, 3⟩, ⟨0, 4⟩, ⟨0, 0⟩, ⟨0, 1⟩, ⟨0, 5⟩, ⟨0, 10⟩, ⟨0, 11⟩, ⟨0, 9⟩], 11⟩, 9⟩,
    ⟨⟨[⟨0, 2⟩, ⟨0, 3⟩, ⟨0, 4⟩, ⟨0, 0⟩, ⟨0, 1⟩, ⟨0, 5⟩, ⟨0, 10⟩, ⟨0, 11⟩, ⟨10, 0⟩], 11⟩, 9⟩,
    ⟨⟨[⟨0, 2⟩, ⟨0, 3⟩, ⟨0, 4⟩, ⟨0, 0⟩, ⟨0, 1⟩, ⟨0, 5⟩, ⟨0, 10⟩, ⟨0, 11⟩, ⟨20, 0⟩], 11⟩, 0⟩,
    by decide, by decide, by decide, ?_, by decide, by decide, ?_⟩
  · intro f
    have hv : value (⟨⟨[⟨0, 2⟩, ⟨0, 3⟩, ⟨0, 4⟩, ⟨0, 0⟩, ⟨0, 1⟩, ⟨0, 5⟩, ⟨0, 10⟩, ⟨0, 11⟩,
        ⟨10, 0⟩], 11⟩, 9⟩ : stack_pool Int) 9 = .ok 10 := by decide
    have hn : next (⟨⟨[⟨0, 2⟩, ⟨0, 3⟩, ⟨0, 4⟩, ⟨0, 0⟩, ⟨0, 1⟩, ⟨0, 5⟩, ⟨0, 10⟩, ⟨0, 11⟩,
        ⟨10, 0⟩], 11⟩, 9⟩ : stack_pool Int) 9 = .ok 0 := by decide
    rw [iterate, if_neg (by decide)]
    simp only [hv, hn]
    rw [iterate.eq_def]
    rfl
  · intro f
    have hv : value (⟨⟨[⟨0, 2⟩, ⟨0, 3⟩, ⟨0, 4⟩, ⟨0, 0⟩, ⟨0, 1⟩, ⟨0, 5⟩, ⟨0, 10⟩, ⟨0, 11⟩,
        ⟨20, 0⟩], 11⟩, 0⟩ : stack_pool Int) 9 = .ok 20 := by decide
    have hn : next (⟨⟨[⟨0, 2⟩, ⟨0, 3⟩, ⟨0, 4⟩, ⟨0, 0⟩, ⟨0, 1⟩, ⟨0, 5⟩, ⟨0, 10⟩, ⟨0, 11⟩,
        ⟨20, 0⟩], 11⟩, 0⟩ : stack_pool Int) 9 = .ok 0 := by decide
    rw [iterate, if_neg (by decide)]
    simp only [hv, hn]
    rw [iterate.eq_def]
    rfl

/-- C13 (`free_stack`), evaluated on a state reached by the calls
`reserve(4)`, `reserve(2)`, `reserve(2)`, `reserve(11)` on a default-constructed
pool followed by a push of 10 onto a new stack.  The stack has head 9 and the
chain `[9]` of `m = 1` slot, and slot 9 is the free-list head as well, the free
list being `[9]`.  `free_stack(9)` returns the sentinel and leaves the capacity
unchanged, but it links slot 9 to itself: the free list is a cycle, it has no
length, and following it never reaches the sentinel. -/
theorem free_stack_cycle_after_small_reserve :
    ∃ p q r : stack_pool Int,
      p = reserve 11 (reserve 2 (reserve 2 (reserve 4 stack_pool.empty_pool))) ∧
      push 10 (new_stack p) p = .ok (q, 9) ∧
      handles 11 q 9 = .ok [9] ∧
      handles 11 q q.free_nodes = .ok [9] ∧
      free_count 11 q = .ok 1 ∧
      free_stack 11 9 q = .ok (r, stack_end) ∧
      capacity r = capacity q ∧
      r.free_nodes = 9 ∧ next r 9 = .ok 9 ∧
      (∀ fuel, handles fuel r r.free_nodes = .error .out_of_fuel) ∧
      (∀ fuel, free_count fuel r = .error .out_of_fuel) := by
  have hcyc : ∀ fuel, handles fuel
      (⟨⟨[⟨0, 2⟩, ⟨0, 3⟩, ⟨0, 4⟩, ⟨0, 0⟩, ⟨0, 1⟩, ⟨0, 5⟩, ⟨0, 10⟩, ⟨0, 11⟩, ⟨10, 9⟩], 11⟩, 9⟩ :
        stack_pool Int) 9 = .error .out_of_fuel := by
    intro fuel
    induction fuel with
    | zero => decide
    | succ n ih =>
      have hn : next (⟨⟨[⟨0, 2⟩, ⟨0, 3⟩, ⟨0, 4⟩, ⟨0, 0⟩, ⟨0, 1⟩, ⟨0, 5⟩, ⟨0, 10⟩, ⟨0, 11⟩,
          ⟨10, 9⟩], 11⟩, 9⟩ : stack_pool Int) 9 = .ok 9 := by decide
      rw [handles, if_neg (by decide)]
      simp only [hn, ih]
      rfl
  refine ⟨⟨⟨[⟨0, 2⟩, ⟨0, 3⟩, ⟨0, 4⟩, ⟨0, 0⟩, ⟨0, 1⟩, ⟨0, 5⟩, ⟨0, 10⟩, ⟨0, 11⟩, ⟨0, 9⟩], 11⟩, 9⟩,
    ⟨⟨[⟨0, 2⟩, ⟨0, 3⟩, ⟨0, 4⟩, ⟨0, 0⟩, ⟨0, 1⟩, ⟨0, 5⟩, ⟨0, 10⟩, ⟨0, 11⟩, ⟨10, 0⟩], 11⟩, 9⟩,
    ⟨⟨[⟨0, 2⟩, ⟨0, 3⟩, ⟨0, 4⟩, ⟨0, 0⟩, ⟨0, 1⟩, ⟨0, 5⟩, ⟨0, 10⟩, ⟨0, 11⟩, ⟨10, 9⟩], 11⟩, 9⟩,
    by decide, by decide, by decide, by decide, by decide, by decide, by decide, by decide,
    by decide, hcyc, ?_⟩
  intro fuel
  show (handles fuel _ 9).map List.length = _
  rw [hcyc]
  rfl

end StackPool
